import Mathlib

/-! # ven: dependency resolution and manifest reconciliation

A shallow embedding of the vendoring tool's manifest store (`manifest.go`),
resolution orchestrator and import walker (`import.go`) and of the `get`
entry point (`get.go`).

Conventions of the embedding:

* a Go `string` is a `List Char` (`Str`); all separators the code looks for
  (`/`, a blank, `.`, `_`) are single bytes, so bytes and characters agree;
* a Go `map[string]V` is an association list (`GoMap V`) in which the first
  binding of a key is the one in force; `range` visits the bindings in list
  order; `map[string]struct{}` is `GoMap Unit`;
* a Go result `(…, found bool)` is an `Option`; `(…, error)` is an `Except`;
* the file system is the tree of the working directory; a path is walked
  element by element, `..` stepping back to the parent directory.
-/

namespace Ven

/-- Go strings, as lists of characters. -/
abbrev Str := List Char

/-! ## `strings` helpers -/

/-- Go `strings.Split(s, sep)` for a one-byte separator: `s` is cut at every
occurrence of `sep`; the result is never empty (`Split("", "/") = [""]`). -/
def strSplit (sep : Char) : Str → List Str
  | [] => [[]]
  | c :: cs =>
    if c = sep then [] :: strSplit sep cs
    else
      match strSplit sep cs with
      | [] => [[c]]
      | seg :: rest => (c :: seg) :: rest

/-- Go `strings.Join(parts, sep)` for a one-byte separator. -/
def strJoin (sep : Char) : List Str → Str
  | [] => []
  | [p] => p
  | p :: q :: ps => p ++ sep :: strJoin sep (q :: ps)

/-- Go `strings.HasPrefix(s, pre)`. -/
def hasPrefix : Str → Str → Bool
  | _, [] => true
  | [], _ :: _ => false
  | c :: cs, p :: ps => c == p && hasPrefix cs ps

/-- Go `strings.HasSuffix(s, suf)`. -/
def hasSuffix (s suf : Str) : Bool :=
  hasPrefix s.reverse suf.reverse

/-- Go `strings.Index(s, sub)`: the first position at which `sub` occurs in
`s`, `none` standing for `-1`. -/
def strIndex : Str → Str → Option Nat
  | [], sub => if sub = [] then some 0 else none
  | c :: cs, sub =>
    if hasPrefix (c :: cs) sub then some 0
    else (strIndex cs sub).map (· + 1)

/-- Go `strings.Contains(s, sub)`. -/
def strContains (s sub : Str) : Bool :=
  (strIndex s sub).isSome

/-- Go `strings.LastIndex(s, c)` for a one-byte `c`: the last position holding
`c`, `none` standing for `-1`. -/
def lastIndexChar (c : Char) : Str → Option Nat
  | [] => none
  | x :: xs =>
    match lastIndexChar c xs with
    | some i => some (i + 1)
    | none => if x = c then some 0 else none

/-- Go `strings.Replace(s, string(c), "", -1)`: every `c` is removed. -/
def removeChar (c : Char) (s : Str) : Str :=
  s.filter (fun x => x ≠ c)

/-- Go `sort.Strings`: ascending byte-wise lexicographic order. -/
def sortStrings (l : List Str) : List Str :=
  l.insertionSort (· ≤ ·)

/-- Go `strings.TrimPrefix(s, pre)`. -/
def trimPrefix (s pre : Str) : Str :=
  if hasPrefix s pre then s.drop pre.length else s

/-! ## Maps -/

/-- A Go `map[string]V`. -/
abbrev GoMap (V : Type) := List (Str × V)

namespace GoMap

variable {V : Type}

/-- The lookup `v, ok := m[k]`. -/
def get? : GoMap V → Str → Option V
  | [], _ => none
  | (k', v) :: rest, k => if k' = k then some v else get? rest k

/-- The test `_, ok := m[k]`. -/
def contains (m : GoMap V) (k : Str) : Bool :=
  (m.get? k).isSome

/-- The assignment `m[k] = v`: an existing binding is overwritten in place,
a new key is added. -/
def set : GoMap V → Str → V → GoMap V
  | [], k, v => [(k, v)]
  | (k', v') :: rest, k, v =>
    if k' = k then (k', v) :: rest else (k', v') :: set rest k v

/-- The statement `delete(m, k)`. -/
def erase (m : GoMap V) (k : Str) : GoMap V :=
  m.filter (fun kv => kv.1 ≠ k)

/-- The keys, in iteration order. -/
def keys (m : GoMap V) : List Str :=
  m.map Prod.fst

end GoMap

/-! ## The manifest (`manifest.go`) -/

/-- The `Package` record of the manifest. -/
structure Package where
  Name : Str := []
  Version : Str := []
  CommitHash : Str := []
  Subpackages : GoMap Unit := []
  Deps : GoMap Unit := []
deriving DecidableEq, Repr

/-- The `Manifest` record. -/
structure Manifest where
  VendorPath : Str := "./vendor".toList
  ExcludeDir : GoMap Unit := []
  ExcludeBuild : GoMap Unit := []
  ExcludePackages : GoMap Unit := []
  LocalPackages : GoMap Unit := []
  Constraints : GoMap Str := []
  /-- Whether the Go map `Constraints` is nil, as `parseManifest` leaves it
  when `Manifest.yml` has no `constraints` key (`m.Constraints =
  cfg.Constraints`): a nil map is read as an empty one (`Constraints` is then
  empty), and an assignment to it is a run-time panic. All other maps are made
  by `initManifest`. -/
  ConstraintsNil : Bool := false
  Packages : GoMap Package := []
deriving DecidableEq, Repr

/-- The loop shared by the five lookups of `manifest.go`:
`for len(parts) != 0 { pkgPart := Join(parts, "/"); if v, ok := m[pkgPart]; ok
{ return pkgPart, v, true }; parts = parts[:len(parts)-1] }`.
The third argument is `len(parts)`; the slice in force is `parts.take n`. -/
def prefixLoop {V : Type} (m : GoMap V) (parts : List Str) : Nat → Option (Str × V)
  | 0 => none
  | n + 1 =>
    let pkgPart := strJoin '/' (parts.take (n + 1))
    match m.get? pkgPart with
    | some v => some (pkgPart, v)
    | none => prefixLoop m parts n

/-- The body shared by the lookups: split, then run the loop. -/
def prefixLookup {V : Type} (m : GoMap V) (pkg : Str) : Option (Str × V) :=
  let parts := strSplit '/' pkg
  prefixLoop m parts parts.length

/-- `Manifest.IsLocalPkg`: the matched prefix, `none` for `("", false)`. -/
def Manifest.IsLocalPkg (m : Manifest) (pkg : Str) : Option Str :=
  (prefixLookup m.LocalPackages pkg).map Prod.fst

/-- `Manifest.IsExcludedPkg`: the matched prefix, `none` for `("", false)`. -/
def Manifest.IsExcludedPkg (m : Manifest) (pkg : Str) : Option Str :=
  (prefixLookup m.ExcludePackages pkg).map Prod.fst

/-- `Manifest.GetPkgDeps`: matched prefix and its value in `pkgs`. -/
def Manifest.GetPkgDeps (_m : Manifest) (pkg : Str) (pkgs : GoMap (List Str)) :
    Option (Str × List Str) :=
  prefixLookup pkgs pkg

/-- `Manifest.GetPkgConstraint`: matched prefix and the version under it. -/
def Manifest.GetPkgConstraint (m : Manifest) (pkg : Str) : Option (Str × Str) :=
  prefixLookup m.Constraints pkg

/-- `Manifest.PkgExists`: the record and the root it is registered under
(the Go order of results is `(existing, root, exists)`). -/
def Manifest.PkgExists (m : Manifest) (pkg : Str) : Option (Package × Str) :=
  (prefixLookup m.Packages pkg).map (fun kv => (kv.2, kv.1))

/-! ## Paths (`path`, `path/filepath`) -/

/-- The element stack of `path.Clean`: empty and `.` elements vanish, `..`
removes the element before it (at the start it is kept in a relative path and
dropped in a rooted one). The stack is kept in reverse. -/
def cleanElems (rooted : Bool) : List Str → List Str → List Str
  | [], acc => acc
  | e :: es, acc =>
    if e = [] ∨ e = ['.'] then cleanElems rooted es acc
    else if e = ['.', '.'] then
      match acc with
      | [] => if rooted then cleanElems rooted es [] else cleanElems rooted es [e]
      | top :: below =>
        if top = ['.', '.'] then cleanElems rooted es (e :: acc)
        else cleanElems rooted es below
    else cleanElems rooted es (e :: acc)

/-- Go `path.Clean` (and `filepath.Clean` on a slash-separated system). -/
def pathClean (p : Str) : Str :=
  let rooted := hasPrefix p ['/']
  let body := strJoin '/' (cleanElems rooted (strSplit '/' p) []).reverse
  if rooted then '/' :: body
  else if body = [] then ['.'] else body

/-- Go `path.Join(a, b)` for two elements: empty elements are ignored, the rest
is joined by `/` and cleaned; all empty gives the empty string. -/
def pathJoin (a b : Str) : Str :=
  if a = [] ∧ b = [] then []
  else if a = [] then pathClean b
  else if b = [] then pathClean a
  else pathClean (a ++ '/' :: b)

/-! ## The file system -/

/-- What the tool reads from one source file: the result of
`parser.ParseFile(…, parser.ImportsOnly)` (the external parser) and the lines
`bufio.Scanner` delivers. -/
structure GoFile where
  /-- `false`: `parser.ParseFile` returns an error. -/
  parses : Bool := true
  /-- The package clause: `parsedFile.Name.Name`. -/
  pkgName : Str := []
  /-- For each import spec its `Path.Value`, the literal with its quotes. -/
  imports : List Str := []
  /-- The lines of the file, as `scanner.Text()` gives them. -/
  lines : List Str := []
  /-- The number of lines before the line that holds the package clause (the
  position `parsedFile.Package` of the parser; the tool does not read it). -/
  clauseLine : Nat := 0
  /-- `true`: `os.Open` fails on the file. -/
  openFails : Bool := false
  /-- `true`: the scanner stops with an error after the last line. -/
  scanFails : Bool := false
deriving DecidableEq, Repr

/-- The listing of a directory, in `ioutil.ReadDir` order: each entry is a
file or a sub-directory with its own listing. -/
inductive Dir where
  | nil : Dir
  | file (name : Str) (src : GoFile) (rest : Dir) : Dir
  | sub (name : Str) (content : Dir) (rest : Dir) : Dir
deriving DecidableEq, Repr

namespace Dir

/-- The sub-directory `name` of a listing. -/
def child : Dir → Str → Option Dir
  | nil, _ => none
  | file _ _ rest, name => child rest name
  | sub n content rest, name => if n = name then some content else child rest name

/-- Whether the listing has an entry (file or directory) called `name`. -/
def hasEntry : Dir → Str → Bool
  | nil, _ => false
  | file n _ rest, name => n = name || hasEntry rest name
  | sub n _ rest, name => n = name || hasEntry rest name

/-- The listing at the end of a chain of directory names. -/
def cd : Dir → List Str → Option Dir
  | d, [] => some d
  | d, n :: ns =>
    match d.child n with
    | some c => cd c ns
    | none => none

/-- The listing without the entries called `name`. -/
def remove : Dir → Str → Dir
  | nil, _ => nil
  | file n src rest, name =>
    if n = name then remove rest name else file n src (remove rest name)
  | sub n content rest, name =>
    if n = name then remove rest name else sub n content (remove rest name)

/-- The listing with the sub-directory `name` set to `content` (in place when
the directory is there, at the end when it is not). -/
def setChild : Dir → Str → Dir → Dir
  | nil, name, c => sub name c nil
  | file n src rest, name, c => file n src (setChild rest name c)
  | sub n content rest, name, c =>
    if n = name then sub n c rest else sub n content (setChild rest name c)

/-- Removal of the entry at the end of a chain of names (`os.RemoveAll`);
a chain that leads nowhere changes nothing. -/
def removeAt : Dir → List Str → Dir
  | d, [] => d
  | d, [n] => d.remove n
  | d, n :: m :: ns =>
    match d.child n with
    | some c => d.setChild n (removeAt c (m :: ns))
    | none => d

/-- The directory at the end of a chain of names is set to `content`, missing
parents being created (`os.MkdirAll`). -/
def putAt : Dir → List Str → Dir → Dir
  | _, [], content => content
  | d, n :: ns, content =>
    d.setChild n (putAt ((d.child n).getD nil) ns content)

/-- Whether the listing is empty. -/
def isEmpty : Dir → Bool
  | nil => true
  | _ => false

end Dir

/-- The files a listing holds itself (not those of its sub-directories), with
their names. -/
def Dir.files : Dir → List (Str × GoFile)
  | .nil => []
  | .file name src rest => (name, src) :: rest.files
  | .sub _ _ rest => rest.files

/-- The import paths, with their quotes removed, that the files of a tree
declare, at any depth. -/
def Dir.allImports : Dir → List Str
  | .nil => []
  | .file _ src rest => src.imports.map (removeChar '"') ++ rest.allImports
  | .sub _ content rest => content.allImports ++ rest.allImports

/-- The walk of the operating system along the elements of a path (the texts
between its slashes), from the working directory, whose tree `fs` is: an empty
element and `.` stay in place; `..` steps back to the parent of the directory
reached so far, which has to be there (`none` when it is not: the system call
fails); any other name steps down. `acc` is the chain of names from the
working directory to the place reached. A `..` above the working directory is
kept as a name: what lies outside the working directory is held by the tree
under that name. -/
def walkPath (fs : Dir) : List Str → List Str → Option (List Str)
  | acc, [] => some acc
  | acc, e :: es =>
    if e = [] ∨ e = ['.'] then walkPath fs acc es
    else if e = ['.', '.'] then
      if acc = [] ∨ acc.getLast? = some ['.', '.'] then walkPath fs (acc ++ [e]) es
      else if (fs.cd acc).isSome then walkPath fs acc.dropLast es
      else none
    else walkPath fs (acc ++ [e]) es

/-- The chain of names from the working directory to the entry a path names,
`none` when the path cannot be walked. -/
def resolvePath (fs : Dir) (p : Str) : Option (List Str) :=
  walkPath fs [] (strSplit '/' p)

/-- The walk of `os.MkdirAll` (and of `git clone` towards its target) along the
elements of a path: as `walkPath`, each directory stepped into being made when
it is missing, so that `..` always finds the directory it steps back from. The
result is the tree with the directories made and the chain of the last one. -/
def makePath (fs : Dir) : List Str → List Str → Dir × List Str
  | acc, [] => (fs, acc)
  | acc, e :: es =>
    if e = [] ∨ e = ['.'] then makePath fs acc es
    else if e = ['.', '.'] ∧ ¬(acc = [] ∨ acc.getLast? = some ['.', '.']) then
      makePath fs acc.dropLast es
    else
      makePath (if (fs.cd (acc ++ [e])).isSome then fs else fs.putAt (acc ++ [e]) .nil)
        (acc ++ [e]) es

/-- The directory `path` is made, with the parents it lacks, and its content
set to `content`. -/
def putDir (fs : Dir) (path : Str) (content : Dir) : Dir :=
  (makePath fs [] (strSplit '/' path)).1.putAt (makePath fs [] (strSplit '/' path)).2 content

/-- The listing `ioutil.ReadDir(path)` returns, `none` when there is no such
directory. -/
def readDir (fs : Dir) (path : Str) : Option Dir :=
  (resolvePath fs path).bind fs.cd

/-- The statement `os.RemoveAll(path)` (the removal itself; its error, if any,
is the environment's): nothing is removed when the path cannot be walked. -/
def removeAll (fs : Dir) (path : Str) : Dir :=
  match resolvePath fs path with
  | some chain => fs.removeAt chain
  | none => fs

/-! ## Errors -/

/-- The errors of the resolution, one constructor for each place that builds
one; the fields are the values the message is formatted from. -/
inductive Err where
  /-- The text `pkg (%s): pkg has a constraint (%s), can't import version (%s)`. -/
  | constraintConflict (rootPkg constraintVersion version : Str)
  /-- The text `pkg (%s): fail remove existing pkg`. -/
  | removeExisting (root : Str)
  /-- The text `cannot get info about local pkg` or `cannot detect vcs version of package`. -/
  | localSource (pkg : Str)
  /-- The text `pkg (%s): cannot detect pkg repository`. -/
  | repoRoot (pkg : Str)
  /-- The text `pkg (%s): ven supports only git repos`. -/
  | notGit (pkg : Str)
  /-- The text `cannot clone local package %s`. -/
  | cloneLocal (pkg : Str)
  /-- The text `pkg (%s): cannot clone repo`. -/
  | cloneRepo (pkg : Str)
  /-- The text `failed filter pkg (%s)`. -/
  | filter (pkg : Str)
  /-- An error of `filepath.Walk` in `getPkgSubpackages`. -/
  | walkSubpackages (dir : Str)
  /-- The text `pkg (%s) is using subpackage (%s), which is deprecated in version: (%s)`,
  one triple for each message joined into the error. -/
  | deprecated (msgs : List (Str × Str × Str))
  /-- The context's error `ctx.Err()`. -/
  | cancelled
  /-- The text `directory %s not found, perhaps version of pkg (%s %s) is not compatible with code`. -/
  | dirNotFound (dir pkg : Str)
  /-- The text `fail open file %s`. -/
  | openFile (path : Str)
  /-- The text `fail read file %s`. -/
  | readFile (path : Str)
  /-- The text `pkg (%s): failed get imports: %v`. -/
  | getImports (pkg : Str) (cause : Err)
  /-- The text `failed get imports for a project: %v`. -/
  | projectImports (cause : Err)
  /-- No error value: the run-time panic `assignment to entry in nil map`,
  which ends the program where it stands. -/
  | nilMapPanic
deriving DecidableEq, Repr

/-! ## Directory exclusion and package roots (`import.go`) -/

/-- The function `dirIsExcluded`. -/
def dirIsExcluded (m : Manifest) (path : Str) : Bool :=
  let dirName :=
    match lastIndexChar '/' path with
    | some ind => path.drop (ind + 1)
    | none => path
  if dirName = "vendor".toList ∨ hasPrefix dirName ['.'] ∨ hasPrefix dirName ['_'] then true
  else
    let excludes := ["testdata".toList, "_testdata".toList] ++ m.ExcludeDir.keys
    excludes.any (fun excl =>
      hasSuffix path ('/' :: excl) || strContains ('/' :: path) ('/' :: excl ++ ['/']))

/-- The function `getPkgRoot`. -/
def getPkgRoot (pkg : Str) : Str :=
  let parts := strSplit '/' pkg
  if parts.length < 3 then pkg
  else if parts.head? = some "github.com".toList ∨ parts.head? = some "gopkg.in".toList ∨
      parts.head? = some "golang.org".toList ∨ parts.head? = some "gitlab.com".toList then
    strJoin '/' (parts.take 3)
  else pkg

/-! ## The import walker (`walkImports`) -/

/-- How `walkImports` treats one import. -/
inductive ImportClass where
  | dropped
  | «local»
  | external
deriving DecidableEq, Repr

/-- The tests `walkImports` makes on one import value `iVal` (quotes already
removed), in the order of the source: no slash, relative, first element
without a dot, prefix of the current package, prefix of the package or of its
three-element root. -/
def classifyImport (pkg iVal : Str) : ImportClass :=
  if !strContains iVal ['/'] then .dropped
  else if hasPrefix iVal "./".toList || hasPrefix iVal "../".toList then .dropped
  else if !strContains (iVal.take ((strIndex iVal ['/']).getD 0)) ['.'] then .dropped
  else if pkg ≠ [] && hasPrefix iVal pkg then .local
  else
    let parts := strSplit '/' pkg
    let pkgRoot := if parts.length > 3 then strJoin '/' (parts.take 3) else pkg
    if pkg ≠ [] && (hasPrefix iVal pkg || hasPrefix iVal pkgRoot) then .local
    else .external

/-- The body of the loop over `parsedFile.Imports`: the locals found so far and
the import set after one more import. -/
def walkImport (pkg : Str) (acc : List Str × GoMap Unit) (pathValue : Str) :
    List Str × GoMap Unit :=
  let iVal := removeChar '"' pathValue
  match classifyImport pkg iVal with
  | .dropped => acc
  | .local => (acc.1 ++ [iVal], acc.2)
  | .external =>
    if acc.2.contains iVal then acc else (acc.1, acc.2.set iVal ())

/-- The test on the file name: some excluded tag `excl` with the name ending
in `_excl.go`. -/
def nameHasExcludedTag (m : Manifest) (name : Str) : Bool :=
  m.ExcludeBuild.keys.any (fun excl => hasSuffix name ('_' :: excl ++ ".go".toList))

/-- The test `ScanLoop` makes on one line: the line starts with `//`, holds
`+build` at `buildIndex` with more than `len("+build ")` bytes from there on,
and every blank-separated field of `line[buildIndex+len("+build "):]` is an
excluded tag. -/
def lineExcludes (m : Manifest) (line : Str) : Bool :=
  match strIndex line "+build".toList with
  | none => false
  | some buildIndex =>
    if !hasPrefix line "//".toList || buildIndex + "+build ".length ≥ line.length then false
    else (strSplit ' ' (line.drop (buildIndex + "+build ".length))).all
      (fun build => m.ExcludeBuild.contains build)

/-- The loop `ScanLoop` over the lines of a file: `true` when a line excludes
the file, `false` when the package clause (a line starting with `package`) or
the end is reached first. -/
def scanLoop (m : Manifest) : List Str → Bool
  | [] => false
  | line :: rest =>
    if hasPrefix line "package".toList then false
    else if lineExcludes m line then true
    else scanLoop m rest

/-- The treatment of one file of the listing: `none` when the file is passed
over (`continue`), otherwise the imports it declares, ready for the
classification loop. -/
def fileImports (m : Manifest) (path name : Str) (src : GoFile) (parseMain : Bool) :
    Except Err (Option (List Str)) :=
  if !hasSuffix name ".go".toList then .ok none
  else if !src.parses then .ok none
  else if src.imports.length = 0 then .ok none
  else if !parseMain && src.pkgName = "main".toList then .ok none
  else if m.ExcludeBuild.length ≠ 0 then
    if nameHasExcludedTag m name then .ok none
    else if src.openFails then .error (.openFile path)
    else if scanLoop m src.lines then .ok none
    else if src.scanFails && !src.lines.any (fun l => hasPrefix l "package".toList) then
      .error (.readFile path)
    else .ok (some src.imports)
  else .ok (some src.imports)

/-- The loop `FilesLoop` of `walkImports` over the listing of `dir`; for a
sub-directory that is walked the recursive call reads the listing of the
joined path, which is the entry's own listing. The result is the locals and
the import set. -/
def walkEntries (m : Manifest) (pkg : Str) (scanAll parseMain : Bool) :
    Str → Dir → GoMap Unit → Except Err (List Str × GoMap Unit)
  | _, .nil, importsMap => .ok ([], importsMap)
  | dir, .sub name content rest, importsMap =>
    let path := pathJoin dir name
    if dirIsExcluded m path then walkEntries m pkg scanAll parseMain dir rest importsMap
    else if scanAll then
      match walkEntries m pkg scanAll parseMain path content importsMap with
      | .error e => .error e
      | .ok (localPkgs, im1) =>
        match walkEntries m pkg scanAll parseMain dir rest im1 with
        | .error e => .error e
        | .ok (locals, im2) => .ok (localPkgs ++ locals, im2)
    else walkEntries m pkg scanAll parseMain dir rest importsMap
  | dir, .file name src rest, importsMap =>
    match fileImports m (pathJoin dir name) name src parseMain with
    | .error e => .error e
    | .ok none => walkEntries m pkg scanAll parseMain dir rest importsMap
    | .ok (some imps) =>
      let r := imps.foldl (walkImport pkg) ([], importsMap)
      match walkEntries m pkg scanAll parseMain dir rest r.2 with
      | .error e => .error e
      | .ok (locals, im2) => .ok (r.1 ++ locals, im2)

/-- The function `walkImports`: the listing of `dir` is read (an error when the
directory is missing) and walked. -/
def walkImports (m : Manifest) (fs : Dir) (pkg dir : Str) (scanAll : Bool)
    (importsMap : GoMap Unit) (parseMain : Bool) : Except Err (List Str × GoMap Unit) :=
  match readDir fs dir with
  | none => .error (.dirNotFound dir pkg)
  | some files => walkEntries m pkg scanAll parseMain dir files importsMap

/-! ## The outside world: version control and foreign lock files -/

/-- A working tree at one revision, with what git reports about it. -/
structure Checkout where
  /-- The files of the working tree. -/
  tree : Dir := .nil
  /-- The output of `git rev-parse HEAD`; `none` when the command fails. -/
  commit : Option Str := some []
  /-- The output of `git describe --tags --abbrev=0`; `none` when it fails. -/
  tag : Option Str := none
deriving DecidableEq, Repr

/-- A git repository: the revision a fresh clone stands at, and the revisions
`git checkout ref` can switch to (the command fails for any other `ref`). -/
structure Repo where
  head : Checkout := {}
  refs : GoMap Checkout := []
deriving DecidableEq, Repr

/-- The fields of `vcs.RepoRoot` the tool reads. -/
structure RepoRoot where
  /-- The field `VCS.Cmd`. -/
  vcsCmd : Str := "git".toList
  /-- The field `Repo`, the repository URL. -/
  repo : Str := []
  /-- The field `Root`, the import path of the repository root. -/
  root : Str := []
deriving DecidableEq, Repr

/-- The external collaborators of the resolution. -/
structure World where
  /-- `vcs.RepoRootForImportPath(pkg, false)`; `none` is its error. -/
  repoRootForImportPath : Str → Option RepoRoot
  /-- What `git clone url` finds at the URL; `none` when the clone fails. -/
  gitClone : Str → Option Repo
  /-- Whether `os.Stat($GOPATH/src/pkg)` succeeds. -/
  localStat : Str → Bool
  /-- `vcs.FromDir($GOPATH/src/pkg, $GOPATH/src/)`: the pair `(vcs.Cmd, root)`,
  `none` for its error. -/
  vcsFromDir : Str → Option (Str × Str)
  /-- The repository in the directory `$GOPATH/src/root`, the source of
  `copyDir`; `none` when the directory is missing. -/
  localRepo : Str → Option Repo
  /-- The foreign lock-file adapters (`parse.Parsers`) on a directory: `none`
  when no adapter's `Check` accepts it, `some none` when the accepting
  adapter's `Parse` fails, otherwise the pairs `(Name, CommitHash)`. -/
  vendorTool : Str → Dir → Option (Option (List (Str × Str)))

/-! ## The state of a run -/

/-- The calls the resolution makes that the claims speak of. -/
inductive Event where
  /-- A call of `doImport`, the fetch provider, with its arguments `pkg`,
  `version`, `isLocal` and `versionRequired`. -/
  | fetch (pkg version : Str) (isLocal versionRequired : Bool)
  /-- The removal `os.RemoveAll(VendorPath/root)` of a vendor copy. -/
  | remove (root : Str)
deriving DecidableEq, Repr

/-- The `ImportOptions` record. -/
structure ImportOptions where
  Version : Str := []
  «Local» : Bool := false
  Subpackages : List Str := []
  FetchAll : Bool := false
  Update : Bool := false
  UpdateDeps : Bool := false
deriving DecidableEq, Repr

/-- The mutable state: the global `manifest`, the package-level variables of
`import.go`, the file system below the working directory, the answers the
successive `ctxCancelled(ctx)` calls will get (none left: not cancelled), and
the calls made so far. -/
structure State where
  manifest : Manifest := {}
  newPkgs : List Str := []
  cachedPkgs : GoMap Unit := []
  cachedConstraints : GoMap Str := []
  cachedExcluded : GoMap Unit := []
  fs : Dir := .nil
  ctx : List Bool := []
  trace : List Event := []
  /-- The manifest last written to `Manifest.yml` by `saveManifest`. -/
  saved : Option Manifest := none
deriving DecidableEq, Repr

/-- A Go result `error` together with the state it leaves; `err = none` is the
`nil` error. -/
structure Result where
  err : Option Err
  state : State
deriving DecidableEq, Repr

/-- The function `ctxCancelled`: the next answer of the context. -/
def ctxCancelled (s : State) : Bool × State :=
  match s.ctx with
  | [] => (false, s)
  | b :: rest => (b, { s with ctx := rest })

/-- The method `Package.String`. -/
def Package.String (p : Package) : Str :=
  "commit ".toList ++ p.CommitHash ++
    (if p.Version ≠ [] then ", version: ".toList ++ p.Version else [])

/-- The path `fmt.Sprintf("%s/%s", manifest.VendorPath, pkg)`. -/
def vendorDir (m : Manifest) (pkg : Str) : Str :=
  m.VendorPath ++ '/' :: pkg

/-! ## The fetch provider (`doImport` and what it calls) -/

/-- The function `checkoutRepo` on the repository cloned to `repoPath`: the
working tree is switched to `version` when one is given (a failure counts only
when `versionRequired`), then commit and nearest tag are read. The result is
`(commit, tag)`, or `none` for an error, and the file system. -/
def checkoutRepo (repo : Repo) (fs : Dir) (version repoPath : Str) (versionRequired : Bool) :
    Option (Str × Str) × Dir :=
  let switched : Option Checkout :=
    if version ≠ [] then
      match repo.refs.get? version with
      | some c => some c
      | none => if versionRequired then none else some repo.head
    else some repo.head
  match switched with
  | none => (none, fs)
  | some c =>
    let fs1 := putDir fs repoPath c.tree
    match c.commit with
    | none => (none, fs1)
    | some commit => (some (commit, c.tag.getD []), fs1)

/-- The function `cloneRepo`: `git clone repo dir` (failing when the remote
fails or `dir` is a non-empty directory), then `checkoutRepo`. -/
def cloneRepo (w : World) (fs : Dir) (version repo dir : Str) (versionRequired : Bool) :
    Option (Str × Str) × Dir :=
  match w.gitClone repo with
  | none => (none, fs)
  | some r =>
    if ((readDir fs dir).map Dir.isEmpty).getD true then
      checkoutRepo r (putDir fs dir r.head.tree) version dir versionRequired
    else (none, fs)

/-- The function `cloneLocalPkg`: `copyDir` (failing when cancelled, when the
source is missing or when the destination exists), then `checkoutRepo` with a
mandatory reference. -/
def cloneLocalPkg (w : World) (s : State) (pkg version destPath : Str) :
    Option (Str × Str) × State :=
  let (cancelled, s1) := ctxCancelled s
  if cancelled then (none, s1)
  else
    match w.localRepo pkg with
    | none => (none, s1)
    | some r =>
      if (readDir s1.fs destPath).isSome then (none, s1)
      else
        let res := checkoutRepo r (putDir s1.fs destPath r.head.tree) version destPath true
        (res.1, { s1 with fs := res.2 })

/-- The function `getPkgImportsFromPopularVendorTools`: the first adapter that
accepts the directory is parsed; each package it lists seeds
`cachedConstraints` unless the name is there already. The result is the list
`Name@CommitHash`, `none` for the error of a failed parse. -/
def getPkgImportsFromPopularVendorTools (w : World) (s : State) (dir : Str) :
    Option (List Str) × State :=
  match w.vendorTool dir s.fs with
  | none => (some [], s)
  | some none => (none, s)
  | some (some pkgs) =>
    let cc := pkgs.foldl
      (fun cc p => if cc.contains p.1 then cc else cc.set p.1 p.2) s.cachedConstraints
    (some (pkgs.map (fun p => p.1 ++ '@' :: p.2)), { s with cachedConstraints := cc })

/-- Whether `filterNonGoFiles` deletes the file at `path`: it is no Go source
(or is a test) and has none of the extensions kept for cgo and assembler. -/
def fileIsFiltered (path : Str) : Bool :=
  (!hasSuffix path ".go".toList || hasSuffix path "_test.go".toList) &&
    !(["s", "S", "asm", "h", "o", "c", "cc"].any
      (fun ext => hasSuffix path ('.' :: ext.toList)))

/-- The walk of `filterNonGoFiles` below the directory `path`: excluded
directories and filtered files are deleted. -/
def filterEntries (m : Manifest) : Str → Dir → Dir
  | _, .nil => .nil
  | path, .file name src rest =>
    if fileIsFiltered (pathJoin path name) then filterEntries m path rest
    else .file name src (filterEntries m path rest)
  | path, .sub name content rest =>
    if dirIsExcluded m (pathJoin path name) then filterEntries m path rest
    else .sub name (filterEntries m (pathJoin path name) content) (filterEntries m path rest)

/-- The second loop of `filterNonGoFiles`: each directory the walk kept and
found without entries afterwards is deleted (a directory emptied only by this
loop stays). -/
def dropEmptyDirs : Dir → Dir
  | .nil => .nil
  | .file name src rest => .file name src (dropEmptyDirs rest)
  | .sub name content rest =>
    if content.isEmpty then dropEmptyDirs rest
    else .sub name (dropEmptyDirs content) (dropEmptyDirs rest)

/-- The function `filterNonGoFiles` on the directory `dir`. -/
def filterNonGoFiles (m : Manifest) (fs : Dir) (dir : Str) : Dir :=
  match readDir fs dir with
  | none => fs
  | some d =>
    if dirIsExcluded m dir then removeAll fs dir
    else
      let c := filterEntries m dir d
      if c.isEmpty then removeAll fs dir else putDir fs dir (dropEmptyDirs c)

/-- The results `(root, info, deps, pkgErr)` of `doImport`. -/
structure DoImportResult where
  root : Str := []
  info : Package := {}
  deps : List Str := []
  pkgErr : Option Err := none
deriving DecidableEq, Repr

/-- The end of `doImport`, once the package is in the vendor directory:
foreign lock files seed the constraint cache, files that are no Go sources are
removed, and the record is built (its version is the requested one, or the
nearest tag when none was requested). -/
def finishImport (w : World) (s : State) (pkg version commit commitVersion : Str)
    (fetchDeps : Bool) : DoImportResult × State :=
  let vendorPath := vendorDir s.manifest pkg
  let s1 := if fetchDeps then (getPkgImportsFromPopularVendorTools w s vendorPath).2 else s
  let deps :=
    if fetchDeps then (getPkgImportsFromPopularVendorTools w s vendorPath).1.getD [] else []
  let s2 := { s1 with fs := filterNonGoFiles s1.manifest s1.fs vendorPath }
  let pkgVersion := if version = [] then commitVersion else version
  ({ root := pkg, info := { CommitHash := commit, Version := pkgVersion }, deps := deps }, s2)

/-- The function `doImport`, the fetch provider: the repository of `pkg` is
found and cloned (or, for a local package, copied from `$GOPATH`) into the
vendor directory and switched to `version`, then `finishImport`. (The source's
parameter `update` is not read by the function and is left out.) -/
def doImport (w : World) (s : State) (pkg version : Str)
    (isLocal fetchDeps versionRequired : Bool) : DoImportResult × State :=
  let s := { s with trace := s.trace ++ [Event.fetch pkg version isLocal versionRequired] }
  if isLocal then
    if !w.localStat pkg then ({ pkgErr := some (.localSource pkg) }, s)
    else
      match w.vcsFromDir pkg with
      | none => ({ pkgErr := some (.localSource pkg) }, s)
      | some (cmd, rootPkg) =>
        if cmd ≠ "git".toList then ({ root := rootPkg, pkgErr := some (.notGit pkg) }, s)
        else
          let r := cloneLocalPkg w s rootPkg version (vendorDir s.manifest rootPkg)
          match r.1 with
          | none => ({ root := rootPkg, pkgErr := some (.cloneLocal rootPkg) }, r.2)
          | some (commit, commitVersion) =>
            finishImport w r.2 rootPkg version commit commitVersion fetchDeps
  else
    match w.repoRootForImportPath pkg with
    | none => ({ pkgErr := some (.repoRoot pkg) }, s)
    | some repoRoot =>
      if repoRoot.vcsCmd ≠ "git".toList then ({ pkgErr := some (.notGit pkg) }, s)
      else
        let r := cloneRepo w s.fs version (repoRoot.repo ++ ".git".toList)
          (vendorDir s.manifest repoRoot.root) versionRequired
        let s1 := { s with fs := r.2 }
        match r.1 with
        | none => ({ root := repoRoot.root, pkgErr := some (.cloneRepo repoRoot.root) }, s1)
        | some (commit, commitVersion) =>
          finishImport w s1 repoRoot.root version commit commitVersion fetchDeps

/-! ## Scanning a fetched package (`getPkgSubpackages`, `getPkgImports`) -/

/-- The directories `filepath.Walk` visits below the directory `path`, each
reported as the cleaned join of its parent's path and its name. -/
def walkDirs : Str → Dir → List Str
  | _, .nil => []
  | path, .file _ _ rest => walkDirs path rest
  | path, .sub name content rest =>
    pathJoin path name :: (walkDirs (pathJoin path name) content ++ walkDirs path rest)

/-- The function `getPkgSubpackages`: every directory the walk of `dir`
reports (the root as it was passed), with the prefix `VendorPath/` trimmed;
`none` is the error of the walk. -/
def getPkgSubpackages (m : Manifest) (fs : Dir) (dir : Str) : Option (List Str) :=
  match readDir fs dir with
  | none => none
  | some d =>
    some (((if dir = [] then [] else [dir]) ++ walkDirs dir d).map
      (fun path => trimPrefix path (m.VendorPath ++ ['/'])))

/-- The choice of `dirsToWalk` among the requested sub-packages: the first one
naming the main directory is taken as it is, the others when their directory
is not excluded. The state is `(includesMainDir, dirsToWalk)`. -/
def chooseDirs (m : Manifest) (pkg dir : Str) (acc : Bool × List Str) (d : Str) :
    Bool × List Str :=
  if !acc.1 && (d = dir || d = pkg) then (true, acc.2 ++ [d])
  else if !dirIsExcluded m d then (acc.1, acc.2 ++ [d])
  else acc

/-- The inner loop `for _, dir := range dirsToWalk`: each directory is walked
below the vendor path and marked in `walkMap`; the locals it reports that are
not marked yet go to `nextDirs`. The state is
`(walkMap, importsMap, nextDirs)`. -/
def walkListed (m : Manifest) (fs : Dir) (pkg : Str) (parseMain : Bool) :
    List Str → GoMap Unit × GoMap Unit × List Str →
      Except Err (GoMap Unit × GoMap Unit × List Str)
  | [], acc => .ok acc
  | dir :: rest, (walkMap, importsMap, nextDirs) =>
    match walkImports m fs pkg (m.VendorPath ++ '/' :: dir) false importsMap parseMain with
    | .error e => .error e
    | .ok (locals, im1) =>
      let walkMap1 := walkMap.set dir ()
      walkListed m fs pkg parseMain rest
        (walkMap1, im1, nextDirs ++ locals.filter (fun l => !walkMap1.contains l))

/-- The loop `for len(dirsToWalk) != 0`: rounds of `walkListed` until no new
directory is reported; `none` when the rounds allowed are used up. -/
def walkRounds (m : Manifest) (fs : Dir) (pkg : Str) (parseMain : Bool) :
    Nat → List Str → GoMap Unit × GoMap Unit → Option (Except Err (GoMap Unit × GoMap Unit))
  | _, [], acc => some (.ok acc)
  | 0, _ :: _, _ => none
  | fuel + 1, d :: ds, (walkMap, importsMap) =>
    match walkListed m fs pkg parseMain (d :: ds) (walkMap, importsMap, []) with
    | .error e => some (.error e)
    | .ok (walkMap1, im1, nextDirs) => walkRounds m fs pkg parseMain fuel nextDirs (walkMap1, im1)

/-- The grouping loop of `getPkgImports`: the import `i` goes to the group of
the longest key of `rootPkgsMap` that is a prefix of its root (the root being
the manifest's registered root when there is one), or opens a group. -/
def groupImport (m : Manifest) (rootPkgsMap : GoMap (List Str)) (i : Str) : GoMap (List Str) :=
  let rootPkg :=
    match m.PkgExists (getPkgRoot i) with
    | some (_, root) => root
    | none => getPkgRoot i
  match m.GetPkgDeps rootPkg rootPkgsMap with
  | some (root, subpkgs) => rootPkgsMap.set root (subpkgs ++ [i])
  | none => rootPkgsMap.set rootPkg [i]

/-- The function `getPkgImports`: the sorted external imports, the local
sub-packages, and the imports grouped by root; `none` when the rounds of the
walk run out. -/
def getPkgImports (m : Manifest) (fs : Dir) (fuel : Nat) (pkg : Str) (subpkgs : List Str)
    (dir : Str) (isNewPkg fetchAll parseMain : Bool) :
    Option (Except Err (List Str × List Str × GoMap (List Str))) :=
  let walked : Option (Except Err (List Str × GoMap Unit)) :=
    if fetchAll then
      some (walkImports m fs pkg dir fetchAll [] parseMain)
    else
      let chosen := subpkgs.foldl (chooseDirs m pkg dir) (false, [])
      let dirsToWalk := if !chosen.1 && isNewPkg then chosen.2 ++ [pkg] else chosen.2
      match walkRounds m fs pkg parseMain fuel dirsToWalk ([], []) with
      | none => none
      | some (.error e) => some (.error e)
      | some (.ok (walkMap, importsMap)) => some (.ok (walkMap.keys, importsMap))
  match walked with
  | none => none
  | some (.error e) => some (.error e)
  | some (.ok (localPkgs, importsMap)) =>
    let imports := sortStrings importsMap.keys
    some (.ok (imports, localPkgs, imports.foldl (groupImport m) []))

/-- The first half of `getPkgImports`, up to the point where `importsMap` is
read: the walk of the whole directory when `fetchAll`, otherwise the rounds
over the chosen directories. The result is the local sub-packages and the
external import set `importsMap`. -/
def collectImports (m : Manifest) (fs : Dir) (fuel : Nat) (pkg : Str) (subpkgs : List Str)
    (dir : Str) (isNewPkg fetchAll parseMain : Bool) :
    Option (Except Err (List Str × GoMap Unit)) :=
  if fetchAll then
    some (walkImports m fs pkg dir fetchAll [] parseMain)
  else
    let chosen := subpkgs.foldl (chooseDirs m pkg dir) (false, [])
    let dirsToWalk := if !chosen.1 && isNewPkg then chosen.2 ++ [pkg] else chosen.2
    match walkRounds m fs pkg parseMain fuel dirsToWalk ([], []) with
    | none => none
    | some (.error e) => some (.error e)
    | some (.ok (walkMap, importsMap)) => some (.ok (walkMap.keys, importsMap))

/-! ## The resolution (`importPackage`) -/

/-- The version decision of `importPackage`: a non-empty constraint on the
root is authoritative and makes the version required (an explicit different
version is the conflict error); otherwise the cached constraint of the root
stands in for a missing version. The result is `(version, versionRequired)`. -/
def resolveVersion (s : State) (rootPkg version : Str) : Except Err (Str × Bool) :=
  match s.manifest.GetPkgConstraint rootPkg with
  | some (_, constraintVersion) =>
    if constraintVersion ≠ [] then
      if version = [] then .ok (constraintVersion, true)
      else if version ≠ constraintVersion then
        .error (.constraintConflict rootPkg constraintVersion version)
      else .ok (version, true)
    else
      let v := (s.cachedConstraints.get? rootPkg).getD []
      if version = [] ∧ v ≠ [] then .ok (v, false) else .ok (version, false)
  | none =>
    let v := (s.cachedConstraints.get? rootPkg).getD []
    if version = [] ∧ v ≠ [] then .ok (v, false) else .ok (version, false)

/-- The sub-packages of the request that are new to the record `existing`:
the requested ones, with `pkg` itself when it is not the root, that the record
does not list and whose directory is not excluded. -/
def newSubpackages (m : Manifest) (existing : Package) (root pkg : Str)
    (requested : List Str) : List Str :=
  (if pkg ≠ root then requested ++ [pkg] else requested).filter
    (fun subpkg => !existing.Subpackages.contains subpkg && !dirIsExcluded m subpkg)

/-- The sub-packages the record lists that the fetched tree no longer has. -/
def deprecatedPkgs (info : Package) (subpkgs : List Str) : List Str :=
  info.Subpackages.keys.filter (fun subpkg => !subpkgs.contains subpkg)

/-- The messages of the deprecation check: for every package of the manifest
and every deprecated sub-package among its dependencies, the package, the
sub-package and the fetched version. -/
def deprecationMsgs (m : Manifest) (deprecated : List Str) (pkgInfo : Package) :
    List (Str × Str × Str) :=
  m.Packages.flatMap (fun kv =>
    (deprecated.filter (fun d => kv.2.Deps.contains d)).map
      (fun d => (kv.1, d, pkgInfo.String)))

/-- How far one call of `importPackage` gets before its loop over the
dependencies: it has returned, or it is about to recurse into `depsMap`. -/
inductive Step where
  | ret (r : Result)
  | recurse (s : State) (depsMap : GoMap (List Str))
deriving DecidableEq, Repr

/-- The state a step ends in. -/
def Step.state : Step → State
  | .ret r => r.state
  | .recurse s _ => s

/-- The tail of `importPackage` from the cancellation check on: the package is
scanned, its record is written, the root is marked processed. `shared` is the
manifest key whose record shares its `Subpackages` map with `info` (the record
found at the start of the call). -/
def recordPackage (fuel : Nat) (s : State) (pkg rootPkg : Str) (info : Package)
    (shared : Option (Str × Package)) (newSubpkgs : List Str)
    (isNewPkg isLocal fetchAll : Bool) : Option Step :=
  let (cancelled, s) := ctxCancelled s
  if cancelled then some (.ret ⟨some .cancelled, s⟩)
  else
    match getPkgImports s.manifest s.fs fuel rootPkg newSubpkgs
        (vendorDir s.manifest rootPkg) isNewPkg fetchAll false with
    | none => none
    | some (.error e) => some (.ret ⟨some (.getImports pkg e), s⟩)
    | some (.ok (imports, localSubpkgs, depsMap)) =>
      let deps := imports.foldl (fun d i => d.set i ()) info.Deps
      let subs := localSubpkgs.foldl
        (fun sp subpkg => if subpkg ≠ rootPkg then sp.set subpkg () else sp) info.Subpackages
      let info1 : Package := { info with Deps := deps, Subpackages := subs }
      let pkgs0 :=
        match shared with
        | some (key, old) => s.manifest.Packages.set key { old with Subpackages := subs }
        | none => s.manifest.Packages
      let m1 := { s.manifest with Packages := pkgs0.set rootPkg info1 }
      let m2 :=
        if isLocal ∧ !m1.LocalPackages.contains rootPkg then
          { m1 with LocalPackages := m1.LocalPackages.set rootPkg () }
        else m1
      some (.recurse { s with manifest := m2, cachedPkgs := s.cachedPkgs.set rootPkg () } depsMap)

/-- The statement after the fetch: `if root != "" && ctxCancelled(ctx) &&
!isUpdate { newPkgs = append(newPkgs, root) }`. -/
def noteCancelled (isUpdate : Bool) (s : State) (root : Str) : State :=
  if root ≠ [] then
    if (ctxCancelled s).1 && !isUpdate then
      { (ctxCancelled s).2 with newPkgs := (ctxCancelled s).2.newPkgs ++ [root] }
    else (ctxCancelled s).2
  else s

/-- The statement `if !isUpdate && isNewPkg { newPkgs = append(newPkgs, rootPkg) }`. -/
def noteNewPkg (isUpdate isNewPkg : Bool) (s : State) (rootPkg : Str) : State :=
  if !isUpdate && isNewPkg then { s with newPkgs := s.newPkgs ++ [rootPkg] } else s

/-- The update of an existing package after its fetch: the sub-packages of the
record `info` are compared with the directories of the fetched tree; a
deprecated one that a package of the manifest depends on is the conflict
error; otherwise the deprecated ones leave the record (whose `Subpackages` map
the manifest shares), and the package is recorded. -/
def reconcileUpdate (fuel : Nat) (s : State) (pkg rootPkg : Str) (r : DoImportResult)
    (info : Package) (opts : ImportOptions) (newSubpkgs : List Str) (isLocal : Bool) :
    Option Step :=
  match getPkgSubpackages s.manifest s.fs (vendorDir s.manifest rootPkg) with
  | none => some (.ret ⟨some (.walkSubpackages (vendorDir s.manifest rootPkg)), s⟩)
  | some subpkgs =>
    let deprecated := deprecatedPkgs info subpkgs
    let msgs := deprecationMsgs s.manifest deprecated r.info
    if deprecated.length ≠ 0 ∧ msgs.length ≠ 0 then
      some (.ret ⟨some (.deprecated msgs), s⟩)
    else
      let kept := deprecated.foldl (fun sp d => sp.erase d) info.Subpackages
      let old : Package := { info with Subpackages := kept }
      let s3 := { s with manifest :=
        { s.manifest with Packages := s.manifest.Packages.set rootPkg old } }
      recordPackage fuel (noteNewPkg (opts.Update || opts.UpdateDeps) false s3 r.root) pkg r.root
        { r.info with Subpackages := kept } (some (rootPkg, old)) newSubpkgs false isLocal
        opts.FetchAll

/-- The part of `importPackage` from the fetch on (`if performImport`, the
bookkeeping of new packages, then `recordPackage`). `existing` is the record
found for the root, if any; without one the package is new. -/
def fetchAndRecord (w : World) (fuel : Nat) (s : State) (pkg rootPkg version : Str)
    (opts : ImportOptions) (existing : Option Package) (newSubpkgs : List Str)
    (performImport isLocal versionRequired : Bool) : Option Step :=
  let isUpdate := opts.Update || opts.UpdateDeps
  if performImport then
    let d := doImport w s rootPkg version isLocal true versionRequired
    let s2 := noteCancelled isUpdate d.2 d.1.root
    match d.1.pkgErr with
    | some e => some (.ret ⟨some e, s2⟩)
    | none =>
      match existing with
      | none =>
        recordPackage fuel (noteNewPkg isUpdate true s2 d.1.root) pkg d.1.root d.1.info none
          newSubpkgs true isLocal opts.FetchAll
      | some info => reconcileUpdate fuel s2 pkg rootPkg d.1 info opts newSubpkgs isLocal
  else
    match existing with
    | none =>
      recordPackage fuel (noteNewPkg isUpdate true s rootPkg) pkg rootPkg {} none newSubpkgs
        true isLocal opts.FetchAll
    | some info =>
      recordPackage fuel (noteNewPkg isUpdate false s rootPkg) pkg rootPkg info
        (some (rootPkg, info)) newSubpkgs false isLocal opts.FetchAll

/-- The statement `if opts.Update { os.RemoveAll(VendorPath/root) }`. -/
def removeExisting (update : Bool) (s : State) (root : Str) : State :=
  if update then
    { s with fs := removeAll s.fs (vendorDir s.manifest root),
             trace := s.trace ++ [Event.remove root] }
  else s

/-- One call of `importPackage` up to its loop over the dependencies. -/
def importStep (w : World) (fuel : Nat) (s : State) (pkg : Str) (opts : ImportOptions) :
    Option Step :=
  let rootPkg := getPkgRoot pkg
  match s.manifest.IsExcludedPkg rootPkg with
  | some root =>
    if s.cachedExcluded.contains root then some (.ret ⟨none, s⟩)
    else some (.ret ⟨none, { s with cachedExcluded := s.cachedExcluded.set root () }⟩)
  | none =>
    let isLocal := opts.Local || (s.manifest.IsLocalPkg rootPkg).isSome
    match resolveVersion s rootPkg opts.Version with
    | .error e => some (.ret ⟨some e, s⟩)
    | .ok (version, versionRequired) =>
      match s.manifest.PkgExists rootPkg with
      | none =>
        fetchAndRecord w fuel s pkg rootPkg version opts none opts.Subpackages
          true isLocal versionRequired
      | some (existing, root) =>
        let newSubpkgs := newSubpackages s.manifest existing root pkg opts.Subpackages
        let updatePkgImports := newSubpkgs.length ≠ 0
        if s.cachedPkgs.contains root ∧ ¬updatePkgImports then some (.ret ⟨none, s⟩)
        else if ¬opts.Update ∧ ¬updatePkgImports then some (.ret ⟨none, s⟩)
        else if (version ≠ [] ∧ version = existing.Version) ∧ ¬updatePkgImports then
          some (.ret ⟨none, s⟩)
        else
          let performImport := opts.Update && !(version ≠ [] ∧ version = existing.Version)
          fetchAndRecord w fuel (removeExisting opts.Update s root) pkg root version opts
            (some existing) newSubpkgs performImport isLocal versionRequired

/-- The loop `for importRoot, importSubpkgs := range depsMap` with the call
`importOne` for the recursive `importPackage`: the first error ends it. -/
def importDeps (importOne : State → Str → ImportOptions → Option Result) (updateDeps : Bool) :
    State → GoMap (List Str) → Option Result
  | s, [] => some ⟨none, s⟩
  | s, (importRoot, importSubpkgs) :: rest =>
    match importOne s importRoot
        { Update := updateDeps, UpdateDeps := updateDeps, Subpackages := importSubpkgs } with
    | none => none
    | some r =>
      match r.err with
      | some e => some ⟨some e, r.state⟩
      | none => importDeps importOne updateDeps r.state rest

/-- The function `importPackage`. The first argument bounds the depth of the
recursion (and the rounds of each scan); `none` means the bound was reached
before the call returned. -/
def importPackage (w : World) : Nat → State → Str → ImportOptions → Option Result
  | 0, _, _, _ => none
  | fuel + 1, s, pkg, opts =>
    match importStep w fuel s pkg opts with
    | none => none
    | some (.ret r) => some r
    | some (.recurse s1 depsMap) => importDeps (importPackage w fuel) opts.UpdateDeps s1 depsMap

/-! ## The entry points (`get.go`, `fetch.go`) -/

/-- The function `saveManifest`: the manifest is written to `Manifest.yml`. -/
def saveManifest (s : State) : State :=
  { s with saved := some s.manifest }

/-- The request `Get` builds from one argument: the package, its options, and
the manifest with the constraint recorded when the flag asks for it; `none`
when the assignment `manifest.Constraints[pkg] = version` panics, the map being
nil. -/
def parseGetArg (m : Manifest) (arg : Str) (update updateDeps constraint : Bool) :
    Option (Str × ImportOptions × Manifest) :=
  let isLocal := hasPrefix arg "file://".toList
  let pkg := if isLocal then trimPrefix arg "file://".toList else arg
  let split : Option (Str × Str) :=
    match strIndex pkg ['@'] with
    | some i => if i ≠ pkg.length - 1 then some (pkg.take i, pkg.drop (i + 1)) else none
    | none => none
  let pkg1 := (split.map Prod.fst).getD pkg
  let version := (split.map Prod.snd).getD []
  let m1 :=
    if split.isSome ∧ constraint then { m with Constraints := m.Constraints.set pkg1 version }
    else m
  if split.isSome ∧ constraint ∧ m.ConstraintsNil then none
  else
    some (pkg1,
      { FetchAll := pkg1 = getPkgRoot pkg1, «Local» := isLocal, Update := update,
        UpdateDeps := updateDeps, Version := version },
      m1)

/-- The function `Get`. Its result list is the local variable `newPkgs` of
`Get`, which nothing appends to. A panic is reported as the result
`nilMapPanic`, with the state the program ends in. -/
def Get (w : World) (fuel : Nat) (update updateDeps constraint : Bool) :
    State → List Str → Option (List Str × Result)
  | s, [] => some ([], ⟨none, saveManifest s⟩)
  | s, arg :: rest =>
    match parseGetArg s.manifest arg update updateDeps constraint with
    | none => some ([], ⟨some .nilMapPanic, s⟩)
    | some req =>
      match importPackage w fuel { s with manifest := req.2.2 } req.1 req.2.1 with
      | none => none
      | some r =>
        match r.err with
        | some e => some ([], ⟨some e, r.state⟩)
        | none => Get w fuel update updateDeps constraint r.state rest

/-- The function `Fetch`. -/
def Fetch (w : World) (fuel : Nat) (s : State) (pkg : Str) (update : Bool) : Option Result :=
  let s1 := (getPkgImportsFromPopularVendorTools w s "./".toList).2
  match getPkgImports s1.manifest s1.fs fuel pkg [] "./".toList true true true with
  | none => none
  | some (.error e) => some ⟨some (.projectImports e), s1⟩
  | some (.ok (_, _, depsMap)) =>
    match importDeps (importPackage w fuel) update s1 depsMap with
    | none => none
    | some r =>
      match r.err with
      | some e => some ⟨some e, r.state⟩
      | none => some ⟨none, saveManifest r.state⟩

/-! ## The command `get` (`main.go`, `file.go`) -/

/-- Whether a chain of names leads to an entry, file or directory, of the
listing (the empty chain is the listing itself). -/
def Dir.existsAt : Dir → List Str → Bool
  | _, [] => true
  | d, [n] => d.hasEntry n
  | d, n :: m :: ns =>
    match d.child n with
    | some c => existsAt c (m :: ns)
    | none => false

/-- Whether `os.Stat(path)` finds something: the working directory itself, or
an entry (file or directory) at the end of the path. -/
def pathExists (fs : Dir) (path : Str) : Bool :=
  match resolvePath fs path with
  | some chain => fs.existsAt chain
  | none => false

/-- The function `vendorExists`. -/
def vendorExists (s : State) : Bool :=
  pathExists s.fs s.manifest.VendorPath

/-- The function `copyDir` under a context that is never cancelled
(`context.Background()`): the tree at `path` is copied, entry by entry, to
`destPath`; `none` is its error (the source is no directory, or the
destination is there already). -/
def copyDir (fs : Dir) (path destPath : Str) : Option Dir :=
  match readDir fs path with
  | none => none
  | some d => if pathExists fs destPath then none else some (putDir fs destPath d)

/-- The statement `os.Rename(oldPath, newPath)` for a directory; `none` when
there is no directory at `oldPath`. -/
def renameDir (fs : Dir) (oldPath newPath : Str) : Option Dir :=
  match readDir fs oldPath with
  | none => none
  | some d => some (putDir (removeAll fs oldPath) newPath d)

/-- The errors the command `get` returns. -/
inductive CmdErr where
  /-- The text `cannot backup vendor: %v`. -/
  | backupVendor
  /-- The text `cannot rename vendor.orig: %v`. -/
  | renameBackup
  /-- The error of `Get`, returned as it is. -/
  | get (e : Err)
  /-- No error value: `Get` panicked and the program ended before `RunE`
  could go on. -/
  | panicked
deriving DecidableEq, Repr

/-- The end of `cmdGet.RunE`, after `Get` has returned the list `newPkgs` and
the result `r`: without an error the backup, if one was made, is deleted; with
an error the vendor directory is deleted and the backup renamed into its
place, or, when there is no backup and no update was asked for, the
directories of the packages in `newPkgs` are deleted. -/
def finishGet (backupVendor isUpdate : Bool) (newPkgs : List Str) (r : Result) :
    Option CmdErr × State :=
  let s := r.state
  let vendor := s.manifest.VendorPath
  match r.err with
  | none =>
    if backupVendor then (none, { s with fs := removeAll s.fs (vendor ++ ".orig".toList) })
    else (none, s)
  | some e =>
    if backupVendor then
      let s1 := { s with fs := removeAll s.fs vendor }
      match renameDir s1.fs (vendor ++ ".orig".toList) vendor with
      | none => (some .renameBackup, s1)
      | some fs2 => (some (.get e), { s1 with fs := fs2 })
    else if !isUpdate then
      (some (.get e),
        { s with fs := newPkgs.foldl (fun fs pkg => removeAll fs (vendor ++ '/' :: pkg)) s.fs })
    else (some (.get e), s)

/-- The function `RunE` of the command `get`: with an update flag and an
existing vendor directory the directory is copied to `vendor.orig` first; then
`Get` runs and, unless it panicked, `finishGet` cleans up. `none` when `Get`
does not return within the bound. -/
def cmdGet (w : World) (fuel : Nat) (update updateDeps constraint : Bool) (s : State)
    (args : List Str) : Option (Option CmdErr × State) :=
  let isUpdate := update || updateDeps
  let vendor := s.manifest.VendorPath
  if isUpdate && vendorExists s then
    match copyDir s.fs vendor (vendor ++ ".orig".toList) with
    | none => some (some .backupVendor, s)
    | some fs1 =>
      match Get w fuel update updateDeps constraint { s with fs := fs1 } args with
      | none => none
      | some (newPkgs, r) =>
        if r.err = some .nilMapPanic then some (some .panicked, r.state)
        else some (finishGet true isUpdate newPkgs r)
  else
    match Get w fuel update updateDeps constraint s args with
    | none => none
    | some (newPkgs, r) =>
      if r.err = some .nilMapPanic then some (some .panicked, r.state)
      else some (finishGet false isUpdate newPkgs r)

/-! ## Data for the examples -/

/-- A world for the examples: every import path is the root of its own
repository, served at `https://<path>`; `repos` lists the remote repositories
by clone URL; nothing is local and no directory has a foreign lock file. -/
def exampleWorld (repos : GoMap Repo) : World where
  repoRootForImportPath p := some { repo := "https://".toList ++ p, root := p }
  gitClone url := repos.get? url
  localStat _ := false
  vcsFromDir _ := none
  localRepo _ := none
  vendorTool _ _ := none

/-- A Go source file of a package `p` (not `main`) with the given import
paths, each written in double quotes. -/
def sourceFile (imports : List Str) : GoFile :=
  { pkgName := ['p'], imports := imports.map (fun i => '"' :: i ++ ['"']),
    lines := ["package p".toList] }

/-- A repository whose head is the given tree, without refs or tags. -/
def repoOf (tree : Dir) : Repo :=
  { head := { tree := tree, commit := some "c0".toList } }

/-- A world with one repository, `github.com/x/a`, that has a single source
file without imports and knows the reference `v1`. -/
def worldWithRef : World :=
  exampleWorld [("https://github.com/x/a.git".toList,
    { head := { tree := .file "a.go".toList (sourceFile []) .nil },
      refs := [("v1".toList, { tree := .file "a.go".toList (sourceFile []) .nil })] })]

/-- A fresh run whose manifest constrains `github.com/x/a` to `v1`. -/
def constrainedState : State :=
  { manifest := { Constraints := [("github.com/x/a".toList, "v1".toList)] } }

/-- A world with two repositories: `github.com/x/a`, whose root directory
imports nothing and whose directory `sub` imports `github.com/y/b`, and
`github.com/y/b`, which imports nothing. -/
def subpackageWorld : World :=
  exampleWorld
    [("https://github.com/x/a.git".toList,
      repoOf (.file "a.go".toList (sourceFile [])
        (.sub "sub".toList (.file "s.go".toList (sourceFile ["github.com/y/b".toList]) .nil)
          .nil))),
     ("https://github.com/y/b.git".toList, repoOf (.file "b.go".toList (sourceFile []) .nil))]

/-- A world in which `github.com/y/b` now has a single source file in its
root directory and no sub-directory. -/
def shrunkWorld : World :=
  exampleWorld
    [("https://github.com/y/b.git".toList, repoOf (.file "b.go".toList (sourceFile []) .nil))]

/-- A run whose manifest records `github.com/y/b` with the sub-package
`github.com/y/b/sub`, and `github.com/x/a` depending on that sub-package. -/
def dependentState : State :=
  { manifest :=
      { Packages :=
          [("github.com/x/a".toList,
              { Version := "v1".toList, CommitHash := "ca".toList,
                Deps := [("github.com/y/b/sub".toList, ())] }),
           ("github.com/y/b".toList,
              { Version := "v1".toList, CommitHash := "cb".toList,
                Subpackages := [("github.com/y/b/sub".toList, ())] })] } }

/-- A world with two repositories whose root directories import each other:
`github.com/x/a` has one file importing `github.com/y/b`, and `github.com/y/b`
has one file importing `github.com/x/a`. -/
def cycleWorld : World :=
  exampleWorld
    [("https://github.com/x/a.git".toList,
      repoOf (.file "a.go".toList (sourceFile ["github.com/y/b".toList]) .nil)),
     ("https://github.com/y/b.git".toList,
      repoOf (.file "b.go".toList (sourceFile ["github.com/x/a".toList]) .nil))]

/-- The excluded tags and directories of `Test_getPkgImports`. -/
def testManifest : Manifest :=
  { ExcludeBuild := [("go1.2".toList, ()), ("windows".toList, ()), ("386".toList, ()),
      ("integration".toList, ())],
    ExcludeDir := [("excluded".toList, ())] }

/-- The file `testdata/custom_build_multiple.go`: what the parser and the
scanner give for it. -/
def customBuildMultiple : GoFile :=
  { pkgName := "some".toList,
    imports := ["encoding".toList, "github.com/asaskevich/govalidator".toList,
      "github.com/asaskevich/wrong".toList].map (fun i => '"' :: i ++ ['"']),
    lines := ["// +build linux".toList, "// +build 386 amd64".toList, [],
      "package some".toList],
    clauseLine := 3 }

/-- The file `testdata/custom_build_multiple_negative.go`, in the same way. -/
def customBuildMultipleNegative : GoFile :=
  { pkgName := "some".toList,
    imports := ["encoding".toList, "github.com/asaskevich/some".toList].map
      (fun i => '"' :: i ++ ['"']),
    lines := ["// Copyright 2012 The Go Authors.  All rights reserved.".toList,
      "// Use of this source code is governed by a BSD-style".toList,
      "// license that can be found in the LICENSE file.".toList, [],
      "// +build linux".toList, "// +build 3867 darwin".toList, [],
      "package some".toList],
    clauseLine := 7 }

/-- A directory holding the two files above. -/
def customBuildDir : Dir :=
  .sub "testdata".toList
    (.file "custom_build_multiple.go".toList customBuildMultiple
      (.file "custom_build_multiple_negative.go".toList customBuildMultipleNegative .nil)) .nil

/-- A file whose package clause follows a block comment with a line that
starts with the word `package`, and a constraint line `// +build windows`
after that comment; it imports `github.com/y/b`. -/
def commentedConstraintFile : GoFile :=
  { pkgName := ['p'], imports := ['"' :: "github.com/y/b".toList ++ ['"']],
    lines := ["/*".toList, "package notes of the author".toList, "*/".toList,
      "// +build windows".toList, "package p".toList],
    clauseLine := 4 }

/-- A file whose constraint line separates `+build` from its tag by a tab
(byte 9) and which imports `github.com/y/b`. -/
def tabConstraintFile : GoFile :=
  { pkgName := ['p'], imports := ['"' :: "github.com/y/b".toList ++ ['"']],
    lines := ["// +build".toList ++ Char.ofNat 9 :: "windows".toList, "package p".toList],
    clauseLine := 1 }

/-- A world in which `github.com/x/a` can be cloned and imports
`github.com/y/b`, whose repository cannot be cloned. -/
def brokenDepWorld : World :=
  exampleWorld
    [("https://github.com/x/a.git".toList,
      repoOf (.file "a.go".toList (sourceFile ["github.com/y/b".toList]) .nil))]

/-- A run on an existing vendor tree: the manifest records `github.com/x/a`
at version `v1`, and the vendor directory holds its source file. -/
def vendoredState : State :=
  { manifest := { Packages := [("github.com/x/a".toList,
      { Version := "v1".toList, CommitHash := "c0".toList })] },
    fs := .sub "vendor".toList
      (.sub "github.com".toList
        (.sub "x".toList
          (.sub "a".toList (.file "a.go".toList (sourceFile []) .nil) .nil) .nil) .nil) .nil }

/-- A world with two repositories: `github.com/x/a`, which imports
`github.com/y/b`, and `github.com/y/b`, which imports nothing. -/
def chainWorld : World :=
  exampleWorld
    [("https://github.com/x/a.git".toList,
      repoOf (.file "a.go".toList (sourceFile ["github.com/y/b".toList]) .nil)),
     ("https://github.com/y/b.git".toList, repoOf (.file "b.go".toList (sourceFile []) .nil))]

/-- The start of a new run after `get github.com/x/a` in `chainWorld`: the
manifest and the vendor tree that run left, with fresh caches. -/
def chainState : State :=
  match Get chainWorld 3 false false false {} ["github.com/x/a".toList] with
  | some (_, r) => { manifest := r.state.manifest, fs := r.state.fs }
  | none => {}

/-- A world in which `github.com/x/a` is a local package: its directory under
`$GOPATH/src` is a git repository at commit `c0` with the tag `v1` and no
other reference. -/
def localWorld : World where
  repoRootForImportPath _ := none
  gitClone _ := none
  localStat p := p = "github.com/x/a".toList
  vcsFromDir p := if p = "github.com/x/a".toList then some ("git".toList, p) else none
  localRepo p :=
    if p = "github.com/x/a".toList then
      some { head := { tree := .file "a.go".toList (sourceFile []) .nil,
                       commit := some "c0".toList, tag := some "v1".toList } }
    else none
  vendorTool _ _ := none

/-- A run on an existing vendor tree: the manifest records `github.com/x/a`
at version `v1`, and the vendor directory holds the package as
`subpackageWorld` serves it, with its directory `sub`. -/
def vendoredSubState : State :=
  { manifest := { Packages := [("github.com/x/a".toList,
      { Version := "v1".toList, CommitHash := "c0".toList })] },
    fs := .sub "vendor".toList
      (.sub "github.com".toList
        (.sub "x".toList
          (.sub "a".toList
            (.file "a.go".toList (sourceFile [])
              (.sub "sub".toList
                (.file "s.go".toList (sourceFile ["github.com/y/b".toList]) .nil) .nil))
            .nil) .nil) .nil) .nil }

/-- A world in which `github.com/y/b` has a source file in its root directory
and one in its directory `sub`. -/
def keptWorld : World :=
  exampleWorld
    [("https://github.com/y/b.git".toList,
      repoOf (.file "b.go".toList (sourceFile [])
        (.sub "sub".toList (.file "s.go".toList (sourceFile []) .nil) .nil)))]

/-- The vendor tree of `dependentState` under the vendor path `vendor`: the
package `github.com/y/b` with its directory `sub`. -/
def keptTree : Dir :=
  .sub "vendor".toList
    (.sub "github.com".toList
      (.sub "y".toList
        (.sub "b".toList
          (.file "b.go".toList (sourceFile [])
            (.sub "sub".toList (.file "s.go".toList (sourceFile []) .nil) .nil)) .nil)
        .nil) .nil) .nil

/-- The directory `a` of the package `github.com/x/a`: a file importing
`github.com/x/a/util` and `github.com/y/b`, and a directory `in` with a file
importing `github.com/x/a/deep`. -/
def nestedLocalTree : Dir :=
  .sub "a".toList
    (.file "a.go".toList
      (sourceFile ["github.com/x/a/util".toList, "github.com/y/b".toList])
      (.sub "in".toList
        (.file "i.go".toList (sourceFile ["github.com/x/a/deep".toList]) .nil) .nil)) .nil

/-- A world without network: no repository root is detected, nothing can be
cloned and nothing is local. -/
def offlineWorld : World where
  repoRootForImportPath _ := none
  gitClone _ := none
  localStat _ := false
  vcsFromDir _ := none
  localRepo _ := none
  vendorTool _ _ := none

/-- A run on the vendor tree of `vendoredState` whose manifest has, beside
`github.com/x/a`, a package under the name `../vendor.orig`. -/
def traversalState : State :=
  { manifest := { Packages :=
      [("github.com/x/a".toList, { Version := "v1".toList, CommitHash := "c0".toList }),
       ("../vendor.orig".toList, { Version := "v1".toList, CommitHash := "c1".toList })] },
    fs := vendoredState.fs }

/-- A fresh run whose manifest was read from a `Manifest.yml` without the key
`constraints`: the map `Constraints` is nil. -/
def nilConstraintsState : State :=
  { manifest := { ConstraintsNil := true } }

/-- A world with the repositories `github.com/a/b`, whose source file imports
`github.com/a/bc/x`, and `github.com/a/bc`, a sibling whose name extends the
name of the first as a string. -/
def siblingWorld : World :=
  exampleWorld
    [("https://github.com/a/b.git".toList,
      repoOf (.file "b.go".toList (sourceFile ["github.com/a/bc/x".toList]) .nil)),
     ("https://github.com/a/bc.git".toList,
      repoOf (.sub "x".toList (.file "x.go".toList (sourceFile []) .nil) .nil))]

/-! ## Specification predicates for the lookups -/

/-- Two manifests agree on everything but the package records and the local
markers: vendor path, exclusions and constraints. -/
def SameSettings (m m' : Manifest) : Prop :=
  m'.VendorPath = m.VendorPath ∧ m'.ExcludeDir = m.ExcludeDir ∧
    m'.ExcludeBuild = m.ExcludeBuild ∧ m'.ExcludePackages = m.ExcludePackages ∧
    m'.Constraints = m.Constraints

/-- The root the fetch provider resolves a requested path to: the field `Root`
of `vcs.RepoRootForImportPath` (for a local package the root `vcs.FromDir`
finds), and the path itself when the resolution fails. -/
def World.fetchRoot (w : World) (pkg : Str) (isLocal : Bool) : Str :=
  if isLocal then ((w.vcsFromDir pkg).map Prod.snd).getD pkg
  else ((w.repoRootForImportPath pkg).map RepoRoot.root).getD pkg

/-- Whether a request is for a local package: the locality flag of the
request, or a local marker of the manifest on the root of the path. -/
def requestIsLocal (s : State) (pkg : Str) (opts : ImportOptions) : Bool :=
  opts.Local || (s.manifest.IsLocalPkg (getPkgRoot pkg)).isSome

/-- The manifest `m` records the version `version` for the package `root`. -/
def RecordsVersion (m : Manifest) (root version : Str) : Prop :=
  ∃ info, m.Packages.get? root = some info ∧ info.Version = version

/-- The claim's words on what a request resolves to, for the step `st` a call
of `importPackage` on `pkg` makes from the state `s` before it turns to the
dependencies: the fetch provider is called once, for the root of `pkg`, and is
handed the reference `version` with the mandatory mark `vr`; a return at this
point is an error; and when the call goes on, the manifest records `version`
for the root the provider fetched, which is marked processed. -/
def ResolvesTo (w : World) (s : State) (pkg : Str) (opts : ImportOptions) (st : Step)
    (version : Str) (vr : Bool) : Prop :=
  st.state.trace =
    s.trace ++ [Event.fetch (getPkgRoot pkg) version (requestIsLocal s pkg opts) vr] ∧
  (∀ r, st = .ret r → r.err ≠ none) ∧
  ∀ s' deps, st = .recurse s' deps →
    RecordsVersion s'.manifest (w.fetchRoot (getPkgRoot pkg) (requestIsLocal s pkg opts)) version ∧
      s'.cachedPkgs.contains (w.fetchRoot (getPkgRoot pkg) (requestIsLocal s pkg opts)) = true

/-- The roots the fetch provider was invoked for, in the order of the calls. -/
def fetchedRoots (w : World) : List Event → List Str
  | [] => []
  | .fetch pkg _ isLocal _ :: rest => w.fetchRoot pkg isLocal :: fetchedRoots w rest
  | .remove _ :: rest => fetchedRoots w rest

/-- The roots whose vendor copy was deleted, in the order of the deletions. -/
def removedRoots : List Event → List Str
  | [] => []
  | .fetch _ _ _ _ :: rest => removedRoots rest
  | .remove root :: rest => root :: removedRoots rest

/-- The first segment of an import path: the text before its first `/`. -/
def firstSegment (i : Str) : Str :=
  (strSplit '/' i).headD []

/-- The three-way reference rule for an import `i` seen from the package
`pkg`, in the words of the specification: dropped when it has no `/`, is
relative, or its first segment has no `.`; otherwise local when `pkg` is not
empty and `i` starts with `pkg`, or `pkg` has more than three segments and `i`
starts with the first three of them; otherwise external. -/
def classifyRef (pkg i : Str) : ImportClass :=
  if '/' ∉ i ∨ "./".toList <+: i ∨ "../".toList <+: i ∨ '.' ∉ firstSegment i then .dropped
  else if (pkg ≠ [] ∧ pkg <+: i) ∨
      ((strSplit '/' pkg).length > 3 ∧ strJoin '/' ((strSplit '/' pkg).take 3) <+: i) then .local
  else .external

/-- The lines before the first line that starts with `package`. -/
def linesBeforePackage (lines : List Str) : List Str :=
  lines.takeWhile (fun l => decide ¬("package".toList <+: l))

/-- The claim's words: the lines preceding the package clause of a file. -/
def linesBeforeClause (src : GoFile) : List Str :=
  src.lines.take src.clauseLine

/-- The package clause opens the first line that starts with `package`: no
line before the clause starts with that word, and the line of the clause
does. -/
def ClauseOpensLine (src : GoFile) : Prop :=
  (∀ line ∈ linesBeforeClause src, ¬("package".toList <+: line)) ∧
    ∃ line, src.lines[src.clauseLine]? = some line ∧ "package".toList <+: line

/-- The claim's words: a `//` comment line carrying `+build ` followed by
tags, every space-separated tag of which is in the excluded set; the tags are
the text after the first `+build ` of the line. -/
def ExcludingLine (excl : GoMap Unit) (line : Str) : Prop :=
  "//".toList <+: line ∧
    ∃ pre tags, line = pre ++ "+build ".toList ++ tags ∧
      (∀ pre' rest', line = pre' ++ "+build ".toList ++ rest' → pre.length ≤ pre'.length) ∧
      tags ≠ [] ∧ ∀ t ∈ strSplit ' ' tags, excl.contains t = true

/-- The claim's condition for omitting a file: one of the lines preceding its
package clause is an excluding line, or its name ends in `_<tag>.go` for an
excluded tag. -/
def BuildExcluded (m : Manifest) (name : Str) (src : GoFile) : Prop :=
  (∃ line ∈ linesBeforeClause src, ExcludingLine m.ExcludeBuild line) ∨
    ∃ t ∈ m.ExcludeBuild.keys, ('_' :: t ++ ".go".toList) <:+ name

/-- In every `//` line of the list the first `+build` ends the line or is
followed by a blank. -/
def WellFormedLines (lines : List Str) : Prop :=
  ∀ line ∈ lines, "//".toList <+: line →
    ∀ pre rest, line = pre ++ "+build".toList ++ rest →
      (∀ pre' rest', line = pre' ++ "+build".toList ++ rest' → pre.length ≤ pre'.length) →
      rest = [] ∨ ∃ rest', rest = ' ' :: rest'

/-- The constraint lines of a file are well formed: in every `//` line
preceding the package clause, the first `+build` ends the line or is followed
by a blank. -/
def BuildLinesWellFormed (src : GoFile) : Prop :=
  WellFormedLines (linesBeforeClause src)

/-- The check of well-formedness on one line, by computation: a line that
starts with `//` and holds `+build` has, right after its first `+build`,
nothing or a blank. -/
def wellFormedLine (line : Str) : Bool :=
  !hasPrefix line "//".toList ||
    match strIndex line "+build".toList with
    | none => true
    | some i =>
      match line.drop (i + "+build".length) with
      | [] => true
      | c :: _ => c == ' '

/-- The claim's words: the name of a directory is the last `/`-separated
segment of its path. -/
def lastSegment (path : Str) : Str :=
  ((strSplit '/' path).getLast?).getD []

/-- The claim's words on directory exclusion: the name starts with `.`, is
`vendor`, is one of the fixture names `testdata` and `_testdata`, or is in the
configured set. -/
def ExcludedName (m : Manifest) (name : Str) : Prop :=
  ['.'] <+: name ∨ name = "vendor".toList ∨ name = "testdata".toList ∨
    name = "_testdata".toList ∨ m.ExcludeDir.contains name = true

/-- A project directory with one source file of its own, importing
`github.com/y/b`, and a top-level directory `testdata` holding a fixture file
that imports `github.com/z/fixture`. -/
def projectWithFixtures : Dir :=
  .file "main.go".toList (sourceFile ["github.com/y/b".toList])
    (.sub "testdata".toList
      (.file "f.go".toList (sourceFile ["github.com/z/fixture".toList]) .nil) .nil)

/-- The claim's words: the hosts whose package roots have three segments. -/
def knownHosts : List Str :=
  ["github.com".toList, "gopkg.in".toList, "golang.org".toList, "gitlab.com".toList]

/-- The files a walk of the listing of `dir` reaches, each with its path and
name: the files of the listing itself and, in scan-all mode, the files reached
in each sub-directory that is not excluded. -/
def reachedFiles (m : Manifest) (scanAll : Bool) : Str → Dir → List (Str × Str × GoFile)
  | _, .nil => []
  | dir, .file name src rest => (pathJoin dir name, name, src) :: reachedFiles m scanAll dir rest
  | dir, .sub name content rest =>
    (if scanAll ∧ dirIsExcluded m (pathJoin dir name) = false then
        reachedFiles m scanAll (pathJoin dir name) content
      else []) ++ reachedFiles m scanAll dir rest

/-- The claim's words on the request `Get` makes for a package `P` at version
`V`: the version, the locality flag, `FetchAll` exactly when `P` is its own
package root, and the update flags of the command. -/
def getRequest (P V : Str) (isLocal update updateDeps : Bool) : ImportOptions :=
  { Version := V, «Local» := isLocal, FetchAll := decide (P = getPkgRoot P),
    Update := update, UpdateDeps := updateDeps }

/-- The claim's words: `key` equals `path`, or is obtained from it by dropping
one or more trailing `/`-separated segments (so `path` is `key`, a `/`, and
the dropped segments). -/
def SegPrefix (key path : Str) : Prop :=
  key = path ∨ ∃ rest : Str, path = key ++ '/' :: rest

/-- The claim's words on the options of a recursive call: `Update` and
`UpdateDeps` are both the parent's `UpdateDeps`, the sub-packages are `subs`,
and there is no version, no locality flag and no fetch-all flag. -/
def DependencyOptions (parent : ImportOptions) (subs : List Str) (o : ImportOptions) : Prop :=
  o.Update = parent.UpdateDeps ∧ o.UpdateDeps = parent.UpdateDeps ∧ o.Subpackages = subs ∧
    o.Version = [] ∧ o.Local = false ∧ o.FetchAll = false

/-- The root an import is grouped under, before the groups are consulted: the
root the manifest registers for the import's package root, or that package
root itself. -/
def importRoot (m : Manifest) (i : Str) : Str :=
  match m.PkgExists (getPkgRoot i) with
  | some (_, root) => root
  | none => getPkgRoot i

/-- A grouping of the imports `imports`: no root has two groups, every member
of a group is one of the imports and has the group's root as a segment prefix
of its own root, and every import is in some group. -/
def GroupsImports (m : Manifest) (imports : List Str) (depsMap : GoMap (List Str)) : Prop :=
  depsMap.keys.Nodup ∧
  (∀ root subs, (root, subs) ∈ depsMap →
    ∀ i ∈ subs, i ∈ imports ∧ SegPrefix root (importRoot m i)) ∧
  (∀ i ∈ imports, ∃ root subs, (root, subs) ∈ depsMap ∧ i ∈ subs)

/-- The version-control oracle names, as the root of a path, the path itself
or the path with trailing segments dropped (as `vcs.RepoRootForImportPath` and
`vcs.FromDir` do). -/
def World.RootsArePrefixes (w : World) : Prop :=
  (∀ p rr, w.repoRootForImportPath p = some rr → SegPrefix rr.root p) ∧
  (∀ p cmd root, w.vcsFromDir p = some (cmd, root) → SegPrefix root p)

/-- The claim's words on a request that resolves to `version`, for the call of
`importPackage` on `pkg` from the state `s`: before it turns to the
dependencies the call hands `version` to the fetch provider, with the
mandatory mark `vr`, and records it (`ResolvesTo`); and when the call returns
without error, the version recorded for the package in the manifest after the
call is `version` (the recursion into the dependencies being made without
update, and the oracle naming as root of a path the path or a segment prefix
of it). -/
def ResolvesAt (w : World) (fuel : Nat) (s : State) (pkg : Str) (opts : ImportOptions)
    (version : Str) (vr : Bool) : Prop :=
  (∀ st, importStep w fuel s pkg opts = some st → ResolvesTo w s pkg opts st version vr) ∧
  (w.RootsArePrefixes → opts.UpdateDeps = false →
    ∀ r, importPackage w (fuel + 1) s pkg opts = some r → r.err = none →
      RecordsVersion r.state.manifest
        (w.fetchRoot (getPkgRoot pkg) (requestIsLocal s pkg opts)) version)

/-- The state of a run in which no root was fetched twice and no vendor copy
was deleted, every fetched root having its record in the manifest. -/
def FetchedOnce (w : World) (s : State) : Prop :=
  (fetchedRoots w s.trace).Nodup ∧ removedRoots s.trace = [] ∧
    ∀ root ∈ fetchedRoots w s.trace, s.manifest.Packages.contains root = true

/-- What a longest-prefix lookup over the map `M` owes for `path`: found
exactly when a registered key is a segment prefix; when found, the matched
prefix is such a key, no registered segment prefix is longer, and the value is
the one registered under it. -/
def LongestPrefixSpec {V : Type} (M : GoMap V) (path : Str)
    (r : Option (Str × V)) : Prop :=
  (r.isSome = true ↔ ∃ key, M.contains key = true ∧ SegPrefix key path) ∧
  (∀ p v, r = some (p, v) →
    M.get? p = some v ∧ SegPrefix p path ∧
      ∀ key, M.contains key = true → SegPrefix key path → key.length ≤ p.length)


/-! # Theorems -/

/-! ## Lemmas on `strSplit` and `strJoin` -/

theorem strSplit_ne_nil (sep : Char) (s : Str) : strSplit sep s ≠ [] := by
  induction s with
  | nil => simp [strSplit]
  | cons c cs ih =>
    unfold strSplit
    split
    · simp
    · split
      · simp
      · simp

theorem strSplit_length_pos (sep : Char) (s : Str) : 0 < (strSplit sep s).length :=
  List.length_pos.mpr (strSplit_ne_nil sep s)

theorem strSplit_append_sep (sep : Char) (a b : Str) :
    strSplit sep (a ++ sep :: b) = strSplit sep a ++ strSplit sep b := by
  induction a with
  | nil => simp [strSplit]
  | cons c cs ih =>
    by_cases hc : c = sep
    · simp [strSplit, hc, ih]
    · simp only [List.cons_append, strSplit, hc, if_false]
      change (match strSplit sep (cs ++ sep :: b) with
        | [] => [[c]]
        | seg :: rest => (c :: seg) :: rest) = _
      rw [ih]
      cases h : strSplit sep cs with
      | nil => exact absurd h (strSplit_ne_nil sep cs)
      | cons seg rest => simp

theorem strJoin_cons_of_ne_nil (sep : Char) (p : Str) {ps : List Str} (h : ps ≠ []) :
    strJoin sep (p :: ps) = p ++ sep :: strJoin sep ps := by
  cases ps with
  | nil => exact absurd rfl h
  | cons q qs => rfl

theorem strJoin_strSplit (sep : Char) (s : Str) : strJoin sep (strSplit sep s) = s := by
  induction s with
  | nil => rfl
  | cons c cs ih =>
    by_cases hc : c = sep
    · simp only [strSplit, hc, if_true]
      rw [strJoin_cons_of_ne_nil sep [] (strSplit_ne_nil sep cs), ih]
      rfl
    · simp only [strSplit, hc, if_false]
      cases h : strSplit sep cs with
      | nil => exact absurd h (strSplit_ne_nil sep cs)
      | cons seg rest =>
        rw [h] at ih
        cases rest with
        | nil =>
          simp only [strJoin] at ih ⊢
          rw [ih]
        | cons r rs =>
          simp only [strJoin] at ih ⊢
          rw [← ih]
          rfl

theorem strJoin_append (sep : Char) {xs ys : List Str} (hx : xs ≠ []) (hy : ys ≠ []) :
    strJoin sep (xs ++ ys) = strJoin sep xs ++ sep :: strJoin sep ys := by
  induction xs with
  | nil => exact absurd rfl hx
  | cons x xs ih =>
    cases xs with
    | nil =>
      simp only [List.singleton_append]
      rw [strJoin_cons_of_ne_nil sep x hy]
      rfl
    | cons x2 xs2 =>
      have h1 : strJoin sep (x :: x2 :: xs2 ++ ys) =
          x ++ sep :: strJoin sep (x2 :: xs2 ++ ys) := by
        simp [strJoin]
      rw [h1, ih (by simp)]
      simp [strJoin]

/-- Joining the first `k` segments of a path gives a segment prefix of it. -/
theorem segPrefix_take (path : Str) (k : Nat) (hk : 0 < k) :
    SegPrefix (strJoin '/' ((strSplit '/' path).take k)) path := by
  by_cases hlt : k < (strSplit '/' path).length
  · right
    refine ⟨strJoin '/' ((strSplit '/' path).drop k), ?_⟩
    have h1 : (strSplit '/' path).take k ≠ [] := by
      intro h
      have := congrArg List.length h
      simp only [List.length_take, List.length_nil] at this
      omega
    have h2 : (strSplit '/' path).drop k ≠ [] := by
      intro h
      have := congrArg List.length h
      simp at this
      omega
    rw [← strJoin_append '/' h1 h2, List.take_append_drop, strJoin_strSplit]
  · left
    rw [List.take_of_length_le (by omega), strJoin_strSplit]

/-- Every segment prefix of a path is the join of its first `k` segments. -/
theorem segPrefix_is_take (key path : Str) (h : SegPrefix key path) :
    ∃ k, 0 < k ∧ k ≤ (strSplit '/' path).length ∧
      key = strJoin '/' ((strSplit '/' path).take k) := by
  rcases h with h | ⟨rest, h⟩
  · subst h
    exact ⟨(strSplit '/' key).length, strSplit_length_pos _ _, le_refl _,
      by rw [List.take_length, strJoin_strSplit]⟩
  · subst h
    refine ⟨(strSplit '/' key).length, strSplit_length_pos _ _, ?_, ?_⟩
    · rw [strSplit_append_sep]; simp
    · rw [strSplit_append_sep, List.take_left, strJoin_strSplit]

theorem strJoin_take_length_mono (sep : Char) (parts : List Str) (j k : Nat) (hjk : j ≤ k) :
    (strJoin sep (parts.take j)).length ≤ (strJoin sep (parts.take k)).length := by
  induction parts generalizing j k with
  | nil => simp
  | cons p ps ih =>
    cases j with
    | zero => simp [strJoin]
    | succ j =>
      cases k with
      | zero => omega
      | succ k =>
        have hjk2 : j ≤ k := by omega
        simp only [List.take_succ_cons]
        by_cases hj : ps.take j = []
        · rw [hj]
          by_cases hk : ps.take k = []
          · rw [hk]
          · rw [strJoin_cons_of_ne_nil sep p hk]
            simp [strJoin]
        · have hk : ps.take k ≠ [] := by
            intro hk
            apply hj
            have h1 : (ps.take j).length ≤ (ps.take k).length := by
              simp only [List.length_take]
              omega
            rw [hk] at h1
            exact List.length_eq_zero.mp (by simpa using h1)
          rw [strJoin_cons_of_ne_nil sep p hj, strJoin_cons_of_ne_nil sep p hk]
          have := ih j k hjk2
          simp only [List.length_append, List.length_cons]
          omega

/-! ## The lookup loop -/

theorem prefixLoop_none {V : Type} (m : GoMap V) (parts : List Str) (n : Nat) :
    prefixLoop m parts n = none ↔
      ∀ k, 0 < k → k ≤ n → m.get? (strJoin '/' (parts.take k)) = none := by
  induction n with
  | zero =>
    simp only [prefixLoop, true_iff]
    intro k hk hk0
    omega
  | succ n ih =>
    simp only [prefixLoop]
    cases h : m.get? (strJoin '/' (parts.take (n + 1))) with
    | some v =>
      simp only [reduceCtorEq, false_iff, not_forall]
      exact ⟨n + 1, by omega, le_refl _, by simp [h]⟩
    | none =>
      simp only [ih]
      constructor
      · intro hall k hk hkn
        by_cases hkn2 : k = n + 1
        · subst hkn2; exact h
        · exact hall k hk (by omega)
      · intro hall k hk hkn
        exact hall k hk (by omega)

theorem prefixLoop_some {V : Type} (m : GoMap V) (parts : List Str) (n : Nat)
    (p : Str) (v : V) (h : prefixLoop m parts n = some (p, v)) :
    ∃ k, 0 < k ∧ k ≤ n ∧ p = strJoin '/' (parts.take k) ∧ m.get? p = some v ∧
      ∀ j, k < j → j ≤ n → m.get? (strJoin '/' (parts.take j)) = none := by
  induction n with
  | zero => simp [prefixLoop] at h
  | succ n ih =>
    simp only [prefixLoop] at h
    cases hg : m.get? (strJoin '/' (parts.take (n + 1))) with
    | some w =>
      rw [hg] at h
      simp only [Option.some.injEq, Prod.mk.injEq] at h
      obtain ⟨hp, hv⟩ := h
      subst hp hv
      exact ⟨n + 1, by omega, le_refl _, rfl, hg, fun j h1 h2 => by omega⟩
    | none =>
      rw [hg] at h
      obtain ⟨k, hk, hkn, hp, hv, hmax⟩ := ih h
      refine ⟨k, hk, by omega, hp, hv, ?_⟩
      intro j hkj hjn
      by_cases hj : j = n + 1
      · subst hj; exact hg
      · exact hmax j hkj (by omega)

/-- The lookup body meets the longest-prefix specification. -/
theorem prefixLookup_spec {V : Type} (M : GoMap V) (path : Str) :
    LongestPrefixSpec M path (prefixLookup M path) := by
  constructor
  · constructor
    · intro hs
      cases hr : prefixLookup M path with
      | none => rw [hr] at hs; simp at hs
      | some pv =>
        obtain ⟨p, v⟩ := pv
        obtain ⟨k, hk, -, hp, hv, -⟩ := prefixLoop_some M _ _ p v hr
        exact ⟨p, by simp [GoMap.contains, hv], hp ▸ segPrefix_take path k hk⟩
    · rintro ⟨key, hc, hseg⟩
      obtain ⟨k, hk, hkn, hkey⟩ := segPrefix_is_take key path hseg
      cases hr : prefixLookup M path with
      | some pv => rfl
      | none =>
        have := (prefixLoop_none M _ _).mp hr k hk hkn
        rw [← hkey] at this
        simp [GoMap.contains, this] at hc
  · intro p v hr
    obtain ⟨k, hk, hkn, hp, hv, hmax⟩ := prefixLoop_some M _ _ p v hr
    refine ⟨hv, hp ▸ segPrefix_take path k hk, ?_⟩
    intro key hc hseg
    obtain ⟨j, hj, hjn, hkey⟩ := segPrefix_is_take key path hseg
    by_cases hjk : j ≤ k
    · rw [hkey, hp]
      exact strJoin_take_length_mono '/' _ j k hjk
    · have := hmax j (by omega) hjn
      rw [← hkey] at this
      simp [GoMap.contains, this] at hc

/-- A path under a registered prefix is found. -/
theorem prefixLookup_under {V : Type} (M : GoMap V) (p x y : Str)
    (hp : M.contains p = true) :
    (prefixLookup M (p ++ '/' :: (x ++ '/' :: y))).isSome = true :=
  (prefixLookup_spec M _).1.mpr ⟨p, hp, Or.inr ⟨_, rfl⟩⟩

/-! ## C1: the five lookups are longest-prefix lookups -/

/-- C1. For every manifest `m`, every path and every map `pkgs`, each of
`IsLocalPkg`, `IsExcludedPkg`, `GetPkgConstraint`, `PkgExists` and `GetPkgDeps`
(over `pkgs`) is found exactly when a registered key equals the path or is the
path with trailing `/`-separated segments dropped; when found, the matched
prefix is such a key, no registered one is longer, and the value is the one
registered under it. In particular a path `p/x/y` under a registered `p` is
found. -/
theorem C1_longest_prefix_lookup (m : Manifest) (path : Str) (pkgs : GoMap (List Str)) :
    LongestPrefixSpec m.LocalPackages path ((m.IsLocalPkg path).map (fun p => (p, ()))) ∧
    LongestPrefixSpec m.ExcludePackages path ((m.IsExcludedPkg path).map (fun p => (p, ()))) ∧
    LongestPrefixSpec m.Constraints path (m.GetPkgConstraint path) ∧
    LongestPrefixSpec m.Packages path ((m.PkgExists path).map (fun r => (r.2, r.1))) ∧
    LongestPrefixSpec pkgs path (m.GetPkgDeps path pkgs) ∧
    (∀ p x y : Str,
      (m.LocalPackages.contains p = true →
        (m.IsLocalPkg (p ++ '/' :: (x ++ '/' :: y))).isSome = true) ∧
      (m.ExcludePackages.contains p = true →
        (m.IsExcludedPkg (p ++ '/' :: (x ++ '/' :: y))).isSome = true) ∧
      (m.Constraints.contains p = true →
        (m.GetPkgConstraint (p ++ '/' :: (x ++ '/' :: y))).isSome = true) ∧
      (m.Packages.contains p = true →
        (m.PkgExists (p ++ '/' :: (x ++ '/' :: y))).isSome = true) ∧
      (pkgs.contains p = true →
        (m.GetPkgDeps (p ++ '/' :: (x ++ '/' :: y)) pkgs).isSome = true)) := by
  have hunit : ∀ (M : GoMap Unit) (q : Str),
      ((prefixLookup M q).map Prod.fst).map (fun p => (p, ())) = prefixLookup M q := by
    intro M q
    cases prefixLookup M q with
    | none => rfl
    | some pv => rfl
  have hswap : ∀ (M : GoMap Package) (q : Str),
      ((prefixLookup M q).map (fun kv => (kv.2, kv.1))).map (fun r => (r.2, r.1)) =
        prefixLookup M q := by
    intro M q
    cases prefixLookup M q with
    | none => rfl
    | some pv => rfl
  refine ⟨?_, ?_, ?_, ?_, ?_, ?_⟩
  · rw [Manifest.IsLocalPkg, hunit]; exact prefixLookup_spec _ _
  · rw [Manifest.IsExcludedPkg, hunit]; exact prefixLookup_spec _ _
  · exact prefixLookup_spec _ _
  · rw [Manifest.PkgExists, hswap]; exact prefixLookup_spec _ _
  · exact prefixLookup_spec _ _
  · intro p x y
    refine ⟨?_, ?_, ?_, ?_, ?_⟩
    · intro h
      have := prefixLookup_under m.LocalPackages p x y h
      simpa [Manifest.IsLocalPkg] using this
    · intro h
      have := prefixLookup_under m.ExcludePackages p x y h
      simpa [Manifest.IsExcludedPkg] using this
    · intro h
      exact prefixLookup_under m.Constraints p x y h
    · intro h
      have := prefixLookup_under m.Packages p x y h
      simpa [Manifest.PkgExists] using this
    · intro h
      exact prefixLookup_under pkgs p x y h

/-- C1 at a concrete manifest: with constraints on `github.com/a` and on
`github.com/a/b`, the path `github.com/a/b/x/y` resolves to the longer key and
its version, and a path with no registered segment prefix is not found. -/
theorem C1_longest_prefix_lookup_witness :
    ({ Constraints := [("github.com/a".toList, "v1".toList),
        ("github.com/a/b".toList, "v2".toList)] } : Manifest).GetPkgConstraint
        "github.com/a/b/x/y".toList = some ("github.com/a/b".toList, "v2".toList) ∧
    ({ Constraints := [("github.com/a".toList, "v1".toList),
        ("github.com/a/b".toList, "v2".toList)] } : Manifest).GetPkgConstraint
        "github.com/ab/x".toList = none ∧
    LongestPrefixSpec [("github.com/a".toList, "v1".toList),
        ("github.com/a/b".toList, "v2".toList)] "github.com/a/b/x/y".toList
      (some ("github.com/a/b".toList, "v2".toList)) :=
  ⟨by decide, by decide,
    (C1_longest_prefix_lookup
      { Constraints := [("github.com/a".toList, "v1".toList),
          ("github.com/a/b".toList, "v2".toList)] }
      "github.com/a/b/x/y".toList []).2.2.1⟩

/-! ## C2: a request that contradicts a constraint -/

/-- C2 as stated fails on an excluded package: the manifest constrains
`github.com/x/a` to `v1` and also excludes it; the request for version `v2`
returns no error (the exclusion is taken first). -/
theorem C2_counterexample_excluded :
    ({ ExcludePackages := [("github.com/x/a".toList, ())],
       Constraints := [("github.com/x/a".toList, "v1".toList)] } : Manifest).GetPkgConstraint
        (getPkgRoot "github.com/x/a".toList) =
      some ("github.com/x/a".toList, "v1".toList) ∧
    (importPackage (exampleWorld []) 1
      { manifest := { ExcludePackages := [("github.com/x/a".toList, ())],
                      Constraints := [("github.com/x/a".toList, "v1".toList)] } }
      "github.com/x/a".toList { Version := "v2".toList }).map Result.err = some none := by
  decide

/-- C2, amended. When the root of `pkg` matches no exclusion, the manifest
holds a non-empty constraint `v1` matching the root, and the request names a
version different from `v1`, `importPackage` returns the conflict error and
leaves the whole state as it was: no fetch, no removal, the manifest and its
package records unchanged. -/
theorem C2_constraint_conflict (w : World) (fuel : Nat) (s : State) (pkg : Str)
    (opts : ImportOptions) (key v1 : Str)
    (hexcl : s.manifest.IsExcludedPkg (getPkgRoot pkg) = none)
    (hc : s.manifest.GetPkgConstraint (getPkgRoot pkg) = some (key, v1))
    (hv1 : v1 ≠ []) (hv2 : opts.Version ≠ []) (hne : opts.Version ≠ v1) :
    importPackage w (fuel + 1) s pkg opts =
      some ⟨some (.constraintConflict (getPkgRoot pkg) v1 opts.Version), s⟩ := by
  simp [importPackage, importStep, hexcl, resolveVersion, hc, hv1, hv2, hne]

/-- C2 at a concrete input: the constraint `github.com/x/a → v1` is recorded
under the root of `github.com/x/a/sub`; the request for `v2` gets the conflict
error and the state stays. -/
theorem C2_constraint_conflict_witness :
    importPackage (exampleWorld []) 1
      { manifest := { Constraints := [("github.com/x/a".toList, "v1".toList)] } }
      "github.com/x/a/sub".toList { Version := "v2".toList } =
    some ⟨some (.constraintConflict "github.com/x/a".toList "v1".toList "v2".toList),
      { manifest := { Constraints := [("github.com/x/a".toList, "v1".toList)] } }⟩ :=
  C2_constraint_conflict (exampleWorld []) 0
    { manifest := { Constraints := [("github.com/x/a".toList, "v1".toList)] } }
    "github.com/x/a/sub".toList { Version := "v2".toList } "github.com/x/a".toList
    "v1".toList (by decide) (by decide) (by decide) (by decide) (by decide)

/-! ## Frame lemmas: what each function leaves alone -/

theorem ctxCancelled_frame (s : State) :
    (ctxCancelled s).2 = { s with ctx := (ctxCancelled s).2.ctx } := by
  unfold ctxCancelled; split <;> rfl

theorem vendorTools_frame (w : World) (s : State) (dir : Str) :
    (getPkgImportsFromPopularVendorTools w s dir).2 =
      { s with cachedConstraints :=
          (getPkgImportsFromPopularVendorTools w s dir).2.cachedConstraints } := by
  unfold getPkgImportsFromPopularVendorTools
  split <;> rfl

theorem cloneLocalPkg_frame (w : World) (s : State) (pkg version dest : Str) :
    (cloneLocalPkg w s pkg version dest).2 =
      { s with fs := (cloneLocalPkg w s pkg version dest).2.fs,
               ctx := (cloneLocalPkg w s pkg version dest).2.ctx } := by
  unfold cloneLocalPkg
  simp only
  split
  · rw [ctxCancelled_frame]
  · split
    · rw [ctxCancelled_frame]
    · split
      · rw [ctxCancelled_frame]
      · rw [ctxCancelled_frame]

theorem finishImport_frame (w : World) (s : State) (pkg version c cv : Str) (fd : Bool) :
    (finishImport w s pkg version c cv fd).2 =
      { s with fs := (finishImport w s pkg version c cv fd).2.fs,
               cachedConstraints := (finishImport w s pkg version c cv fd).2.cachedConstraints } := by
  unfold finishImport
  simp only
  split
  · rw [vendorTools_frame]
  · rfl

theorem doImport_frame (w : World) (s : State) (pkg version : Str) (isLocal fd vr : Bool) :
    (doImport w s pkg version isLocal fd vr).2 =
      { s with fs := (doImport w s pkg version isLocal fd vr).2.fs,
               ctx := (doImport w s pkg version isLocal fd vr).2.ctx,
               cachedConstraints := (doImport w s pkg version isLocal fd vr).2.cachedConstraints,
               trace := s.trace ++ [Event.fetch pkg version isLocal vr] } := by
  unfold doImport
  simp only
  split
  · split
    · rfl
    · split
      · rfl
      · split
        · rfl
        · split
          · rw [cloneLocalPkg_frame]
          · rw [finishImport_frame, cloneLocalPkg_frame]
  · split
    · rfl
    · split
      · rfl
      · split
        · rfl
        · rw [finishImport_frame]

/-! ## Lemmas on maps -/

theorem GoMap.get?_set_self {V : Type} (m : GoMap V) (k : Str) (v : V) :
    (m.set k v).get? k = some v := by
  induction m with
  | nil => simp [GoMap.set, GoMap.get?]
  | cons kv rest ih =>
    obtain ⟨k', v'⟩ := kv
    by_cases h : k' = k
    · simp [GoMap.set, GoMap.get?, h]
    · simp [GoMap.set, GoMap.get?, h, ih]

theorem GoMap.get?_set_ne {V : Type} (m : GoMap V) (k j : Str) (v : V) (h : k ≠ j) :
    (m.set k v).get? j = m.get? j := by
  induction m with
  | nil => simp [GoMap.set, GoMap.get?, h]
  | cons kv rest ih =>
    obtain ⟨k', v'⟩ := kv
    by_cases h1 : k' = k
    · subst h1
      simp [GoMap.set, GoMap.get?, h]
    · by_cases h2 : k' = j
      · subst h2
        simp [GoMap.set, GoMap.get?, h1]
      · simp [GoMap.set, GoMap.get?, h1, h2, ih]

theorem GoMap.contains_set_self {V : Type} (m : GoMap V) (k : Str) (v : V) :
    (m.set k v).contains k = true := by
  simp [GoMap.contains, GoMap.get?_set_self]

theorem GoMap.contains_set_of_contains {V : Type} (m : GoMap V) (k j : Str) (v : V)
    (h : m.contains j = true) : (m.set k v).contains j = true := by
  by_cases hk : k = j
  · subst hk; exact GoMap.contains_set_self m k v
  · simpa [GoMap.contains, GoMap.get?_set_ne m k j v hk] using h

theorem GoMap.contains_set_iff {V : Type} (m : GoMap V) (k j : Str) (v : V) :
    (m.set k v).contains j = true ↔ (j = k ∨ m.contains j = true) := by
  by_cases hk : k = j
  · subst hk; simp [GoMap.contains_set_self]
  · have : j ≠ k := fun h => hk h.symm
    simp [GoMap.contains, GoMap.get?_set_ne m k j v hk, this]
@[simp] theorem ctxCancelled_manifest (s : State) : (ctxCancelled s).2.manifest = s.manifest := by
  rw [ctxCancelled_frame]
@[simp] theorem ctxCancelled_trace (s : State) : (ctxCancelled s).2.trace = s.trace := by
  rw [ctxCancelled_frame]
@[simp] theorem ctxCancelled_fs (s : State) : (ctxCancelled s).2.fs = s.fs := by
  rw [ctxCancelled_frame]
@[simp] theorem ctxCancelled_cachedPkgs (s : State) :
    (ctxCancelled s).2.cachedPkgs = s.cachedPkgs := by
  rw [ctxCancelled_frame]
@[simp] theorem ctxCancelled_newPkgs (s : State) : (ctxCancelled s).2.newPkgs = s.newPkgs := by
  rw [ctxCancelled_frame]
@[simp] theorem doImport_manifest (w : World) (s : State) (pkg version : Str)
    (isLocal fd vr : Bool) : (doImport w s pkg version isLocal fd vr).2.manifest = s.manifest := by
  rw [doImport_frame]
@[simp] theorem doImport_trace (w : World) (s : State) (pkg version : Str)
    (isLocal fd vr : Bool) :
    (doImport w s pkg version isLocal fd vr).2.trace =
      s.trace ++ [Event.fetch pkg version isLocal vr] := by
  rw [doImport_frame]
@[simp] theorem doImport_cachedPkgs (w : World) (s : State) (pkg version : Str)
    (isLocal fd vr : Bool) :
    (doImport w s pkg version isLocal fd vr).2.cachedPkgs = s.cachedPkgs := by
  rw [doImport_frame]
@[simp] theorem doImport_newPkgs (w : World) (s : State) (pkg version : Str)
    (isLocal fd vr : Bool) :
    (doImport w s pkg version isLocal fd vr).2.newPkgs = s.newPkgs := by
  rw [doImport_frame]

/-! ## The steps of `importPackage` -/

/-- What `recordPackage` does: it makes no call to the fetch provider, an early
return is an error that leaves the manifest alone, and otherwise the record of
the root is written with the version and commit of `info` and the root is
marked processed. -/
theorem recordPackage_spec (fuel : Nat) (s : State) (pkg rootPkg : Str) (info : Package)
    (shared : Option (Str × Package)) (ns : List Str) (isNew isLocal fa : Bool) (st : Step)
    (h : recordPackage fuel s pkg rootPkg info shared ns isNew isLocal fa = some st) :
    st.state.trace = s.trace ∧
    (∀ r, st = .ret r → r.err ≠ none ∧ r.state.manifest = s.manifest) ∧
    (∀ s' deps, st = .recurse s' deps →
      (∃ info1, s'.manifest.Packages.get? rootPkg = some info1 ∧
        info1.Version = info.Version ∧ info1.CommitHash = info.CommitHash) ∧
      s'.cachedPkgs.contains rootPkg = true) := by
  unfold recordPackage at h
  simp only at h
  split at h
  · simp only [Option.some.injEq] at h
    subst h
    simp [Step.state]
  · split at h
    · simp at h
    · simp only [Option.some.injEq] at h
      subst h
      simp [Step.state]
    · simp only [Option.some.injEq] at h
      subst h
      simp only [Step.state, ctxCancelled_trace, reduceCtorEq, false_implies, implies_true,
        Step.recurse.injEq, true_and, and_imp]
      intro s' deps hs hd
      subst hs
      refine ⟨?_, GoMap.contains_set_self _ _ _⟩
      simp only
      split <;> simp [GoMap.get?_set_self]

/-- A `doImport` without error has reached `finishImport`. -/
theorem doImport_ok (w : World) (s : State) (pkg version : Str) (isLocal fd vr : Bool)
    (hok : (doImport w s pkg version isLocal fd vr).1.pkgErr = none) :
    ∃ s1 root c cv,
      doImport w s pkg version isLocal fd vr = finishImport w s1 root version c cv fd := by
  unfold doImport at hok ⊢
  cases isLocal with
  | true =>
    cases h1 : w.localStat pkg with
    | false => simp [h1] at hok
    | true =>
      cases h2 : w.vcsFromDir pkg with
      | none => simp [h1, h2] at hok
      | some cr =>
        obtain ⟨cmd, rootPkg⟩ := cr
        by_cases h3 : cmd = "git".toList
        · simp only [h1, h2, h3] at hok ⊢
          simp only [if_true, Bool.not_true, ne_eq, not_true_eq_false, if_false,
            Bool.false_eq_true] at hok ⊢
          split
          · rename_i h4
            rw [h4] at hok
            simp at hok
          · exact ⟨_, _, _, _, rfl⟩
        · have h3' : ¬cmd = ['g', 'i', 't'] := h3
          simp [h1, h2, h3'] at hok
  | false =>
    cases h1 : w.repoRootForImportPath pkg with
    | none => simp [h1] at hok
    | some rr =>
      by_cases h3 : rr.vcsCmd = "git".toList
      · simp only [h1, h3] at hok ⊢
        simp only [Bool.false_eq_true, if_false, ne_eq, not_true_eq_false] at hok ⊢
        split
        · rename_i h4
          rw [h4] at hok
          simp at hok
        · exact ⟨_, _, _, _, rfl⟩
      · have h3' : ¬rr.vcsCmd = ['g', 'i', 't'] := h3
        simp [h1, h3'] at hok

/-- A successful `doImport` for a named version records that version. -/
theorem doImport_version (w : World) (s : State) (pkg version : Str) (isLocal fd vr : Bool)
    (hv : version ≠ []) (hok : (doImport w s pkg version isLocal fd vr).1.pkgErr = none) :
    (doImport w s pkg version isLocal fd vr).1.info.Version = version := by
  obtain ⟨s1, root, c, cv, h⟩ := doImport_ok w s pkg version isLocal fd vr hok
  rw [h]
  simp [finishImport, hv]
@[simp] theorem noteCancelled_trace (b : Bool) (s : State) (root : Str) :
    (noteCancelled b s root).trace = s.trace := by
  unfold noteCancelled; split <;> [split; skip] <;> simp
@[simp] theorem noteCancelled_manifest (b : Bool) (s : State) (root : Str) :
    (noteCancelled b s root).manifest = s.manifest := by
  unfold noteCancelled; split <;> [split; skip] <;> simp
@[simp] theorem noteCancelled_fs (b : Bool) (s : State) (root : Str) :
    (noteCancelled b s root).fs = s.fs := by
  unfold noteCancelled; split <;> [split; skip] <;> simp
@[simp] theorem noteCancelled_cachedPkgs (b : Bool) (s : State) (root : Str) :
    (noteCancelled b s root).cachedPkgs = s.cachedPkgs := by
  unfold noteCancelled; split <;> [split; skip] <;> simp
@[simp] theorem noteNewPkg_trace (a b : Bool) (s : State) (root : Str) :
    (noteNewPkg a b s root).trace = s.trace := by
  unfold noteNewPkg; split <;> rfl
@[simp] theorem noteNewPkg_manifest (a b : Bool) (s : State) (root : Str) :
    (noteNewPkg a b s root).manifest = s.manifest := by
  unfold noteNewPkg; split <;> rfl
@[simp] theorem noteNewPkg_fs (a b : Bool) (s : State) (root : Str) :
    (noteNewPkg a b s root).fs = s.fs := by
  unfold noteNewPkg; split <;> rfl
@[simp] theorem noteNewPkg_cachedPkgs (a b : Bool) (s : State) (root : Str) :
    (noteNewPkg a b s root).cachedPkgs = s.cachedPkgs := by
  unfold noteNewPkg; split <;> rfl
@[simp] theorem removeExisting_manifest (b : Bool) (s : State) (root : Str) :
    (removeExisting b s root).manifest = s.manifest := by
  unfold removeExisting; split <;> rfl
@[simp] theorem removeExisting_cachedPkgs (b : Bool) (s : State) (root : Str) :
    (removeExisting b s root).cachedPkgs = s.cachedPkgs := by
  unfold removeExisting; split <;> rfl
theorem removeExisting_trace (b : Bool) (s : State) (root : Str) :
    (removeExisting b s root).trace = s.trace ++ (if b then [Event.remove root] else []) := by
  unfold removeExisting; split <;> simp

/-- What `reconcileUpdate` does: no call to the fetch provider; a return is an
error; when the step goes on, the record of the fetched root is written with
the fetched version and the root is marked processed. -/
theorem reconcileUpdate_spec (fuel : Nat) (s : State) (pkg rootPkg : Str)
    (r : DoImportResult) (info : Package) (opts : ImportOptions) (ns : List Str)
    (isLocal : Bool) (st : Step)
    (h : reconcileUpdate fuel s pkg rootPkg r info opts ns isLocal = some st) :
    st.state.trace = s.trace ∧
    (∀ res, st = .ret res → res.err ≠ none) ∧
    (∀ s' deps, st = .recurse s' deps →
      (∃ info1, s'.manifest.Packages.get? r.root = some info1 ∧
        info1.Version = r.info.Version) ∧
      s'.cachedPkgs.contains r.root = true) := by
  unfold reconcileUpdate at h
  split at h
  · simp only [Option.some.injEq] at h
    subst h
    simp [Step.state]
  · simp only at h
    split at h
    · simp only [Option.some.injEq] at h
      subst h
      simp [Step.state]
    · have hs := recordPackage_spec _ _ _ _ _ _ _ _ _ _ _ h
      refine ⟨by simpa using hs.1, fun res hr => (hs.2.1 res hr).1, ?_⟩
      intro s' deps hst
      obtain ⟨⟨info1, h1, h2, -⟩, h3⟩ := hs.2.2 s' deps hst
      exact ⟨⟨info1, h1, h2⟩, h3⟩

/-- What `fetchAndRecord` does: without `performImport` the fetch provider is
not called; with it, it is called once, for `rootPkg` at `version`, and when the
step goes on to the dependencies the fetch has succeeded and the record of the
fetched root carries the fetched version; a return from here is an error. -/
theorem fetchAndRecord_spec (w : World) (fuel : Nat) (s : State) (pkg rootPkg version : Str)
    (opts : ImportOptions) (existing : Option Package) (ns : List Str)
    (performImport isLocal vr : Bool) (st : Step)
    (h : fetchAndRecord w fuel s pkg rootPkg version opts existing ns performImport isLocal vr
      = some st) :
    (performImport = false → st.state.trace = s.trace) ∧
    (performImport = true →
      st.state.trace = s.trace ++ [Event.fetch rootPkg version isLocal vr] ∧
      ∀ s' deps, st = .recurse s' deps →
        (doImport w s rootPkg version isLocal true vr).1.pkgErr = none ∧
        (∃ info1, s'.manifest.Packages.get?
            (doImport w s rootPkg version isLocal true vr).1.root = some info1 ∧
          info1.Version = (doImport w s rootPkg version isLocal true vr).1.info.Version) ∧
        s'.cachedPkgs.contains (doImport w s rootPkg version isLocal true vr).1.root = true) ∧
    (∀ r, st = .ret r → r.err ≠ none) := by
  unfold fetchAndRecord at h
  simp only at h
  cases performImport with
  | false =>
    simp only [Bool.false_eq_true, if_false] at h
    refine ⟨fun _ => ?_, fun hf => by simp at hf, ?_⟩
    · cases existing with
      | none => simpa using (recordPackage_spec _ _ _ _ _ _ _ _ _ _ _ h).1
      | some info => simpa using (recordPackage_spec _ _ _ _ _ _ _ _ _ _ _ h).1
    · intro r hr
      cases existing with
      | none => exact ((recordPackage_spec _ _ _ _ _ _ _ _ _ _ _ h).2.1 r hr).1
      | some info => exact ((recordPackage_spec _ _ _ _ _ _ _ _ _ _ _ h).2.1 r hr).1
  | true =>
    simp only [if_true] at h
    cases hd : (doImport w s rootPkg version isLocal true vr).1.pkgErr with
    | some e =>
      rw [hd] at h
      simp only [Option.some.injEq] at h
      subst h
      simp [Step.state]
    | none =>
      rw [hd] at h
      simp only at h
      cases existing with
      | none =>
        simp only at h
        have hs := recordPackage_spec _ _ _ _ _ _ _ _ _ _ _ h
        refine ⟨fun hf => by simp at hf, fun _ => ⟨by simpa using hs.1, ?_⟩,
          fun res hr => (hs.2.1 res hr).1⟩
        intro s' deps hst
        obtain ⟨⟨info1, h1, h2, -⟩, h3⟩ := hs.2.2 s' deps hst
        exact ⟨rfl, ⟨info1, h1, h2⟩, h3⟩
      | some info =>
        simp only at h
        have hs := reconcileUpdate_spec _ _ _ _ _ _ _ _ _ _ h
        refine ⟨fun hf => by simp at hf, fun _ => ⟨by simpa using hs.1, ?_⟩, hs.2.1⟩
        intro s' deps hst
        obtain ⟨⟨info1, h1, h2⟩, h3⟩ := hs.2.2 s' deps hst
        exact ⟨rfl, ⟨info1, h1, h2⟩, h3⟩

/-! ## Induction over the recursion of `importPackage` -/

/-- The loop over the dependencies, for a relation `R` between a state and a
result that holds of doing nothing, chains through successful calls, and holds
of each call of `importOne`. -/
theorem importDeps_induct (R : State → Result → Prop)
    (hrefl : ∀ s, R s ⟨none, s⟩)
    (hchain : ∀ s s1 r, R s ⟨none, s1⟩ → R s1 r → R s r)
    (importOne : State → Str → ImportOptions → Option Result) (u : Bool)
    (hone : ∀ s p subs r,
      importOne s p { Update := u, UpdateDeps := u, Subpackages := subs } = some r → R s r)
    (deps : GoMap (List Str)) :
    ∀ s r, importDeps importOne u s deps = some r → R s r := by
  induction deps with
  | nil =>
    intro s r h
    simp only [importDeps, Option.some.injEq] at h
    subst h
    exact hrefl s
  | cons d rest ih =>
    obtain ⟨p, subs⟩ := d
    intro s r h
    simp only [importDeps] at h
    cases h1 : importOne s p { Update := u, UpdateDeps := u, Subpackages := subs } with
    | none => rw [h1] at h; simp at h
    | some r1 =>
      rw [h1] at h
      simp only at h
      have hr1 := hone s p subs r1 h1
      cases he : r1.err with
      | some e =>
        rw [he] at h
        simp only [Option.some.injEq] at h
        subst h
        have : (⟨some e, r1.state⟩ : Result) = r1 := by
          cases r1; simp_all
        rw [this]
        exact hr1
      | none =>
        rw [he] at h
        simp only at h
        have : (⟨none, r1.state⟩ : Result) = r1 := by
          cases r1; simp_all
        exact hchain s r1.state r (this ▸ hr1) (ih _ _ h)

/-- Induction over the recursion of `importPackage`: a relation `R` that holds
of doing nothing, chains through successful calls and holds of each single
step made under options satisfying `Q` (which the options of the recursive
calls inherit) holds of every call that returns. -/
theorem importPackage_induct (w : World) (R : State → Result → Prop)
    (Q : ImportOptions → Prop)
    (hrefl : ∀ s, R s ⟨none, s⟩)
    (hchain : ∀ s s1 r, R s ⟨none, s1⟩ → R s1 r → R s r)
    (hQ : ∀ opts subs, Q opts →
      Q { Update := opts.UpdateDeps, UpdateDeps := opts.UpdateDeps, Subpackages := subs })
    (hret : ∀ fuel s pkg opts r, Q opts → importStep w fuel s pkg opts = some (.ret r) → R s r)
    (hrec : ∀ fuel s pkg opts s1 deps, Q opts →
      importStep w fuel s pkg opts = some (.recurse s1 deps) → R s ⟨none, s1⟩) :
    ∀ fuel s pkg opts r, Q opts → importPackage w fuel s pkg opts = some r → R s r := by
  intro fuel
  induction fuel with
  | zero => intro s pkg opts r _ h; simp [importPackage] at h
  | succ n ih =>
    intro s pkg opts r hq h
    simp only [importPackage] at h
    cases hs : importStep w n s pkg opts with
    | none => rw [hs] at h; simp at h
    | some st =>
      rw [hs] at h
      cases st with
      | ret r1 =>
        simp only [Option.some.injEq] at h
        subst h
        exact hret n s pkg opts _ hq hs
      | recurse s1 deps =>
        simp only at h
        refine hchain s s1 r (hrec n s pkg opts s1 deps hq hs) ?_
        exact importDeps_induct R hrefl hchain (importPackage w n) opts.UpdateDeps
          (fun s' p subs r' hr' => ih s' p _ r' (hQ opts subs hq) hr') deps s1 r h

/-! ## The settings of the manifest are never written -/

theorem SameSettings.refl (m : Manifest) : SameSettings m m :=
  ⟨rfl, rfl, rfl, rfl, rfl⟩

theorem SameSettings.trans {a b c : Manifest} (h1 : SameSettings a b) (h2 : SameSettings b c) :
    SameSettings a c :=
  ⟨h2.1.trans h1.1, h2.2.1.trans h1.2.1, h2.2.2.1.trans h1.2.2.1,
    h2.2.2.2.1.trans h1.2.2.2.1, h2.2.2.2.2.trans h1.2.2.2.2⟩

theorem recordPackage_settings (fuel : Nat) (s : State) (pkg rootPkg : Str) (info : Package)
    (shared : Option (Str × Package)) (ns : List Str) (isNew isLocal fa : Bool) (st : Step)
    (h : recordPackage fuel s pkg rootPkg info shared ns isNew isLocal fa = some st) :
    SameSettings s.manifest st.state.manifest := by
  unfold recordPackage at h
  simp only at h
  split at h
  · simp only [Option.some.injEq] at h
    subst h
    simp [Step.state, SameSettings]
  · split at h
    · simp at h
    · simp only [Option.some.injEq] at h
      subst h
      simp [Step.state, SameSettings]
    · simp only [Option.some.injEq] at h
      subst h
      simp only [Step.state, SameSettings]
      split <;> simp

theorem reconcileUpdate_settings (fuel : Nat) (s : State) (pkg rootPkg : Str)
    (r : DoImportResult) (info : Package) (opts : ImportOptions) (ns : List Str)
    (isLocal : Bool) (st : Step)
    (h : reconcileUpdate fuel s pkg rootPkg r info opts ns isLocal = some st) :
    SameSettings s.manifest st.state.manifest := by
  unfold reconcileUpdate at h
  split at h
  · simp only [Option.some.injEq] at h
    subst h
    exact SameSettings.refl _
  · simp only at h
    split at h
    · simp only [Option.some.injEq] at h
      subst h
      exact SameSettings.refl _
    · have hs := recordPackage_settings _ _ _ _ _ _ _ _ _ _ _ h
      simpa [SameSettings] using hs

theorem fetchAndRecord_settings (w : World) (fuel : Nat) (s : State)
    (pkg rootPkg version : Str) (opts : ImportOptions) (existing : Option Package)
    (ns : List Str) (performImport isLocal vr : Bool) (st : Step)
    (h : fetchAndRecord w fuel s pkg rootPkg version opts existing ns performImport isLocal vr
      = some st) :
    SameSettings s.manifest st.state.manifest := by
  unfold fetchAndRecord at h
  simp only at h
  cases performImport with
  | false =>
    simp only [Bool.false_eq_true, if_false] at h
    cases existing with
    | none => simpa using recordPackage_settings _ _ _ _ _ _ _ _ _ _ _ h
    | some info => simpa using recordPackage_settings _ _ _ _ _ _ _ _ _ _ _ h
  | true =>
    simp only [if_true] at h
    cases hd : (doImport w s rootPkg version isLocal true vr).1.pkgErr with
    | some e =>
      rw [hd] at h
      simp only [Option.some.injEq] at h
      subst h
      simp [Step.state, SameSettings]
    | none =>
      rw [hd] at h
      simp only at h
      cases existing with
      | none => simpa using recordPackage_settings _ _ _ _ _ _ _ _ _ _ _ h
      | some info => simpa using reconcileUpdate_settings _ _ _ _ _ _ _ _ _ _ h

theorem importStep_settings (w : World) (fuel : Nat) (s : State) (pkg : Str)
    (opts : ImportOptions) (st : Step) (h : importStep w fuel s pkg opts = some st) :
    SameSettings s.manifest st.state.manifest := by
  unfold importStep at h
  simp only at h
  split at h
  · split at h <;>
      (simp only [Option.some.injEq] at h; subst h; simp [Step.state, SameSettings])
  · split at h
    · simp only [Option.some.injEq] at h; subst h; exact SameSettings.refl _
    · split at h
      · exact fetchAndRecord_settings _ _ _ _ _ _ _ _ _ _ _ _ _ h
      · split at h
        · simp only [Option.some.injEq] at h; subst h; exact SameSettings.refl _
        · split at h
          · simp only [Option.some.injEq] at h; subst h; exact SameSettings.refl _
          · split at h
            · simp only [Option.some.injEq] at h; subst h; exact SameSettings.refl _
            · simpa using fetchAndRecord_settings _ _ _ _ _ _ _ _ _ _ _ _ _ h

/-- A call of `importPackage` leaves vendor path, exclusions and constraints of
the manifest as they were. -/
theorem importPackage_settings (w : World) (fuel : Nat) (s : State) (pkg : Str)
    (opts : ImportOptions) (r : Result) (h : importPackage w fuel s pkg opts = some r) :
    SameSettings s.manifest r.state.manifest :=
  importPackage_induct w (fun s r => SameSettings s.manifest r.state.manifest)
    (fun _ => True) (fun s => SameSettings.refl _) (fun _ _ _ h1 h2 => h1.trans h2)
    (fun _ _ _ => trivial)
    (fun fuel s pkg opts r _ hs => importStep_settings w fuel s pkg opts _ hs)
    (fun fuel s pkg opts s1 deps _ hs => importStep_settings w fuel s pkg opts _ hs)
    fuel s pkg opts r trivial h

/-! ## C4: resolving the same package again -/

/-- C4, the failing run. `github.com/x/a/sub` is resolved on an empty manifest
with no flags: the root `github.com/x/a` is new, it is fetched, and only its
root directory is scanned (the requested path joins the directories to scan
only for a root the manifest already has), so the record lists neither the
sub-package nor its import. Resolving the same path again, with the same
options, finds the path missing from the record, scans `sub`, adds it and
the package it imports, `github.com/y/b`, to the record and fetches
`github.com/y/b`: a fetch is made and the manifest has changed. The same happens within one run of `get`
given the path twice. For the root path `github.com/x/a`, requested with
`FetchAll` as `get` does, the second call returns at once and changes
nothing. -/
theorem C4_second_call_scans_subpackage :
    (∃ s1 s2,
      importPackage subpackageWorld 3 {} "github.com/x/a/sub".toList {} = some ⟨none, s1⟩ ∧
      importPackage subpackageWorld 3 s1 "github.com/x/a/sub".toList {} = some ⟨none, s2⟩ ∧
      s1.trace = [Event.fetch "github.com/x/a".toList [] false false] ∧
      s2.trace = [Event.fetch "github.com/x/a".toList [] false false,
        Event.fetch "github.com/y/b".toList [] false false] ∧
      (s1.manifest.Packages.get? "github.com/x/a".toList).map
        (fun p => (p.Subpackages.keys, p.Deps.keys)) = some ([], []) ∧
      (s2.manifest.Packages.get? "github.com/x/a".toList).map
        (fun p => (p.Subpackages.keys, p.Deps.keys)) =
        some (["github.com/x/a/sub".toList], ["github.com/y/b".toList]) ∧
      s2.manifest.Packages.keys = ["github.com/x/a".toList, "github.com/y/b".toList] ∧
      s1.manifest.Packages.keys = ["github.com/x/a".toList] ∧
      s2.manifest ≠ s1.manifest) ∧
    (Get subpackageWorld 3 false false false {} ["github.com/x/a/sub".toList]).map
      (fun r => (r.2.err, r.2.state.trace)) =
      some (none, [Event.fetch "github.com/x/a".toList [] false false]) ∧
    (Get subpackageWorld 3 false false false {}
      ["github.com/x/a/sub".toList, "github.com/x/a/sub".toList]).map
      (fun r => (r.2.err, r.2.state.trace)) =
      some (none, [Event.fetch "github.com/x/a".toList [] false false,
        Event.fetch "github.com/y/b".toList [] false false]) ∧
    (∃ s1,
      importPackage subpackageWorld 3 {} "github.com/x/a".toList { FetchAll := true } =
        some ⟨none, s1⟩ ∧
      importPackage subpackageWorld 3 s1 "github.com/x/a".toList { FetchAll := true } =
        some ⟨none, s1⟩) := by
  refine ⟨⟨_, _, rfl, rfl, ?_, ?_, ?_, ?_, ?_, ?_, ?_⟩, ?_, ?_, ⟨_, rfl, ?_⟩⟩ <;> decide

/-! ## C5: a deprecated sub-package that is still used -/

theorem GoMap.mem_of_get? {V : Type} (m : GoMap V) (k : Str) (v : V)
    (h : m.get? k = some v) : (k, v) ∈ m := by
  induction m with
  | nil => simp [GoMap.get?] at h
  | cons kv rest ih =>
    obtain ⟨k', v'⟩ := kv
    by_cases hk : k' = k
    · subst hk
      simp only [GoMap.get?, if_true, Option.some.injEq] at h
      subst h
      exact List.mem_cons_self _ _
    · simp only [GoMap.get?, hk, if_false] at h
      exact List.mem_cons_of_mem _ (ih h)

theorem GoMap.mem_keys_of_contains {V : Type} (m : GoMap V) (k : Str)
    (h : m.contains k = true) : k ∈ m.keys := by
  unfold GoMap.contains at h
  cases hg : m.get? k with
  | none => rw [hg] at h; simp at h
  | some v =>
    have := GoMap.mem_of_get? m k v hg
    exact List.mem_map.mpr ⟨(k, v), this, rfl⟩

/-- A sub-package the record lists and the fetched tree lacks, with a package
of the manifest depending on it, gives a deprecation message naming both. -/
theorem deprecationMsgs_mem (m : Manifest) (info pkgInfo : Package) (subpkgs : List Str)
    (a sub : Str) (pa : Package)
    (hsub : info.Subpackages.contains sub = true) (habs : sub ∉ subpkgs)
    (ha : m.Packages.get? a = some pa) (hdep : pa.Deps.contains sub = true) :
    sub ∈ deprecatedPkgs info subpkgs ∧
    (a, sub, pkgInfo.String) ∈ deprecationMsgs m (deprecatedPkgs info subpkgs) pkgInfo := by
  have h1 : sub ∈ deprecatedPkgs info subpkgs := by
    unfold deprecatedPkgs
    rw [List.mem_filter]
    refine ⟨GoMap.mem_keys_of_contains _ _ hsub, ?_⟩
    simpa using habs
  refine ⟨h1, ?_⟩
  unfold deprecationMsgs
  rw [List.mem_flatMap]
  refine ⟨(a, pa), GoMap.mem_of_get? _ _ _ ha, ?_⟩
  rw [List.mem_map]
  exact ⟨sub, List.mem_filter.mpr ⟨h1, hdep⟩, rfl⟩

/-- C5. Let the manifest record a package under `root` for the path `b`, with
`sub` among its sub-packages, and let a package `a` of the manifest have `sub`
in its dependency set. If `importPackage` is called for `b` with the update
flag and comes to fetch (the root is not excluded, no constraint conflict, not
already processed without pending sub-packages, the requested version is not
the recorded one), the fetch succeeds and the fetched tree has no directory
listed as `sub`, then the call fails with the deprecation error, the error
names `a` and `sub`, and the manifest (so the record of `b`: version, commit,
dependencies, sub-packages) is what it was before the call. -/
theorem C5_deprecated_subpackage_conflict (w : World) (fuel : Nat) (s : State)
    (a b sub : Str) (opts : ImportOptions) (existing pa : Package) (root version : Str)
    (vr : Bool) (subpkgs : List Str)
    (hex : s.manifest.IsExcludedPkg (getPkgRoot b) = none)
    (hres : resolveVersion s (getPkgRoot b) opts.Version = .ok (version, vr))
    (hpe : s.manifest.PkgExists (getPkgRoot b) = some (existing, root))
    (hsub : existing.Subpackages.contains sub = true)
    (ha : s.manifest.Packages.get? a = some pa) (hdep : pa.Deps.contains sub = true)
    (hupd : opts.Update = true)
    (hcache : ¬(s.cachedPkgs.contains root = true ∧
      newSubpackages s.manifest existing root b opts.Subpackages = []))
    (hver : ¬(version ≠ [] ∧ version = existing.Version))
    (hok : (doImport w (removeExisting true s root) root version
      (opts.Local || (s.manifest.IsLocalPkg (getPkgRoot b)).isSome) true vr).1.pkgErr = none)
    (htree : getPkgSubpackages s.manifest
      (doImport w (removeExisting true s root) root version
        (opts.Local || (s.manifest.IsLocalPkg (getPkgRoot b)).isSome) true vr).2.fs
      (vendorDir s.manifest root) = some subpkgs)
    (habs : sub ∉ subpkgs) :
    ∃ msgs st, importPackage w (fuel + 1) s b opts = some ⟨some (.deprecated msgs), st⟩ ∧
      (∃ v, (a, sub, v) ∈ msgs) ∧ st.manifest = s.manifest ∧
      st.manifest.Packages.get? root = some existing := by
  have hget : s.manifest.Packages.get? root = some existing := by
    unfold Manifest.PkgExists at hpe
    cases hl : prefixLookup s.manifest.Packages (getPkgRoot b) with
    | none => rw [hl] at hpe; simp at hpe
    | some kv =>
      obtain ⟨k, v⟩ := kv
      rw [hl] at hpe
      simp only [Option.map_some', Option.some.injEq, Prod.mk.injEq] at hpe
      obtain ⟨h1, h2⟩ := hpe
      subst h1 h2
      exact (prefixLoop_some _ _ _ _ _ hl).choose_spec.2.2.2.1
  have hstep : importStep w fuel s b opts =
      fetchAndRecord w fuel (removeExisting true s root) b root version opts (some existing)
        (newSubpackages s.manifest existing root b opts.Subpackages) true
        (opts.Local || (s.manifest.IsLocalPkg (getPkgRoot b)).isSome) vr := by
    unfold importStep
    simp only [hex, hres, hpe, hupd]
    have h1 : ¬(s.cachedPkgs.contains root = true ∧
        ¬(newSubpackages s.manifest existing root b opts.Subpackages).length ≠ 0) := by
      intro h
      apply hcache
      refine ⟨h.1, ?_⟩
      have := h.2
      simp only [ne_eq, not_not] at this
      exact List.length_eq_zero.mp this
    rw [if_neg h1]
    simp [hver]
  obtain ⟨hdepr, hmsg⟩ := deprecationMsgs_mem s.manifest existing
    (doImport w (removeExisting true s root) root version
      (opts.Local || (s.manifest.IsLocalPkg (getPkgRoot b)).isSome) true vr).1.info
    subpkgs a sub pa hsub habs ha hdep
  have hfr : fetchAndRecord w fuel (removeExisting true s root) b root version opts
      (some existing) (newSubpackages s.manifest existing root b opts.Subpackages) true
      (opts.Local || (s.manifest.IsLocalPkg (getPkgRoot b)).isSome) vr =
      some (.ret ⟨some (.deprecated (deprecationMsgs s.manifest
          (deprecatedPkgs existing subpkgs)
          (doImport w (removeExisting true s root) root version
            (opts.Local || (s.manifest.IsLocalPkg (getPkgRoot b)).isSome) true vr).1.info)),
        noteCancelled (opts.Update || opts.UpdateDeps)
          (doImport w (removeExisting true s root) root version
            (opts.Local || (s.manifest.IsLocalPkg (getPkgRoot b)).isSome) true vr).2
          (doImport w (removeExisting true s root) root version
            (opts.Local || (s.manifest.IsLocalPkg (getPkgRoot b)).isSome) true vr).1.root⟩) := by
    unfold fetchAndRecord
    simp only [if_true, hok]
    unfold reconcileUpdate
    simp only [noteCancelled_manifest, noteCancelled_fs, doImport_manifest,
      removeExisting_manifest, htree]
    have hne1 : (deprecatedPkgs existing subpkgs).length ≠ 0 := by
      intro h
      rw [List.length_eq_zero.mp h] at hdepr
      simp at hdepr
    have hne2 : (deprecationMsgs s.manifest (deprecatedPkgs existing subpkgs)
        (doImport w (removeExisting true s root) root version
          (opts.Local || (s.manifest.IsLocalPkg (getPkgRoot b)).isSome) true vr).1.info).length
        ≠ 0 := by
      intro h
      rw [List.length_eq_zero.mp h] at hmsg
      simp at hmsg
    rw [if_pos ⟨hne1, hne2⟩]
  have himp := hfr
  rw [← hstep] at himp
  exact ⟨_, _, by rw [importPackage, himp], ⟨_, hmsg⟩, by simp, by simpa using hget⟩

/-- C5 at a concrete input: `github.com/x/a` depends on `github.com/y/b/sub`;
the update of `github.com/y/b` fetches a tree without `sub`; the call fails,
its error names `github.com/x/a` and `github.com/y/b/sub`, and the manifest is
unchanged. -/
theorem C5_deprecated_subpackage_conflict_witness :
    ∃ msgs st,
      importPackage shrunkWorld 1 dependentState "github.com/y/b".toList { Update := true } =
        some ⟨some (.deprecated msgs), st⟩ ∧
      (∃ v, ("github.com/x/a".toList, "github.com/y/b/sub".toList, v) ∈ msgs) ∧
      st.manifest = dependentState.manifest ∧
      st.manifest.Packages.get? "github.com/y/b".toList =
        some { Version := "v1".toList, CommitHash := "cb".toList,
               Subpackages := [("github.com/y/b/sub".toList, ())] } :=
  C5_deprecated_subpackage_conflict shrunkWorld 0 dependentState "github.com/x/a".toList
    "github.com/y/b".toList "github.com/y/b/sub".toList { Update := true }
    { Version := "v1".toList, CommitHash := "cb".toList,
      Subpackages := [("github.com/y/b/sub".toList, ())] }
    { Version := "v1".toList, CommitHash := "ca".toList,
      Deps := [("github.com/y/b/sub".toList, ())] }
    "github.com/y/b".toList [] false ["github.com/y/b".toList]
    (by decide) rfl (by decide) (by decide) (by decide) (by decide) rfl (by decide)
    (by decide) (by decide) (by decide) (by decide)

/-! ## More fuel does not change a result -/

theorem walkRounds_mono (m : Manifest) (fs : Dir) (pkg : Str) (pm : Bool) (n k : Nat) :
    ∀ (dirs : List Str) (acc : GoMap Unit × GoMap Unit) (r : Except Err (GoMap Unit × GoMap Unit)),
      walkRounds m fs pkg pm n dirs acc = some r →
      walkRounds m fs pkg pm (n + k) dirs acc = some r := by
  induction n with
  | zero =>
    intro dirs acc r h
    cases dirs with
    | nil =>
      cases k with
      | zero => exact h
      | succ k => simpa [walkRounds] using h
    | cons d ds => simp [walkRounds] at h
  | succ n ih =>
    intro dirs acc r h
    cases dirs with
    | nil =>
      rw [show n + 1 + k = (n + k) + 1 by omega]
      simpa [walkRounds] using h
    | cons d ds =>
      obtain ⟨walkMap, importsMap⟩ := acc
      rw [show n + 1 + k = (n + k) + 1 by omega]
      simp only [walkRounds] at h ⊢
      split
      · rename_i e he
        rw [he] at h
        exact h
      · rename_i wm im nd he
        rw [he] at h
        exact ih _ _ _ h

theorem getPkgImports_mono (m : Manifest) (fs : Dir) (n k : Nat) (pkg : Str)
    (subpkgs : List Str) (dir : Str) (isNew fa pm : Bool)
    (r : Except Err (List Str × List Str × GoMap (List Str)))
    (h : getPkgImports m fs n pkg subpkgs dir isNew fa pm = some r) :
    getPkgImports m fs (n + k) pkg subpkgs dir isNew fa pm = some r := by
  unfold getPkgImports at h ⊢
  cases fa with
  | true => simpa using h
  | false =>
    simp only [Bool.false_eq_true, if_false] at h ⊢
    cases hw : walkRounds m fs pkg pm n
        (if (!(List.foldl (chooseDirs m pkg dir) (false, []) subpkgs).1 && isNew) = true then
          (List.foldl (chooseDirs m pkg dir) (false, []) subpkgs).2 ++ [pkg]
        else (List.foldl (chooseDirs m pkg dir) (false, []) subpkgs).2) ([], []) with
    | none => rw [hw] at h; simp at h
    | some res =>
      rw [hw] at h
      rw [walkRounds_mono m fs pkg pm n k _ _ _ hw]
      exact h

theorem recordPackage_mono (n k : Nat) (s : State) (pkg rootPkg : Str) (info : Package)
    (shared : Option (Str × Package)) (ns : List Str) (isNew isLocal fa : Bool) (st : Step)
    (h : recordPackage n s pkg rootPkg info shared ns isNew isLocal fa = some st) :
    recordPackage (n + k) s pkg rootPkg info shared ns isNew isLocal fa = some st := by
  unfold recordPackage at h ⊢
  simp only at h ⊢
  split
  · rename_i hc
    rw [if_pos hc] at h
    exact h
  · rename_i hc
    rw [if_neg hc] at h
    cases hg : getPkgImports (ctxCancelled s).2.manifest (ctxCancelled s).2.fs n rootPkg ns
        (vendorDir (ctxCancelled s).2.manifest rootPkg) isNew fa false with
    | none => rw [hg] at h; simp at h
    | some res =>
      rw [hg] at h
      rw [getPkgImports_mono _ _ n k _ _ _ _ _ _ _ hg]
      exact h

theorem reconcileUpdate_mono (n k : Nat) (s : State) (pkg rootPkg : Str)
    (r : DoImportResult) (info : Package) (opts : ImportOptions) (ns : List Str)
    (isLocal : Bool) (st : Step)
    (h : reconcileUpdate n s pkg rootPkg r info opts ns isLocal = some st) :
    reconcileUpdate (n + k) s pkg rootPkg r info opts ns isLocal = some st := by
  unfold reconcileUpdate at h ⊢
  split
  · rename_i hc
    rw [hc] at h
    exact h
  · rename_i subpkgs hc
    rw [hc] at h
    simp only at h ⊢
    split
    · rename_i hd
      rw [if_pos hd] at h
      exact h
    · rename_i hd
      rw [if_neg hd] at h
      exact recordPackage_mono n k _ _ _ _ _ _ _ _ _ _ h

theorem fetchAndRecord_mono (w : World) (n k : Nat) (s : State) (pkg rootPkg version : Str)
    (opts : ImportOptions) (existing : Option Package) (ns : List Str)
    (performImport isLocal vr : Bool) (st : Step)
    (h : fetchAndRecord w n s pkg rootPkg version opts existing ns performImport isLocal vr
      = some st) :
    fetchAndRecord w (n + k) s pkg rootPkg version opts existing ns performImport isLocal vr
      = some st := by
  unfold fetchAndRecord at h ⊢
  simp only at h ⊢
  cases performImport with
  | false =>
    simp only [Bool.false_eq_true, if_false] at h ⊢
    cases existing with
    | none => exact recordPackage_mono n k _ _ _ _ _ _ _ _ _ _ h
    | some info => exact recordPackage_mono n k _ _ _ _ _ _ _ _ _ _ h
  | true =>
    simp only [if_true] at h ⊢
    cases hd : (doImport w s rootPkg version isLocal true vr).1.pkgErr with
    | some e =>
      rw [hd] at h
      exact h
    | none =>
      rw [hd] at h
      simp only at h ⊢
      cases existing with
      | none => exact recordPackage_mono n k _ _ _ _ _ _ _ _ _ _ h
      | some info => exact reconcileUpdate_mono n k _ _ _ _ _ _ _ _ _ h

/-- A step that ends with some bound on the rounds of its scan ends the same
way with any larger bound. -/
theorem importStep_mono (w : World) (n k : Nat) (s : State) (pkg : Str)
    (opts : ImportOptions) (st : Step) (h : importStep w n s pkg opts = some st) :
    importStep w (n + k) s pkg opts = some st := by
  unfold importStep at h ⊢
  simp only at h ⊢
  split
  · rename_i root hc
    rw [hc] at h
    exact h
  · rename_i hc
    rw [hc] at h
    simp only at h
    split
    · rename_i e hr
      rw [hr] at h
      exact h
    · rename_i version vr hr
      rw [hr] at h
      simp only at h
      split
      · rename_i hp
        rw [hp] at h
        exact fetchAndRecord_mono w n k _ _ _ _ _ _ _ _ _ _ _ h
      · rename_i existing root hp
        rw [hp] at h
        simp only at h
        split
        · rename_i h1
          rw [if_pos h1] at h
          exact h
        · rename_i h1
          rw [if_neg h1] at h
          split
          · rename_i h2
            rw [if_pos h2] at h
            exact h
          · rename_i h2
            rw [if_neg h2] at h
            split
            · rename_i h3
              rw [if_pos h3] at h
              exact h
            · rename_i h3
              rw [if_neg h3] at h
              exact fetchAndRecord_mono w n k _ _ _ _ _ _ _ _ _ _ _ h

theorem importDeps_mono (f g : State → Str → ImportOptions → Option Result) (u : Bool)
    (hfg : ∀ s p o r, f s p o = some r → g s p o = some r) (deps : GoMap (List Str)) :
    ∀ s r, importDeps f u s deps = some r → importDeps g u s deps = some r := by
  induction deps with
  | nil => intro s r h; simpa [importDeps] using h
  | cons d rest ih =>
    obtain ⟨p, subs⟩ := d
    intro s r h
    simp only [importDeps] at h ⊢
    cases h1 : f s p { Update := u, UpdateDeps := u, Subpackages := subs } with
    | none => rw [h1] at h; simp at h
    | some r1 =>
      rw [h1] at h
      rw [hfg _ _ _ _ h1]
      simp only at h ⊢
      cases he : r1.err with
      | some e => rw [he] at h; exact h
      | none =>
        rw [he] at h
        exact ih _ _ h

/-- A call of `importPackage` that returns within some bound returns the same
result within any larger bound. -/
theorem importPackage_mono (w : World) (n k : Nat) :
    ∀ (s : State) (pkg : Str) (opts : ImportOptions) (r : Result),
      importPackage w n s pkg opts = some r → importPackage w (n + k) s pkg opts = some r := by
  induction n with
  | zero => intro s pkg opts r h; simp [importPackage] at h
  | succ n ih =>
    intro s pkg opts r h
    rw [show n + 1 + k = (n + k) + 1 by omega]
    simp only [importPackage] at h ⊢
    cases hs : importStep w n s pkg opts with
    | none => rw [hs] at h; simp at h
    | some st =>
      rw [hs] at h
      rw [importStep_mono w n k s pkg opts st hs]
      cases st with
      | ret r1 => exact h
      | recurse s1 deps =>
        simp only at h ⊢
        exact importDeps_mono _ _ _ ih deps s1 r h

/-! ## C6: the recursion on a cycle between two roots -/

/-- The steps of the resolution of `github.com/x/a` in `cycleWorld`: the first
step fetches `a` and asks for `b`; the step for `b` fetches it and asks for
`a` with the sub-package `a`; from then on the step for either root finds the
requested root path missing from the record's sub-packages, scans the root
directory again, leaves the state as it is and asks for the other root. -/
theorem cycle_steps :
    ∃ sA sB : State,
      importStep cycleWorld 0 {} "github.com/x/a".toList { FetchAll := true } =
        some (.recurse sA [("github.com/y/b".toList, ["github.com/y/b".toList])]) ∧
      importStep cycleWorld 1 sA "github.com/y/b".toList
          { Subpackages := ["github.com/y/b".toList] } =
        some (.recurse sB [("github.com/x/a".toList, ["github.com/x/a".toList])]) ∧
      importStep cycleWorld 1 sB "github.com/x/a".toList
          { Subpackages := ["github.com/x/a".toList] } =
        some (.recurse sB [("github.com/y/b".toList, ["github.com/y/b".toList])]) ∧
      importStep cycleWorld 1 sB "github.com/y/b".toList
          { Subpackages := ["github.com/y/b".toList] } =
        some (.recurse sB [("github.com/x/a".toList, ["github.com/x/a".toList])]) ∧
      sB.trace = [Event.fetch "github.com/x/a".toList [] false false,
        Event.fetch "github.com/y/b".toList [] false false] := by
  refine ⟨_, _, rfl, rfl, ?_, ?_, ?_⟩
  · decide
  · decide
  · decide

/-- With the outcome of a step known for one bound, every bound that lets the
step end gives that outcome. -/
theorem importStep_unique (w : World) (s : State) (pkg : Str) (opts : ImportOptions)
    (n : Nat) (st1 : Step) (h1 : importStep w n s pkg opts = some st1) (m : Nat) (st : Step)
    (h : importStep w m s pkg opts = some st) : st = st1 := by
  have a := importStep_mono w n m s pkg opts st1 h1
  have b := importStep_mono w m n s pkg opts st h
  rw [Nat.add_comm] at b
  rw [a] at b
  exact (Option.some.inj b).symm

/-- C6 (the code against the claim). In `cycleWorld`, where the root
directories of `github.com/x/a` and `github.com/y/b` import each other, the
call `importPackage("github.com/x/a")` that `get` makes on an empty manifest
returns within no bound on the depth of the recursion, and so does `Get`:
after both roots are fetched, each call for one root re-enters the other
without end. -/
theorem C6_cycle_diverges (fuel : Nat) :
    importPackage cycleWorld fuel {} "github.com/x/a".toList { FetchAll := true } = none ∧
    Get cycleWorld fuel false false false {} ["github.com/x/a".toList] = none := by
  suffices h : importPackage cycleWorld fuel {} "github.com/x/a".toList { FetchAll := true }
      = none by
    refine ⟨h, ?_⟩
    show (match importPackage cycleWorld fuel {} "github.com/x/a".toList { FetchAll := true }
      with
      | none => none
      | some r =>
        match r.err with
        | some e => some ([], ⟨some e, r.state⟩)
        | none => Get cycleWorld fuel false false false r.state []) = none
    rw [h]
  obtain ⟨sA, sB, h0, hAB, hBA, hBB, -⟩ := cycle_steps
  have hloop : ∀ n,
      importPackage cycleWorld n sB "github.com/x/a".toList
        { Subpackages := ["github.com/x/a".toList] } = none ∧
      importPackage cycleWorld n sB "github.com/y/b".toList
        { Subpackages := ["github.com/y/b".toList] } = none := by
    intro n
    induction n with
    | zero => exact ⟨rfl, rfl⟩
    | succ n ih =>
      constructor
      · simp only [importPackage]
        cases hs : importStep cycleWorld n sB "github.com/x/a".toList
            { Subpackages := ["github.com/x/a".toList] } with
        | none => rfl
        | some st =>
          have := importStep_unique _ _ _ _ 1 _ hBA n st hs
          subst this
          simp only [importDeps]
          rw [ih.2]
      · simp only [importPackage]
        cases hs : importStep cycleWorld n sB "github.com/y/b".toList
            { Subpackages := ["github.com/y/b".toList] } with
        | none => rfl
        | some st =>
          have := importStep_unique _ _ _ _ 1 _ hBB n st hs
          subst this
          simp only [importDeps]
          rw [ih.1]
  have hB : ∀ n, importPackage cycleWorld n sA "github.com/y/b".toList
      { Subpackages := ["github.com/y/b".toList] } = none := by
    intro n
    cases n with
    | zero => rfl
    | succ n =>
      simp only [importPackage]
      cases hs : importStep cycleWorld n sA "github.com/y/b".toList
          { Subpackages := ["github.com/y/b".toList] } with
      | none => rfl
      | some st =>
        have := importStep_unique _ _ _ _ 1 _ hAB n st hs
        subst this
        simp only [importDeps]
        rw [(hloop n).1]
  cases fuel with
  | zero => rfl
  | succ n =>
    simp only [importPackage]
    cases hs : importStep cycleWorld n {} "github.com/x/a".toList { FetchAll := true } with
    | none => rfl
    | some st =>
      have := importStep_unique _ _ _ _ 0 _ h0 n st hs
      subst this
      simp only [importDeps]
      rw [hB n]

/-! ## The package records only grow -/

theorem recordPackage_keys (fuel : Nat) (s : State) (pkg rootPkg : Str) (info : Package)
    (shared : Option (Str × Package)) (ns : List Str) (isNew isLocal fa : Bool) (st : Step)
    (h : recordPackage fuel s pkg rootPkg info shared ns isNew isLocal fa = some st) (k : Str)
    (hk : s.manifest.Packages.contains k = true) :
    st.state.manifest.Packages.contains k = true := by
  unfold recordPackage at h
  simp only at h
  split at h
  · simp only [Option.some.injEq] at h
    subst h
    simpa [Step.state] using hk
  · split at h
    · simp at h
    · simp only [Option.some.injEq] at h
      subst h
      simpa [Step.state] using hk
    · simp only [Option.some.injEq] at h
      subst h
      simp only [Step.state]
      have hk' : (ctxCancelled s).2.manifest.Packages.contains k = true := by simpa using hk
      split
      · apply GoMap.contains_set_of_contains
        split
        · exact GoMap.contains_set_of_contains _ _ _ _ hk'
        · exact hk'
      · apply GoMap.contains_set_of_contains
        split
        · exact GoMap.contains_set_of_contains _ _ _ _ hk'
        · exact hk'

theorem reconcileUpdate_keys (fuel : Nat) (s : State) (pkg rootPkg : Str)
    (r : DoImportResult) (info : Package) (opts : ImportOptions) (ns : List Str)
    (isLocal : Bool) (st : Step)
    (h : reconcileUpdate fuel s pkg rootPkg r info opts ns isLocal = some st) (k : Str)
    (hk : s.manifest.Packages.contains k = true) :
    st.state.manifest.Packages.contains k = true := by
  unfold reconcileUpdate at h
  split at h
  · simp only [Option.some.injEq] at h
    subst h
    exact hk
  · simp only at h
    split at h
    · simp only [Option.some.injEq] at h
      subst h
      exact hk
    · refine recordPackage_keys _ _ _ _ _ _ _ _ _ _ _ h k ?_
      simp only [noteNewPkg_manifest]
      exact GoMap.contains_set_of_contains _ _ _ _ hk

theorem fetchAndRecord_keys (w : World) (fuel : Nat) (s : State)
    (pkg rootPkg version : Str) (opts : ImportOptions) (existing : Option Package)
    (ns : List Str) (performImport isLocal vr : Bool) (st : Step)
    (h : fetchAndRecord w fuel s pkg rootPkg version opts existing ns performImport isLocal vr
      = some st) (k : Str) (hk : s.manifest.Packages.contains k = true) :
    st.state.manifest.Packages.contains k = true := by
  unfold fetchAndRecord at h
  simp only at h
  cases performImport with
  | false =>
    simp only [Bool.false_eq_true, if_false] at h
    cases existing with
    | none => exact recordPackage_keys _ _ _ _ _ _ _ _ _ _ _ h k (by simpa using hk)
    | some info => exact recordPackage_keys _ _ _ _ _ _ _ _ _ _ _ h k (by simpa using hk)
  | true =>
    simp only [if_true] at h
    cases hd : (doImport w s rootPkg version isLocal true vr).1.pkgErr with
    | some e =>
      rw [hd] at h
      simp only [Option.some.injEq] at h
      subst h
      simpa [Step.state] using hk
    | none =>
      rw [hd] at h
      simp only at h
      cases existing with
      | none => exact recordPackage_keys _ _ _ _ _ _ _ _ _ _ _ h k (by simpa using hk)
      | some info => exact reconcileUpdate_keys _ _ _ _ _ _ _ _ _ _ h k (by simpa using hk)

/-- A step never drops a package record. -/
theorem importStep_keys (w : World) (fuel : Nat) (s : State) (pkg : Str)
    (opts : ImportOptions) (st : Step) (h : importStep w fuel s pkg opts = some st) (k : Str)
    (hk : s.manifest.Packages.contains k = true) :
    st.state.manifest.Packages.contains k = true := by
  unfold importStep at h
  simp only at h
  split at h
  · split at h <;>
      (simp only [Option.some.injEq] at h; subst h; simpa [Step.state] using hk)
  · split at h
    · simp only [Option.some.injEq] at h; subst h; exact hk
    · split at h
      · exact fetchAndRecord_keys _ _ _ _ _ _ _ _ _ _ _ _ _ h k hk
      · split at h
        · simp only [Option.some.injEq] at h; subst h; exact hk
        · split at h
          · simp only [Option.some.injEq] at h; subst h; exact hk
          · split at h
            · simp only [Option.some.injEq] at h; subst h; exact hk
            · exact fetchAndRecord_keys _ _ _ _ _ _ _ _ _ _ _ _ _ h k (by simpa using hk)

/-! ## Fetching without update flags -/

/-- A successful `doImport` reports the root the oracle resolves the path to. -/
theorem doImport_root (w : World) (s : State) (pkg version : Str) (isLocal fd vr : Bool)
    (hok : (doImport w s pkg version isLocal fd vr).1.pkgErr = none) :
    (doImport w s pkg version isLocal fd vr).1.root = w.fetchRoot pkg isLocal := by
  unfold doImport at hok ⊢
  unfold World.fetchRoot
  cases isLocal with
  | true =>
    cases h1 : w.localStat pkg with
    | false => simp [h1] at hok
    | true =>
      cases h2 : w.vcsFromDir pkg with
      | none => simp [h1, h2] at hok
      | some cr =>
        obtain ⟨cmd, rootPkg⟩ := cr
        by_cases h3 : cmd = "git".toList
        · simp only [h1, h2, h3] at hok ⊢
          simp only [if_true, Bool.not_true, ne_eq, not_true_eq_false, if_false,
            Bool.false_eq_true] at hok ⊢
          split
          · rename_i h4
            rw [h4] at hok
            simp at hok
          · simp [finishImport]
        · have h3' : ¬cmd = ['g', 'i', 't'] := h3
          simp [h1, h2, h3'] at hok
  | false =>
    cases h1 : w.repoRootForImportPath pkg with
    | none => simp [h1] at hok
    | some rr =>
      by_cases h3 : rr.vcsCmd = "git".toList
      · simp only [h1, h3] at hok ⊢
        simp only [Bool.false_eq_true, if_false, ne_eq, not_true_eq_false] at hok ⊢
        split
        · rename_i h4
          rw [h4] at hok
          simp at hok
        · simp [finishImport]
      · have h3' : ¬rr.vcsCmd = ['g', 'i', 't'] := h3
        simp [h1, h3'] at hok

/-- One step of `importPackage` without the update flag: either the fetch
provider is not called, or the package had no record, the provider is called
once for its root, a return is an error, and when the step goes on the root
the provider resolved is recorded. -/
theorem importStep_noUpdate (w : World) (fuel : Nat) (s : State) (pkg : Str)
    (opts : ImportOptions) (st : Step) (hup : opts.Update = false)
    (h : importStep w fuel s pkg opts = some st) :
    st.state.trace = s.trace ∨
    ∃ version isLocal vr,
      s.manifest.PkgExists (getPkgRoot pkg) = none ∧
      st.state.trace = s.trace ++ [Event.fetch (getPkgRoot pkg) version isLocal vr] ∧
      (∀ r, st = .ret r → r.err ≠ none) ∧
      (∀ s1 deps, st = .recurse s1 deps →
        s1.manifest.Packages.contains (w.fetchRoot (getPkgRoot pkg) isLocal) = true) := by
  unfold importStep at h
  simp only at h
  split at h
  · left
    split at h <;> (simp only [Option.some.injEq] at h; subst h; simp [Step.state])
  · split at h
    · left
      simp only [Option.some.injEq] at h; subst h; rfl
    · rename_i version vr hres
      split at h
      · rename_i hpe
        right
        have hs := fetchAndRecord_spec _ _ _ _ _ _ _ _ _ _ _ _ _ h
        obtain ⟨htr, hrec⟩ := hs.2.1 rfl
        refine ⟨version, _, vr, hpe, htr, hs.2.2, ?_⟩
        intro s1 deps hst
        obtain ⟨hok, ⟨info1, h1, -⟩, -⟩ := hrec s1 deps hst
        rw [doImport_root _ _ _ _ _ _ _ hok] at h1
        simp [GoMap.contains, h1]
      · left
        split at h
        · simp only [Option.some.injEq] at h; subst h; rfl
        · split at h
          · simp only [Option.some.injEq] at h; subst h; rfl
          · split at h
            · simp only [Option.some.injEq] at h; subst h; rfl
            · have hs := fetchAndRecord_spec _ _ _ _ _ _ _ _ _ _ _ _ _ h
              have := hs.1 (by simp [hup])
              rw [this, removeExisting_trace]
              simp [hup]
theorem fetchedRoots_append (w : World) (t u : List Event) :
    fetchedRoots w (t ++ u) = fetchedRoots w t ++ fetchedRoots w u := by
  induction t with
  | nil => rfl
  | cons e rest ih =>
    cases e with
    | fetch p v l r => simp [fetchedRoots, ih]
    | remove root => simp [fetchedRoots, ih]

theorem removedRoots_append (t u : List Event) :
    removedRoots (t ++ u) = removedRoots t ++ removedRoots u := by
  induction t with
  | nil => rfl
  | cons e rest ih =>
    cases e with
    | fetch p v l r => simp [removedRoots, ih]
    | remove root => simp [removedRoots, ih]

theorem fetchRoot_segPrefix (w : World) (hw : w.RootsArePrefixes) (pkg : Str) (isLocal : Bool) :
    SegPrefix (w.fetchRoot pkg isLocal) pkg := by
  unfold World.fetchRoot
  cases isLocal with
  | true =>
    cases h : w.vcsFromDir pkg with
    | none => simp [SegPrefix]
    | some cr =>
      obtain ⟨cmd, root⟩ := cr
      simpa using hw.2 pkg cmd root h
  | false =>
    cases h : w.repoRootForImportPath pkg with
    | none => simp [SegPrefix]
    | some rr => simpa using hw.1 pkg rr h

/-- A path with a recorded segment prefix is found by `PkgExists`. -/
theorem pkgExists_of_recorded (m : Manifest) (key path : Str)
    (hk : m.Packages.contains key = true) (hseg : SegPrefix key path) :
    m.PkgExists path ≠ none := by
  have := (prefixLookup_spec m.Packages path).1.mpr ⟨key, hk, hseg⟩
  unfold Manifest.PkgExists
  cases hl : prefixLookup m.Packages path with
  | none => rw [hl] at this; simp at this
  | some kv => simp

/-- The relation the recursion keeps without update flags: from a state in
which every root was fetched once it leads to such a state, the records of the
fetched roots being there as long as no error is returned. -/
theorem importPackage_fetchedOnce (w : World) (hw : w.RootsArePrefixes) (fuel : Nat)
    (s : State) (pkg : Str) (opts : ImportOptions) (r : Result)
    (hup : opts.Update = false) (hud : opts.UpdateDeps = false)
    (h : importPackage w fuel s pkg opts = some r) (hinv : FetchedOnce w s) :
    (fetchedRoots w r.state.trace).Nodup ∧ removedRoots r.state.trace = [] ∧
      (r.err = none → FetchedOnce w r.state) := by
  have key : ∀ (fuel : Nat) (s : State) (pkg : Str) (opts : ImportOptions) (st : Step),
      opts.Update = false → importStep w fuel s pkg opts = some st → FetchedOnce w s →
      (fetchedRoots w st.state.trace).Nodup ∧ removedRoots st.state.trace = [] ∧
        ((∀ e res, st = .ret res → res.err ≠ some e) → FetchedOnce w st.state) := by
    intro fuel s pkg opts st hup hs hinv
    have hkeys := importStep_keys w fuel s pkg opts st hs
    rcases importStep_noUpdate w fuel s pkg opts st hup hs with htr | ⟨v, l, vr, hpe, htr, hret, hrec⟩
    · rw [htr]
      refine ⟨hinv.1, hinv.2.1, fun _ => ⟨?_, ?_, ?_⟩⟩
      · rw [htr]; exact hinv.1
      · rw [htr]; exact hinv.2.1
      · rw [htr]
        intro root hr
        exact hkeys root (hinv.2.2 root hr)
    · have hnew : w.fetchRoot (getPkgRoot pkg) l ∉ fetchedRoots w s.trace := by
        intro hmem
        exact pkgExists_of_recorded s.manifest _ _ (hinv.2.2 _ hmem)
          (fetchRoot_segPrefix w hw _ _) hpe
      have hnd : (fetchedRoots w st.state.trace).Nodup := by
        rw [htr, fetchedRoots_append]
        simp only [fetchedRoots]
        rw [List.nodup_append]
        refine ⟨hinv.1, by simp, ?_⟩
        intro a ha hb
        simp only [List.mem_singleton] at hb
        subst hb
        exact hnew ha
      have hrm : removedRoots st.state.trace = [] := by
        rw [htr, removedRoots_append, hinv.2.1]
        rfl
      refine ⟨hnd, hrm, fun hne => ⟨hnd, hrm, ?_⟩⟩
      cases st with
      | ret res =>
        exfalso
        cases he : res.err with
        | none => exact hret res rfl he
        | some e => exact hne e res rfl he
      | recurse s1 deps =>
        intro root hr
        rw [htr, fetchedRoots_append] at hr
        simp only [fetchedRoots, List.mem_append, List.mem_singleton] at hr
        rcases hr with hr | hr
        · exact hkeys root (hinv.2.2 root hr)
        · subst hr
          exact hrec s1 deps rfl
  have main := importPackage_induct w
    (fun s r => FetchedOnce w s →
      (fetchedRoots w r.state.trace).Nodup ∧ removedRoots r.state.trace = [] ∧
        (r.err = none → FetchedOnce w r.state))
    (fun o => o.Update = false ∧ o.UpdateDeps = false)
    (fun s hi => ⟨hi.1, hi.2.1, fun _ => hi⟩)
    (fun s s1 r h1 h2 hi => h2 ((h1 hi).2.2 rfl))
    (fun o subs hq => ⟨hq.2, hq.2⟩)
    (fun fuel s pkg opts res hq hs hi => by
      obtain ⟨a, b, c⟩ := key fuel s pkg opts _ hq.1 hs hi
      refine ⟨a, b, fun he => c ?_⟩
      intro e res' hres' he'
      simp only [Step.ret.injEq] at hres'
      subst hres'
      rw [he] at he'
      simp at he')
    (fun fuel s pkg opts s1 deps hq hs hi => by
      obtain ⟨a, b, c⟩ := key fuel s pkg opts _ hq.1 hs hi
      exact ⟨a, b, fun _ => c (fun e res hres => by simp at hres)⟩)
  exact main fuel s pkg opts r ⟨hup, hud⟩ h hinv
theorem parseGetArg_packages (m : Manifest) (arg : Str) (u ud c : Bool)
    (req : Str × ImportOptions × Manifest) (h : parseGetArg m arg u ud c = some req) :
    req.2.2.Packages = m.Packages ∧ req.2.1.Update = u ∧ req.2.1.UpdateDeps = ud := by
  unfold parseGetArg at h
  simp only at h
  rw [Option.ite_none_left_eq_some] at h
  have h2 := h.2
  simp only [Option.some.injEq] at h2
  subst h2
  refine ⟨?_, rfl, rfl⟩
  simp only
  split <;> (try split) <;> rfl

theorem Get_fetchedOnce (w : World) (hw : w.RootsArePrefixes) (fuel : Nat) (c : Bool)
    (pkgs : List Str) :
    ∀ (s : State) (res : List Str × Result), FetchedOnce w s →
      Get w fuel false false c s pkgs = some res →
      (fetchedRoots w res.2.state.trace).Nodup ∧ removedRoots res.2.state.trace = [] := by
  induction pkgs with
  | nil =>
    intro s res hinv h
    simp only [Get, Option.some.injEq] at h
    subst h
    exact ⟨hinv.1, hinv.2.1⟩
  | cons arg rest ih =>
    intro s res hinv h
    simp only [Get] at h
    cases hreq : parseGetArg s.manifest arg false false c with
    | none =>
      rw [hreq] at h
      simp only [Option.some.injEq] at h
      subst h
      exact ⟨hinv.1, hinv.2.1⟩
    | some req =>
      rw [hreq] at h
      simp only at h
      obtain ⟨hp, hu, hud⟩ := parseGetArg_packages s.manifest arg false false c req hreq
      have hinv' : FetchedOnce w { s with manifest := req.2.2 } := by
        refine ⟨hinv.1, hinv.2.1, ?_⟩
        intro root hr
        simp only [hp]
        exact hinv.2.2 root hr
      cases hi : importPackage w fuel { s with manifest := req.2.2 } req.1 req.2.1 with
      | none => rw [hi] at h; simp at h
      | some r =>
        rw [hi] at h
        simp only at h
        obtain ⟨a, b, cc⟩ := importPackage_fetchedOnce w hw fuel _ _ _ r hu hud hi hinv'
        cases he : r.err with
        | some e =>
          rw [he] at h
          simp only [Option.some.injEq] at h
          subst h
          exact ⟨a, b⟩
        | none =>
          rw [he] at h
          exact ih r.state res (cc he) h

theorem Fetch_fetchedOnce (w : World) (hw : w.RootsArePrefixes) (fuel : Nat) (s : State)
    (pkg : Str) (r : Result) (hinv : FetchedOnce w s) (h : Fetch w fuel s pkg false = some r) :
    (fetchedRoots w r.state.trace).Nodup ∧ removedRoots r.state.trace = [] := by
  unfold Fetch at h
  simp only at h
  have hinv1 : FetchedOnce w (getPkgImportsFromPopularVendorTools w s "./".toList).2 := by
    rw [vendorTools_frame]
    exact hinv
  split at h
  · simp at h
  · simp only [Option.some.injEq] at h
    subst h
    exact ⟨hinv1.1, hinv1.2.1⟩
  · rename_i depsMap _
    have hrel := importDeps_induct
      (fun s r => FetchedOnce w s →
        (fetchedRoots w r.state.trace).Nodup ∧ removedRoots r.state.trace = [] ∧
          (r.err = none → FetchedOnce w r.state))
      (fun s hi => ⟨hi.1, hi.2.1, fun _ => hi⟩)
      (fun s s1 r h1 h2 hi => h2 ((h1 hi).2.2 rfl))
      (importPackage w fuel) false
      (fun s p subs r hr hi => importPackage_fetchedOnce w hw fuel s p _ r rfl rfl hr hi)
      depsMap
    split at h
    · simp at h
    · rename_i r1 hd
      have := hrel _ _ hd hinv1
      split at h
      · simp only [Option.some.injEq] at h
        subst h
        exact ⟨this.1, this.2.1⟩
      · simp only [Option.some.injEq] at h
        subst h
        exact ⟨this.1, this.2.1⟩

/-! ## C7: how often a root is fetched in one run -/

/-- C7 as stated fails with the update flags. In `subpackageWorld`, on an empty
manifest with empty run caches: `Get` of `github.com/y/b` and `github.com/x/a`
with both flags fetches `b`, then `a`, and, `a` importing `b`, deletes the
vendor copy of `b` and fetches `b` again although `b` is in the processed
cache; and `Get` of `github.com/x/a` and `github.com/x/a/sub` with the update
flag deletes and fetches `a` a second time. -/
theorem C7_counterexample_update :
    (Get subpackageWorld 4 true true false {}
        ["github.com/y/b".toList, "github.com/x/a".toList]).map
      (fun res => (res.2.err, res.2.state.trace)) =
      some (none,
        [Event.fetch "github.com/y/b".toList [] false false,
         Event.fetch "github.com/x/a".toList [] false false,
         Event.remove "github.com/y/b".toList,
         Event.fetch "github.com/y/b".toList [] false false]) ∧
    (Get subpackageWorld 4 true false false {}
        ["github.com/x/a".toList, "github.com/x/a/sub".toList]).map
      (fun res => (res.2.err, res.2.state.trace)) =
      some (none,
        [Event.fetch "github.com/x/a".toList [] false false,
         Event.fetch "github.com/y/b".toList [] false false,
         Event.remove "github.com/x/a".toList,
         Event.fetch "github.com/x/a".toList [] false false]) := by
  constructor <;> decide

theorem exampleWorld_rootsArePrefixes (repos : GoMap Repo) :
    (exampleWorld repos).RootsArePrefixes := by
  constructor
  · intro p rr h
    simp only [exampleWorld, Option.some.injEq] at h
    subst h
    exact Or.inl rfl
  · intro p cmd root h
    simp [exampleWorld] at h

/-- C7, amended. Let the version-control oracle name as root of a path the path
or a segment prefix of it. In a run started with no call made yet, with
neither update flag set, `Get` and `Fetch` invoke the fetch provider at most
once for any root and delete no vendor copy. With any flags, a call for a root
that is in the processed cache, with no sub-package pending, fetches nothing
and deletes nothing. (With an update flag and a pending sub-package a cached
root is deleted and fetched again.) -/
theorem C7_fetch_once_without_update (w : World) (hw : w.RootsArePrefixes) (fuel : Nat)
    (s : State) (hs : s.trace = []) :
    (∀ pkgs constraint res, Get w fuel false false constraint s pkgs = some res →
      (fetchedRoots w res.2.state.trace).Nodup ∧ removedRoots res.2.state.trace = []) ∧
    (∀ pkg r, Fetch w fuel s pkg false = some r →
      (fetchedRoots w r.state.trace).Nodup ∧ removedRoots r.state.trace = []) ∧
    (∀ (s' : State) pkg opts existing root r,
      s'.manifest.PkgExists (getPkgRoot pkg) = some (existing, root) →
      s'.cachedPkgs.contains root = true →
      newSubpackages s'.manifest existing root pkg opts.Subpackages = [] →
      importPackage w fuel s' pkg opts = some r →
      r.state.trace = s'.trace ∧ r.state.fs = s'.fs) := by
  have hinv : FetchedOnce w s := by
    unfold FetchedOnce
    rw [hs]
    simp [fetchedRoots, removedRoots]
  refine ⟨fun pkgs c res h => Get_fetchedOnce w hw fuel c pkgs s res hinv h,
    fun pkg r h => Fetch_fetchedOnce w hw fuel s pkg r hinv h, ?_⟩
  intro s' pkg opts existing root r hpe hc hnew h
  cases fuel with
  | zero => simp [importPackage] at h
  | succ n =>
    simp only [importPackage, importStep] at h
    cases hex : s'.manifest.IsExcludedPkg (getPkgRoot pkg) with
    | some e =>
      rw [hex] at h
      by_cases hce : s'.cachedExcluded.contains e = true
      · simp only [hce, if_true, Option.some.injEq] at h
        subst h
        exact ⟨rfl, rfl⟩
      · simp only [hce, Bool.false_eq_true, if_false, Option.some.injEq] at h
        subst h
        exact ⟨rfl, rfl⟩
    | none =>
      rw [hex] at h
      simp only at h
      cases hres : resolveVersion s' (getPkgRoot pkg) opts.Version with
      | error e =>
        rw [hres] at h
        simp only [Option.some.injEq] at h
        subst h
        exact ⟨rfl, rfl⟩
      | ok vv =>
        rw [hres] at h
        simp only [hpe, hnew, hc, List.length_nil, ne_eq, not_true_eq_false, not_false_eq_true,
          and_self, if_true, Option.some.injEq] at h
        subst h
        exact ⟨rfl, rfl⟩

/-- C7 at a concrete input: without update flags, `Get` of `github.com/x/a`
and then of its sub-directory fetches `a` and `b` once each and deletes
nothing. -/
theorem C7_fetch_once_without_update_witness :
    ∃ res,
      Get subpackageWorld 4 false false false {}
        ["github.com/x/a".toList, "github.com/x/a/sub".toList] = some res ∧
      res.2.state.trace = [Event.fetch "github.com/x/a".toList [] false false,
        Event.fetch "github.com/y/b".toList [] false false] ∧
      (fetchedRoots subpackageWorld res.2.state.trace).Nodup ∧
      removedRoots res.2.state.trace = [] := by
  refine ⟨_, rfl, by decide, ?_⟩
  exact (C7_fetch_once_without_update subpackageWorld (exampleWorld_rootsArePrefixes _) 4 {}
    rfl).1 ["github.com/x/a".toList, "github.com/x/a/sub".toList] false _ rfl

/-! ## The versions of the records -/

/-- The record `PkgExists` finds is the one registered under the root it names. -/
theorem pkgExists_get (m : Manifest) (p root : Str) (existing : Package)
    (h : m.PkgExists p = some (existing, root)) : m.Packages.get? root = some existing := by
  unfold Manifest.PkgExists at h
  cases hl : prefixLookup m.Packages p with
  | none => rw [hl] at h; simp at h
  | some kv =>
    obtain ⟨k, v⟩ := kv
    rw [hl] at h
    simp only [Option.map_some', Option.some.injEq, Prod.mk.injEq] at h
    obtain ⟨h1, h2⟩ := h
    subst h1 h2
    exact ((prefixLookup_spec m.Packages p).2 k v hl).1

/-- Recording a package keeps the version of every record, when the record
written carries the version the root had (if it had one) and so does the
record that shares its sub-packages. -/
theorem recordPackage_versions (fuel : Nat) (s : State) (pkg rootPkg : Str) (info : Package)
    (shared : Option (Str × Package)) (ns : List Str) (isNew isLocal fa : Bool) (st : Step)
    (h : recordPackage fuel s pkg rootPkg info shared ns isNew isLocal fa = some st)
    (hroot : ∀ i0, s.manifest.Packages.get? rootPkg = some i0 → info.Version = i0.Version)
    (hshared : ∀ key old i0, shared = some (key, old) →
      s.manifest.Packages.get? key = some i0 → old.Version = i0.Version)
    (k : Str) (i0 : Package) (hk : s.manifest.Packages.get? k = some i0) :
    ∃ i1, st.state.manifest.Packages.get? k = some i1 ∧ i1.Version = i0.Version := by
  unfold recordPackage at h
  simp only at h
  split at h
  · simp only [Option.some.injEq] at h
    subst h
    exact ⟨i0, by simpa [Step.state] using hk, rfl⟩
  · split at h
    · simp at h
    · simp only [Option.some.injEq] at h
      subst h
      exact ⟨i0, by simpa [Step.state] using hk, rfl⟩
    · simp only [Option.some.injEq] at h
      subst h
      simp only [Step.state]
      have hk' : (ctxCancelled s).2.manifest.Packages.get? k = some i0 := by simpa using hk
      split <;>
      · simp only
        by_cases hkr : rootPkg = k
        · subst hkr
          rw [GoMap.get?_set_self]
          exact ⟨_, rfl, hroot i0 hk⟩
        · rw [GoMap.get?_set_ne _ _ _ _ hkr]
          cases shared with
          | none => exact ⟨i0, hk', rfl⟩
          | some ko =>
            obtain ⟨key, old⟩ := ko
            simp only
            by_cases hkk : key = k
            · subst hkk
              rw [GoMap.get?_set_self]
              exact ⟨_, rfl, hshared key old i0 rfl hk⟩
            · rw [GoMap.get?_set_ne _ _ _ _ hkk]
              exact ⟨i0, hk', rfl⟩

/-- The fetch and recording of a new package keeps the version of every
record, the fetched root having no record yet. -/
theorem fetchAndRecord_versions_new (w : World) (fuel : Nat) (s : State)
    (pkg rootPkg version : Str) (opts : ImportOptions) (ns : List Str) (isLocal vr : Bool)
    (st : Step)
    (h : fetchAndRecord w fuel s pkg rootPkg version opts none ns true isLocal vr = some st)
    (hfresh : (doImport w s rootPkg version isLocal true vr).1.pkgErr = none →
      s.manifest.Packages.get? (doImport w s rootPkg version isLocal true vr).1.root = none)
    (k : Str) (i0 : Package) (hk : s.manifest.Packages.get? k = some i0) :
    ∃ i1, st.state.manifest.Packages.get? k = some i1 ∧ i1.Version = i0.Version := by
  unfold fetchAndRecord at h
  simp only [if_true] at h
  cases hd : (doImport w s rootPkg version isLocal true vr).1.pkgErr with
  | some e =>
    rw [hd] at h
    simp only [Option.some.injEq] at h
    subst h
    exact ⟨i0, by simpa [Step.state] using hk, rfl⟩
  | none =>
    rw [hd] at h
    simp only at h
    refine recordPackage_versions _ _ _ _ _ _ _ _ _ _ _ h ?_ ?_ k i0 (by simpa using hk)
    · intro j hj
      have := hfresh hd
      simp only [noteNewPkg_manifest, noteCancelled_manifest, doImport_manifest] at hj
      rw [this] at hj
      simp at hj
    · intro key old j hko
      simp at hko

/-- The recording of a package the manifest has, without a fetch, keeps the
version of every record. -/
theorem fetchAndRecord_versions_kept (w : World) (fuel : Nat) (s : State)
    (pkg rootPkg version : Str) (opts : ImportOptions) (info : Package) (ns : List Str)
    (isLocal vr : Bool) (st : Step)
    (h : fetchAndRecord w fuel s pkg rootPkg version opts (some info) ns false isLocal vr
      = some st)
    (hinfo : s.manifest.Packages.get? rootPkg = some info)
    (k : Str) (i0 : Package) (hk : s.manifest.Packages.get? k = some i0) :
    ∃ i1, st.state.manifest.Packages.get? k = some i1 ∧ i1.Version = i0.Version := by
  unfold fetchAndRecord at h
  simp only [Bool.false_eq_true, if_false] at h
  refine recordPackage_versions _ _ _ _ _ _ _ _ _ _ _ h ?_ ?_ k i0 (by simpa using hk)
  · intro j hj
    simp only [noteNewPkg_manifest] at hj
    rw [hinfo] at hj
    simp only [Option.some.injEq] at hj
    rw [hj]
  · intro key old j hko hj
    simp only [Option.some.injEq, Prod.mk.injEq] at hko
    obtain ⟨h1, h2⟩ := hko
    subst h1 h2
    simp only [noteNewPkg_manifest] at hj
    rw [hinfo] at hj
    simp only [Option.some.injEq] at hj
    rw [hj]

/-- A step of `importPackage` without the update flag keeps the version of
every record of the manifest (the oracle naming as root of a path the path or
a segment prefix of it). -/
theorem importStep_versions (w : World) (hw : w.RootsArePrefixes) (fuel : Nat) (s : State)
    (pkg : Str) (opts : ImportOptions) (st : Step) (hup : opts.Update = false)
    (h : importStep w fuel s pkg opts = some st)
    (k : Str) (i0 : Package) (hk : s.manifest.Packages.get? k = some i0) :
    ∃ i1, st.state.manifest.Packages.get? k = some i1 ∧ i1.Version = i0.Version := by
  unfold importStep at h
  simp only at h
  split at h
  · split at h <;>
      (simp only [Option.some.injEq] at h; subst h; exact ⟨i0, by simpa [Step.state] using hk, rfl⟩)
  · split at h
    · simp only [Option.some.injEq] at h; subst h; exact ⟨i0, hk, rfl⟩
    · rename_i version vr hres
      split at h
      · rename_i hpe
        refine fetchAndRecord_versions_new _ _ _ _ _ _ _ _ _ _ _ h ?_ k i0 hk
        intro hok
        rw [doImport_root _ _ _ _ _ _ _ hok]
        cases hg : s.manifest.Packages.get? (w.fetchRoot (getPkgRoot pkg)
            (opts.Local || (s.manifest.IsLocalPkg (getPkgRoot pkg)).isSome)) with
        | none => rfl
        | some j =>
          exfalso
          have hc : s.manifest.Packages.contains (w.fetchRoot (getPkgRoot pkg)
              (opts.Local || (s.manifest.IsLocalPkg (getPkgRoot pkg)).isSome)) = true := by
            simp [GoMap.contains, hg]
          exact pkgExists_of_recorded s.manifest _ _ hc (fetchRoot_segPrefix w hw _ _) hpe
      · rename_i existing root hpe
        split at h
        · simp only [Option.some.injEq] at h; subst h; exact ⟨i0, hk, rfl⟩
        · split at h
          · simp only [Option.some.injEq] at h; subst h; exact ⟨i0, hk, rfl⟩
          · split at h
            · simp only [Option.some.injEq] at h; subst h; exact ⟨i0, hk, rfl⟩
            · have hrm : removeExisting opts.Update s root = s := by
                unfold removeExisting; simp [hup]
              rw [hrm] at h
              simp only [hup, Bool.false_and] at h
              exact fetchAndRecord_versions_kept _ _ _ _ _ _ _ _ _ _ _ _ h
                (pkgExists_get _ _ _ _ hpe) k i0 hk

/-- A call of `importPackage` with neither update flag keeps the version of
every record of the manifest. -/
theorem importPackage_versions (w : World) (hw : w.RootsArePrefixes) (fuel : Nat) (s : State)
    (pkg : Str) (opts : ImportOptions) (r : Result)
    (hup : opts.Update = false) (hud : opts.UpdateDeps = false)
    (h : importPackage w fuel s pkg opts = some r)
    (k : Str) (i0 : Package) (hk : s.manifest.Packages.get? k = some i0) :
    ∃ i1, r.state.manifest.Packages.get? k = some i1 ∧ i1.Version = i0.Version :=
  importPackage_induct w
    (fun s r => ∀ k i0, s.manifest.Packages.get? k = some i0 →
      ∃ i1, r.state.manifest.Packages.get? k = some i1 ∧ i1.Version = i0.Version)
    (fun o => o.Update = false ∧ o.UpdateDeps = false)
    (fun s k i0 hk => ⟨i0, hk, rfl⟩)
    (fun s s1 r h1 h2 k i0 hk => by
      obtain ⟨i1, a, b⟩ := h1 k i0 hk
      obtain ⟨i2, c, d⟩ := h2 k i1 a
      exact ⟨i2, c, d.trans b⟩)
    (fun o subs hq => ⟨hq.2, hq.2⟩)
    (fun fuel s pkg opts r hq hs k i0 hk => importStep_versions w hw fuel s pkg opts _ hq.1 hs k i0 hk)
    (fun fuel s pkg opts s1 deps hq hs k i0 hk =>
      importStep_versions w hw fuel s pkg opts _ hq.1 hs k i0 hk)
    fuel s pkg opts r ⟨hup, hud⟩ h k i0 hk

/-- What a request for a new package resolves to: the step fetches the root at
the version the version decision gives, with its mandatory mark, and records
that version for the fetched root. -/
theorem importStep_resolves (w : World) (fuel : Nat) (s : State) (pkg : Str)
    (opts : ImportOptions) (st : Step) (version : Str) (vr : Bool)
    (hex : s.manifest.IsExcludedPkg (getPkgRoot pkg) = none)
    (hnew : s.manifest.PkgExists (getPkgRoot pkg) = none)
    (hres : resolveVersion s (getPkgRoot pkg) opts.Version = .ok (version, vr))
    (hv : version ≠ [])
    (hstep : importStep w fuel s pkg opts = some st) :
    ResolvesTo w s pkg opts st version vr := by
  unfold importStep at hstep
  simp only at hstep
  rw [hex, hres] at hstep
  simp only at hstep
  rw [hnew] at hstep
  simp only at hstep
  have hs := fetchAndRecord_spec _ _ _ _ _ _ _ _ _ _ _ _ _ hstep
  obtain ⟨htr, hrec⟩ := hs.2.1 rfl
  refine ⟨htr, hs.2.2, ?_⟩
  intro s' deps hst
  obtain ⟨hok, ⟨info1, h1, h2⟩, h3⟩ := hrec s' deps hst
  rw [doImport_root _ _ _ _ _ _ _ hok] at h1 h3
  exact ⟨⟨info1, h1, by rw [h2, doImport_version _ _ _ _ _ _ _ hv hok]⟩, h3⟩

/-! ## The scan of a package returns -/

theorem Dir.child_allImports (d : Dir) (n : Str) (c : Dir) (h : d.child n = some c) :
    ∀ x ∈ c.allImports, x ∈ d.allImports := by
  induction d with
  | nil => simp [Dir.child] at h
  | file k src rest ih =>
    intro x hx
    simp only [Dir.child] at h
    simp only [Dir.allImports, List.mem_append]
    exact Or.inr (ih h x hx)
  | sub k content rest _ ih =>
    intro x hx
    simp only [Dir.child] at h
    simp only [Dir.allImports, List.mem_append]
    split at h
    · simp only [Option.some.injEq] at h
      subst h
      exact Or.inl hx
    · exact Or.inr (ih h x hx)

theorem Dir.cd_allImports (chain : List Str) :
    ∀ (d c : Dir), d.cd chain = some c → ∀ x ∈ c.allImports, x ∈ d.allImports := by
  induction chain with
  | nil =>
    intro d c h x hx
    simp only [Dir.cd, Option.some.injEq] at h
    subst h
    exact hx
  | cons n ns ih =>
    intro d c h x hx
    simp only [Dir.cd] at h
    cases hc : d.child n with
    | none => rw [hc] at h; simp at h
    | some c1 =>
      rw [hc] at h
      exact Dir.child_allImports d n c1 hc x (ih c1 c h x hx)

theorem readDir_allImports (fs : Dir) (path : Str) (d : Dir) (h : readDir fs path = some d) :
    ∀ x ∈ d.allImports, x ∈ fs.allImports := by
  unfold readDir at h
  cases hr : resolvePath fs path with
  | none => rw [hr] at h; simp at h
  | some chain =>
    rw [hr] at h
    exact Dir.cd_allImports chain fs d h

theorem walkImport_locals_sub (pkg : Str) (acc : List Str × GoMap Unit) (pv : Str) :
    ∀ l ∈ (walkImport pkg acc pv).1, l ∈ acc.1 ∨ l = removeChar '"' pv := by
  intro l hl
  unfold walkImport at hl
  simp only at hl
  cases hc : classifyImport pkg (removeChar '"' pv) with
  | dropped => rw [hc] at hl; exact Or.inl hl
  | «local» =>
    rw [hc] at hl
    simp only [List.mem_append, List.mem_singleton] at hl
    exact hl
  | external =>
    rw [hc] at hl
    simp only at hl
    split at hl <;> exact Or.inl hl

theorem foldl_walkImport_locals_sub (pkg : Str) (imps : List Str) :
    ∀ (acc : List Str × GoMap Unit), ∀ l ∈ (imps.foldl (walkImport pkg) acc).1,
      l ∈ acc.1 ∨ l ∈ imps.map (removeChar '"') := by
  induction imps with
  | nil => intro acc l hl; exact Or.inl hl
  | cons pv rest ih =>
    intro acc l hl
    simp only [List.foldl_cons] at hl
    rcases ih _ l hl with h | h
    · rcases walkImport_locals_sub pkg acc pv l h with h | h
      · exact Or.inl h
      · exact Or.inr (by simp [h])
    · exact Or.inr (by simp only [List.map_cons, List.mem_cons]; exact Or.inr h)

theorem fileImports_some (m : Manifest) (path name : Str) (src : GoFile) (pm : Bool)
    (imps : List Str) (h : fileImports m path name src pm = .ok (some imps)) :
    imps = src.imports := by
  unfold fileImports at h
  repeat' split at h
  all_goals first
    | (simp only [Except.ok.injEq, Option.some.injEq] at h; exact h.symm)
    | simp at h

/-- The locals a walk reports are import paths declared in the tree walked. -/
theorem walkEntries_locals_sub (m : Manifest) (pkg : Str) (scanAll parseMain : Bool)
    (files : Dir) :
    ∀ (dir : Str) (importsMap : GoMap Unit) (locals : List Str) (im' : GoMap Unit),
      walkEntries m pkg scanAll parseMain dir files importsMap = .ok (locals, im') →
      ∀ l ∈ locals, l ∈ files.allImports := by
  induction files with
  | nil =>
    intro dir im locals im' h l hl
    simp only [walkEntries, Except.ok.injEq, Prod.mk.injEq] at h
    obtain ⟨h1, h2⟩ := h
    subst h1
    simp at hl
  | file name src rest ih =>
    intro dir im locals im' h l hl
    simp only [walkEntries] at h
    simp only [Dir.allImports, List.mem_append]
    cases hf : fileImports m (pathJoin dir name) name src parseMain with
    | error e => rw [hf] at h; simp at h
    | ok o =>
      rw [hf] at h
      cases o with
      | none => exact Or.inr (ih dir im locals im' h l hl)
      | some imps0 =>
        simp only at h
        cases hr : walkEntries m pkg scanAll parseMain dir rest
            (List.foldl (walkImport pkg) ([], im) imps0).2 with
        | error e => rw [hr] at h; simp at h
        | ok res =>
          obtain ⟨ls, im2⟩ := res
          rw [hr] at h
          simp only [Except.ok.injEq, Prod.mk.injEq] at h
          obtain ⟨h1, h2⟩ := h
          subst h1 h2
          rcases List.mem_append.mp hl with hl | hl
          · rcases foldl_walkImport_locals_sub pkg imps0 _ l hl with h0 | h0
            · simp at h0
            · rw [fileImports_some _ _ _ _ _ _ hf] at h0
              exact Or.inl h0
          · exact Or.inr (ih dir _ ls im2 hr l hl)
  | sub name content rest ihc ihr =>
    intro dir im locals im' h l hl
    simp only [walkEntries] at h
    simp only [Dir.allImports, List.mem_append]
    split at h
    · exact Or.inr (ihr dir im locals im' h l hl)
    · split at h
      · cases hc1 : walkEntries m pkg scanAll parseMain (pathJoin dir name) content im with
        | error e => rw [hc1] at h; simp at h
        | ok res1 =>
          obtain ⟨l1, im1⟩ := res1
          rw [hc1] at h
          simp only at h
          cases hc2 : walkEntries m pkg scanAll parseMain dir rest im1 with
          | error e => rw [hc2] at h; simp at h
          | ok res2 =>
            obtain ⟨l2, im2⟩ := res2
            rw [hc2] at h
            simp only [Except.ok.injEq, Prod.mk.injEq] at h
            obtain ⟨h1, h2⟩ := h
            subst h1 h2
            rcases List.mem_append.mp hl with hl | hl
            · exact Or.inl (ihc _ im l1 im1 hc1 l hl)
            · exact Or.inr (ihr dir im1 l2 im2 hc2 l hl)
      · exact Or.inr (ihr dir im locals im' h l hl)

theorem walkImports_locals_sub (m : Manifest) (fs : Dir) (pkg dir : Str) (scanAll : Bool)
    (importsMap : GoMap Unit) (parseMain : Bool) (locals : List Str) (im' : GoMap Unit)
    (h : walkImports m fs pkg dir scanAll importsMap parseMain = .ok (locals, im')) :
    ∀ l ∈ locals, l ∈ fs.allImports := by
  unfold walkImports at h
  cases hrd : readDir fs dir with
  | none => rw [hrd] at h; simp at h
  | some files =>
    rw [hrd] at h
    intro l hl
    exact readDir_allImports fs dir files hrd l
      (walkEntries_locals_sub m pkg scanAll parseMain files dir importsMap locals im' h l hl)

/-- One round of the walk over listed directories: the directories walked are
marked, and each directory noted for the next round is an import path of the
tree that was not marked when the round began. -/
theorem walkListed_spec (m : Manifest) (fs : Dir) (pkg : Str) (pm : Bool) (dirs : List Str) :
    ∀ (W im : GoMap Unit) (N : List Str) (W' im' : GoMap Unit) (N' : List Str),
      walkListed m fs pkg pm dirs (W, im, N) = .ok (W', im', N') →
      (∀ x, W'.contains x = true ↔ (W.contains x = true ∨ x ∈ dirs)) ∧
      (∀ x ∈ N', x ∈ N ∨ (x ∈ fs.allImports ∧ W.contains x = false)) := by
  induction dirs with
  | nil =>
    intro W im N W' im' N' h
    simp only [walkListed, Except.ok.injEq, Prod.mk.injEq] at h
    obtain ⟨h1, h2, h3⟩ := h
    subst h1 h2 h3
    exact ⟨fun x => by simp, fun x hx => Or.inl hx⟩
  | cons d rest ih =>
    intro W im N W' im' N' h
    simp only [walkListed] at h
    cases hw : walkImports m fs pkg (m.VendorPath ++ '/' :: d) false im pm with
    | error e => rw [hw] at h; simp at h
    | ok res =>
      obtain ⟨locals, im1⟩ := res
      rw [hw] at h
      simp only at h
      obtain ⟨a, b⟩ := ih _ _ _ _ _ _ h
      have hsub := walkImports_locals_sub m fs pkg _ false im pm locals im1 hw
      refine ⟨?_, ?_⟩
      · intro x
        rw [a x, GoMap.contains_set_iff]
        simp only [List.mem_cons]
        tauto
      · intro x hx
        rcases b x hx with hb | hb
        · rcases List.mem_append.mp hb with h1 | h1
          · exact Or.inl h1
          · right
            rw [List.mem_filter] at h1
            refine ⟨hsub x h1.1, ?_⟩
            have h2 := h1.2
            simp only [Bool.not_eq_true'] at h2
            cases hc : W.contains x with
            | false => rfl
            | true =>
              have := GoMap.contains_set_of_contains W d x () hc
              rw [this] at h2
              simp at h2
        · right
          refine ⟨hb.1, ?_⟩
          cases hc : W.contains x with
          | false => rfl
          | true =>
            have := GoMap.contains_set_of_contains W d x () hc
            rw [this] at hb
            simp at hb

/-- The number of import paths of the tree that are not marked yet. -/
theorem unmarked_le (U : List Str) (W W' : GoMap Unit)
    (h : ∀ x, W.contains x = true → W'.contains x = true) :
    (U.filter (fun x => !W'.contains x)).length ≤ (U.filter (fun x => !W.contains x)).length := by
  apply List.Sublist.length_le
  apply List.monotone_filter_right
  intro x hx
  simp only [Bool.not_eq_true'] at hx ⊢
  cases hc : W.contains x with
  | false => rfl
  | true => rw [h x hc] at hx; simp at hx

theorem unmarked_lt (U : List Str) (W W' : GoMap Unit)
    (h : ∀ x, W.contains x = true → W'.contains x = true)
    (d : Str) (hd : d ∈ U) (hW : W.contains d = false) (hW' : W'.contains d = true) :
    (U.filter (fun x => !W'.contains x)).length < (U.filter (fun x => !W.contains x)).length := by
  have hsub : List.Sublist (U.filter (fun x => !W'.contains x))
      (U.filter (fun x => !W.contains x)) := by
    apply List.monotone_filter_right
    intro x hx
    simp only [Bool.not_eq_true'] at hx ⊢
    cases hc : W.contains x with
    | false => rfl
    | true => rw [h x hc] at hx; simp at hx
  rcases Nat.lt_or_ge (U.filter (fun x => !W'.contains x)).length
      (U.filter (fun x => !W.contains x)).length with hlt | hge
  · exact hlt
  · exfalso
    have heq := hsub.eq_of_length_le hge
    have h1 : d ∈ U.filter (fun x => !W.contains x) := by
      rw [List.mem_filter]; exact ⟨hd, by simp [hW]⟩
    rw [← heq, List.mem_filter] at h1
    simp [hW'] at h1

theorem walkRounds_nil (m : Manifest) (fs : Dir) (pkg : Str) (pm : Bool) (k : Nat)
    (acc : GoMap Unit × GoMap Unit) : walkRounds m fs pkg pm k [] acc = some (.ok acc) := by
  cases k <;> simp [walkRounds]

/-- The rounds of the walk over listed directories end: once the directories
to walk are import paths of the tree, each round marks one that was not marked
or is followed by a round that does, so a bound of twice the number of
unmarked import paths, and one, is never reached. -/
theorem walkRounds_returns_aux (m : Manifest) (fs : Dir) (pkg : Str) (pm : Bool) :
    ∀ (k : Nat) (D : List Str) (W im : GoMap Unit),
      (∀ d ∈ D, d ∈ fs.allImports) →
      2 * (fs.allImports.filter (fun x => !W.contains x)).length +
        (if D.all (fun d => W.contains d) = true then 1 else 0) ≤ k →
      (walkRounds m fs pkg pm k D (W, im)).isSome = true := by
  intro k
  induction k with
  | zero =>
    intro D W im hD hk
    cases D with
    | nil => simp [walkRounds_nil]
    | cons d ds =>
      exfalso
      by_cases hall : (d :: ds).all (fun d => W.contains d) = true
      · rw [if_pos hall] at hk
        omega
      · have hex : ∃ y ∈ d :: ds, W.contains y = false := by
          by_contra hcon
          apply hall
          rw [List.all_eq_true]
          intro y hy
          cases hc : W.contains y with
          | true => rfl
          | false => exact absurd ⟨y, hy, hc⟩ hcon
        obtain ⟨y, hy, hc⟩ := hex
        have hmem : y ∈ fs.allImports.filter (fun x => !W.contains x) := by
          rw [List.mem_filter]; exact ⟨hD y hy, by simp [hc]⟩
        have := List.length_pos_of_mem hmem
        omega
  | succ k ih =>
    intro D W im hD hk
    cases D with
    | nil => simp [walkRounds_nil]
    | cons d ds =>
      simp only [walkRounds]
      cases hl : walkListed m fs pkg pm (d :: ds) (W, im, []) with
      | error e => simp
      | ok res =>
        obtain ⟨W', im', D'⟩ := res
        simp only
        obtain ⟨a, b⟩ := walkListed_spec m fs pkg pm (d :: ds) W im [] W' im' D' hl
        have hD' : ∀ x ∈ D', x ∈ fs.allImports := by
          intro x hx
          rcases b x hx with h | h
          · simp at h
          · exact h.1
        have hmono : ∀ x, W.contains x = true → W'.contains x = true :=
          fun x hx => (a x).mpr (Or.inl hx)
        cases D' with
        | nil => simp [walkRounds_nil]
        | cons x xs =>
          apply ih (x :: xs) W' im' hD'
          have hxW : W.contains x = false := by
            rcases b x (List.mem_cons_self _ _) with h | h
            · simp at h
            · exact h.2
          by_cases hall : (d :: ds).all (fun d => W.contains d) = true
          · rw [if_pos hall] at hk
            have hxW' : W'.contains x = false := by
              cases hc : W'.contains x with
              | false => rfl
              | true =>
                rcases (a x).mp hc with h | h
                · rw [h] at hxW; simp at hxW
                · have := List.all_eq_true.mp hall x h
                  simp only at this
                  rw [this] at hxW
                  simp at hxW
            have hflag : ¬((x :: xs).all (fun d => W'.contains d) = true) := by
              intro hcon
              have := List.all_eq_true.mp hcon x (List.mem_cons_self _ _)
              simp only at this
              rw [this] at hxW'
              simp at hxW'
            rw [if_neg hflag]
            have := unmarked_le fs.allImports W W' hmono
            omega
          · rw [if_neg hall] at hk
            have hex : ∃ y ∈ d :: ds, W.contains y = false := by
              by_contra hcon
              apply hall
              rw [List.all_eq_true]
              intro y hy
              cases hc : W.contains y with
              | true => rfl
              | false => exact absurd ⟨y, hy, hc⟩ hcon
            obtain ⟨y, hy, hc⟩ := hex
            have := unmarked_lt fs.allImports W W' hmono y (hD y hy) hc ((a y).mpr (Or.inr hy))
            split <;> omega

/-- The rounds of the walk over listed directories end within a bound that
depends on the tree alone. -/
theorem walkRounds_returns (m : Manifest) (fs : Dir) (pkg : Str) (pm : Bool) (k : Nat)
    (D : List Str) (acc : GoMap Unit × GoMap Unit)
    (hk : 2 * fs.allImports.length + 2 ≤ k) :
    (walkRounds m fs pkg pm k D acc).isSome = true := by
  obtain ⟨W, im⟩ := acc
  cases D with
  | nil => simp [walkRounds_nil]
  | cons d ds =>
    cases k with
    | zero => omega
    | succ k =>
      simp only [walkRounds]
      cases hl : walkListed m fs pkg pm (d :: ds) (W, im, []) with
      | error e => simp
      | ok res =>
        obtain ⟨W', im', D'⟩ := res
        simp only
        obtain ⟨a, b⟩ := walkListed_spec m fs pkg pm (d :: ds) W im [] W' im' D' hl
        apply walkRounds_returns_aux m fs pkg pm k D' W' im'
        · intro x hx
          rcases b x hx with h | h
          · simp at h
          · exact h.1
        · have := List.length_filter_le (fun x => !W'.contains x) fs.allImports
          split <;> omega

theorem getPkgImports_returns (m : Manifest) (fs : Dir) (fuel : Nat) (pkg : Str)
    (subpkgs : List Str) (dir : Str) (isNew fa pm : Bool)
    (hk : 2 * fs.allImports.length + 2 ≤ fuel) :
    (getPkgImports m fs fuel pkg subpkgs dir isNew fa pm).isSome = true := by
  unfold getPkgImports
  cases fa with
  | true =>
    simp only [if_true]
    cases walkImports m fs pkg dir true [] pm with
    | error e => rfl
    | ok r => rfl
  | false =>
    simp only [Bool.false_eq_true, if_false]
    have h := walkRounds_returns m fs pkg pm fuel
      (if (!(List.foldl (chooseDirs m pkg dir) (false, []) subpkgs).1 && isNew) = true then
        (List.foldl (chooseDirs m pkg dir) (false, []) subpkgs).2 ++ [pkg]
      else (List.foldl (chooseDirs m pkg dir) (false, []) subpkgs).2) ([], []) hk
    cases hw : walkRounds m fs pkg pm fuel
      (if (!(List.foldl (chooseDirs m pkg dir) (false, []) subpkgs).1 && isNew) = true then
        (List.foldl (chooseDirs m pkg dir) (false, []) subpkgs).2 ++ [pkg]
      else (List.foldl (chooseDirs m pkg dir) (false, []) subpkgs).2) ([], []) with
    | none => rw [hw] at h; simp at h
    | some r =>
      cases r with
      | error e => rfl
      | ok p => rfl

theorem recordPackage_returns (fuel : Nat) (s : State) (pkg rootPkg : Str) (info : Package)
    (shared : Option (Str × Package)) (ns : List Str) (isNew isLocal fa : Bool)
    (hk : 2 * s.fs.allImports.length + 2 ≤ fuel) :
    (recordPackage fuel s pkg rootPkg info shared ns isNew isLocal fa).isSome = true := by
  unfold recordPackage
  simp only
  split
  · rfl
  · have h := getPkgImports_returns (ctxCancelled s).2.manifest (ctxCancelled s).2.fs fuel rootPkg
      ns (vendorDir (ctxCancelled s).2.manifest rootPkg) isNew fa false (by simpa using hk)
    split
    · rename_i hn
      rw [hn] at h
      simp at h
    · rfl
    · rfl

theorem reconcileUpdate_returns (fuel : Nat) (s : State) (pkg rootPkg : Str)
    (r : DoImportResult) (info : Package) (opts : ImportOptions) (ns : List Str)
    (isLocal : Bool) (hk : 2 * s.fs.allImports.length + 2 ≤ fuel) :
    (reconcileUpdate fuel s pkg rootPkg r info opts ns isLocal).isSome = true := by
  unfold reconcileUpdate
  split
  · rfl
  · simp only
    split
    · rfl
    · exact recordPackage_returns _ _ _ _ _ _ _ _ _ _ (by simpa using hk)

/-- The fetch and the recording of a package return, for every bound from
some bound on. -/
theorem fetchAndRecord_returns (w : World) (s : State) (pkg rootPkg version : Str)
    (opts : ImportOptions) (existing : Option Package) (ns : List Str)
    (performImport isLocal vr : Bool) :
    ∃ n, ∀ fuel, n ≤ fuel →
      (fetchAndRecord w fuel s pkg rootPkg version opts existing ns performImport isLocal
        vr).isSome = true := by
  refine ⟨2 * s.fs.allImports.length + 2 +
    (2 * (doImport w s rootPkg version isLocal true vr).2.fs.allImports.length + 2), ?_⟩
  intro fuel hf
  unfold fetchAndRecord
  simp only
  cases performImport with
  | false =>
    simp only [Bool.false_eq_true, if_false]
    cases existing with
    | none => exact recordPackage_returns _ _ _ _ _ _ _ _ _ _ (by simp only [noteNewPkg_fs]; omega)
    | some info =>
      exact recordPackage_returns _ _ _ _ _ _ _ _ _ _ (by simp only [noteNewPkg_fs]; omega)
  | true =>
    simp only [if_true]
    cases hd : (doImport w s rootPkg version isLocal true vr).1.pkgErr with
    | some e => rfl
    | none =>
      simp only
      cases existing with
      | none =>
        exact recordPackage_returns _ _ _ _ _ _ _ _ _ _
          (by simp only [noteNewPkg_fs, noteCancelled_fs]; omega)
      | some info =>
        exact reconcileUpdate_returns _ _ _ _ _ _ _ _ _ (by simp only [noteCancelled_fs]; omega)

/-- A step of `importPackage` returns, for every bound from some bound on. -/
theorem importStep_returns (w : World) (s : State) (pkg : Str) (opts : ImportOptions) :
    ∃ n, ∀ fuel, n ≤ fuel → (importStep w fuel s pkg opts).isSome = true := by
  cases hex : s.manifest.IsExcludedPkg (getPkgRoot pkg) with
  | some root =>
    refine ⟨0, fun fuel _ => ?_⟩
    unfold importStep
    simp only [hex]
    split <;> rfl
  | none =>
    cases hres : resolveVersion s (getPkgRoot pkg) opts.Version with
    | error e =>
      refine ⟨0, fun fuel _ => ?_⟩
      unfold importStep
      simp only [hex, hres]
      rfl
    | ok vv =>
      obtain ⟨version, vr⟩ := vv
      cases hpe : s.manifest.PkgExists (getPkgRoot pkg) with
      | none =>
        obtain ⟨n, hn⟩ := fetchAndRecord_returns w s pkg (getPkgRoot pkg) version opts none
          opts.Subpackages true (opts.Local || (s.manifest.IsLocalPkg (getPkgRoot pkg)).isSome) vr
        refine ⟨n, fun fuel hf => ?_⟩
        unfold importStep
        simp only [hex, hres, hpe]
        exact hn fuel hf
      | some er =>
        obtain ⟨existing, root⟩ := er
        obtain ⟨n, hn⟩ := fetchAndRecord_returns w (removeExisting opts.Update s root) pkg root
          version opts (some existing)
          (newSubpackages s.manifest existing root pkg opts.Subpackages)
          (opts.Update && !decide (version ≠ [] ∧ version = existing.Version))
          (opts.Local || (s.manifest.IsLocalPkg (getPkgRoot pkg)).isSome) vr
        refine ⟨n, fun fuel hf => ?_⟩
        unfold importStep
        simp only [hex, hres, hpe]
        split
        · rfl
        · split
          · rfl
          · split
            · rfl
            · exact hn fuel hf

/-! ## C3: the version a request resolves to -/

/-- C3 as stated fails for a package the manifest already holds: the record of
`github.com/x/a` has version `v0`, the constraint asks for `v1`; the request
with no version and no update flag returns at once, nothing is fetched and the
recorded version stays `v0`. -/
theorem C3_counterexample_existing :
    ({ Constraints := [("github.com/x/a".toList, "v1".toList)],
       Packages := [("github.com/x/a".toList, { Version := "v0".toList })] } :
      Manifest).GetPkgConstraint (getPkgRoot "github.com/x/a".toList) =
      some ("github.com/x/a".toList, "v1".toList) ∧
    importPackage (exampleWorld []) 1
      { manifest := { Constraints := [("github.com/x/a".toList, "v1".toList)],
                      Packages := [("github.com/x/a".toList, { Version := "v0".toList })] } }
      "github.com/x/a".toList {} =
    some ⟨none,
      { manifest := { Constraints := [("github.com/x/a".toList, "v1".toList)],
                      Packages := [("github.com/x/a".toList, { Version := "v0".toList })] } }⟩ := by
  decide

/-- A request for a new package that the version decision settles at a named
version resolves to that version. -/
theorem importPackage_resolvesAt (w : World) (fuel : Nat) (s : State) (pkg : Str)
    (opts : ImportOptions) (version : Str) (vr : Bool)
    (hex : s.manifest.IsExcludedPkg (getPkgRoot pkg) = none)
    (hnew : s.manifest.PkgExists (getPkgRoot pkg) = none)
    (hres : resolveVersion s (getPkgRoot pkg) opts.Version = .ok (version, vr))
    (hv : version ≠ []) :
    ResolvesAt w fuel s pkg opts version vr := by
  refine ⟨fun st hst => importStep_resolves w fuel s pkg opts st version vr hex hnew hres hv hst,
    ?_⟩
  intro hw hud r h herr
  simp only [importPackage] at h
  cases hs : importStep w fuel s pkg opts with
  | none => rw [hs] at h; simp at h
  | some st =>
    rw [hs] at h
    have hr := importStep_resolves w fuel s pkg opts st version vr hex hnew hres hv hs
    cases st with
    | ret r1 =>
      simp only [Option.some.injEq] at h
      subst h
      exact absurd herr (hr.2.1 _ rfl)
    | recurse s1 deps =>
      simp only at h
      obtain ⟨⟨info, hget, hver⟩, -⟩ := hr.2.2 s1 deps rfl
      have hrel := importDeps_induct
        (fun s r => ∀ k i0, s.manifest.Packages.get? k = some i0 →
          ∃ i1, r.state.manifest.Packages.get? k = some i1 ∧ i1.Version = i0.Version)
        (fun s k i0 hk => ⟨i0, hk, rfl⟩)
        (fun s s1 r h1 h2 k i0 hk => by
          obtain ⟨i1, a, b⟩ := h1 k i0 hk
          obtain ⟨i2, c, d⟩ := h2 k i1 a
          exact ⟨i2, c, d.trans b⟩)
        (importPackage w fuel) opts.UpdateDeps
        (fun s' p subs r' hr' k i0 hk =>
          importPackage_versions w hw fuel s' p
            { Update := opts.UpdateDeps, UpdateDeps := opts.UpdateDeps, Subpackages := subs } r'
            hud hud hr' k i0 hk)
        deps s1 r h
      obtain ⟨i1, h1, h2⟩ := hrel _ info hget
      exact ⟨i1, h1, h2.trans hver⟩

/-- C3, amended. Take a request for a package whose root is not excluded and
has no record in the manifest yet. The call of `importPackage` gets as far as
its dependencies or returns, for every bound on the scan from some bound on.
With a non-empty constraint `v1` on the root and no requested version the
request resolves to `v1`: the fetch provider is called once before the
dependencies are turned to, for the root, with the reference `v1` marked
mandatory; a return at that point is an error; otherwise the manifest records
`v1` for the fetched root, and still does when the call returns without error
(with no update of the dependencies, the oracle's roots being prefixes). With
no non-empty constraint and no requested version, a non-empty cached
constraint of the root is what the request resolves to, not mandatory; and
with no non-empty constraint an explicit version is what it resolves to,
whatever the cache holds. -/
theorem C3_effective_version (w : World) (fuel : Nat) (s : State) (pkg : Str)
    (opts : ImportOptions)
    (hex : s.manifest.IsExcludedPkg (getPkgRoot pkg) = none)
    (hnew : s.manifest.PkgExists (getPkgRoot pkg) = none) :
    (∃ n, ∀ fuel', n ≤ fuel' → ∃ st, importStep w fuel' s pkg opts = some st) ∧
    (∀ key v1, s.manifest.GetPkgConstraint (getPkgRoot pkg) = some (key, v1) → v1 ≠ [] →
      opts.Version = [] → ResolvesAt w fuel s pkg opts v1 true) ∧
    (∀ v, (∀ key v1, s.manifest.GetPkgConstraint (getPkgRoot pkg) = some (key, v1) → v1 = []) →
      opts.Version = [] → s.cachedConstraints.get? (getPkgRoot pkg) = some v → v ≠ [] →
      ResolvesAt w fuel s pkg opts v false) ∧
    ((∀ key v1, s.manifest.GetPkgConstraint (getPkgRoot pkg) = some (key, v1) → v1 = []) →
      opts.Version ≠ [] → ResolvesAt w fuel s pkg opts opts.Version false) := by
  refine ⟨?_, ?_, ?_, ?_⟩
  · obtain ⟨n, hn⟩ := importStep_returns w s pkg opts
    refine ⟨n, fun fuel' hf => ?_⟩
    have := hn fuel' hf
    cases hst : importStep w fuel' s pkg opts with
    | none => rw [hst] at this; simp at this
    | some st => exact ⟨st, rfl⟩
  · intro key v1 hc hv1 hver
    apply importPackage_resolvesAt w fuel s pkg opts v1 true hex hnew _ hv1
    simp [resolveVersion, hc, hv1, hver]
  · intro v hnc hver hcc hv
    apply importPackage_resolvesAt w fuel s pkg opts v false hex hnew _ hv
    cases hc : s.manifest.GetPkgConstraint (getPkgRoot pkg) with
    | none => simp [resolveVersion, hc, hver, hcc, hv]
    | some kv =>
      obtain ⟨key, v1⟩ := kv
      have := hnc key v1 hc
      subst this
      simp [resolveVersion, hc, hver, hcc, hv]
  · intro hnc hver
    apply importPackage_resolvesAt w fuel s pkg opts opts.Version false hex hnew _ hver
    cases hc : s.manifest.GetPkgConstraint (getPkgRoot pkg) with
    | none => simp [resolveVersion, hc, hver]
    | some kv =>
      obtain ⟨key, v1⟩ := kv
      have := hnc key v1 hc
      subst this
      simp [resolveVersion, hc, hver]

/-- C3 at a concrete input: `github.com/x/a` is new, constrained to `v1`, and
its repository has the reference `v1`; the call fetches it at `v1`, mandatory,
and the manifest records version `v1` when the call returns. -/
theorem C3_effective_version_witness :
    (∃ st,
      importStep worldWithRef 1 constrainedState "github.com/x/a".toList { FetchAll := true }
        = some st ∧
      st.state.trace = [Event.fetch "github.com/x/a".toList "v1".toList false true] ∧
      (st.state.manifest.Packages.get? "github.com/x/a".toList).map Package.Version =
        some "v1".toList) ∧
    (importPackage worldWithRef 2 constrainedState "github.com/x/a".toList
      { FetchAll := true }).map
      (fun r => (r.err, (r.state.manifest.Packages.get? "github.com/x/a".toList).map
        Package.Version)) = some (none, some "v1".toList) ∧
    ResolvesAt worldWithRef 1 constrainedState "github.com/x/a".toList { FetchAll := true }
      "v1".toList true :=
  ⟨⟨_, rfl, by decide, by decide⟩, by decide,
    (C3_effective_version worldWithRef 1 constrainedState "github.com/x/a".toList
      { FetchAll := true } (by decide) (by decide)).2.1 "github.com/x/a".toList "v1".toList
      (by decide) (by decide) rfl⟩

/-! ## Lemmas on the string tests -/

theorem hasPrefix_iff (s p : Str) : hasPrefix s p = true ↔ p <+: s := by
  induction p generalizing s with
  | nil => cases s <;> simp [hasPrefix]
  | cons c cs ih =>
    cases s with
    | nil => simp [hasPrefix]
    | cons x xs =>
      simp only [hasPrefix, Bool.and_eq_true, beq_iff_eq, ih, List.cons_prefix_cons]
      constructor
      · rintro ⟨h1, h2⟩; exact ⟨h1.symm, h2⟩
      · rintro ⟨h1, h2⟩; exact ⟨h1.symm, h2⟩

theorem strIndex_single (c : Char) (s : Str) :
    (strIndex s [c]).isSome = true ↔ c ∈ s := by
  induction s with
  | nil => simp [strIndex]
  | cons x xs ih =>
    unfold strIndex
    by_cases hx : x = c
    · subst hx
      simp [hasPrefix]
    · have hx' : (x == c) = false := by simpa using hx
      have hne : c ≠ x := fun h => hx h.symm
      simp only [hasPrefix, hx', Bool.false_and, Bool.false_eq_true, if_false,
        Option.isSome_map', ih, List.mem_cons, hne, false_or]

theorem strContains_single (c : Char) (s : Str) : strContains s [c] = true ↔ c ∈ s :=
  strIndex_single c s

/-- The text before the first `/` found by `strings.Index` is the first
segment of the split. -/
theorem take_strIndex_slash (s : Str) :
    s.take ((strIndex s ['/']).getD 0) = if '/' ∈ s then firstSegment s else [] := by
  induction s with
  | nil => simp [strIndex]
  | cons x xs ih =>
    unfold strIndex
    by_cases hx : x = '/'
    · subst hx
      simp [hasPrefix, firstSegment, strSplit]
    · have hx' : (x == '/') = false := by simpa using hx
      have hne : ¬ ('/' = x) := fun h => hx h.symm
      simp only [hasPrefix, hx', Bool.false_and, Bool.false_eq_true, if_false, List.mem_cons,
        hne, false_or]
      by_cases hm : '/' ∈ xs
      · have hsome := (strIndex_single '/' xs).mpr hm
        cases hi : strIndex xs ['/'] with
        | none => rw [hi] at hsome; simp at hsome
        | some k =>
          rw [hi] at ih
          simp only [Option.getD_some, hm, if_true] at ih
          simp only [Option.map_some', Option.getD_some, List.take_succ_cons, ih, hm, if_true]
          unfold firstSegment
          simp only [strSplit, hx, if_false]
          cases hsp : strSplit '/' xs with
          | nil => exact absurd hsp (strSplit_ne_nil _ _)
          | cons seg rest => simp
      · have hnone : strIndex xs ['/'] = none := by
          cases hi : strIndex xs ['/'] with
          | none => rfl
          | some k =>
            have := (strIndex_single '/' xs).mp (by simp [hi])
            exact absurd this hm
        simp [hnone, hm]

/-! ## C10: the classification of an import -/

/-- The tests of `walkImports` on one import decide as the reference rule. -/
theorem classifyImport_eq_ref (pkg i : Str) : classifyImport pkg i = classifyRef pkg i := by
  unfold classifyImport classifyRef
  by_cases h1 : '/' ∈ i
  · have e1 : strContains i ['/'] = true := (strContains_single _ _).mpr h1
    have e3 := take_strIndex_slash i
    rw [if_pos h1] at e3
    rw [e3]
    by_cases h2 : "./".toList <+: i
    · have e2 : hasPrefix i "./".toList = true := (hasPrefix_iff _ _).mpr h2
      rw [if_pos (Or.inr (Or.inl h2))]
      simp only [e1, e2, Bool.not_true, Bool.false_eq_true, if_false, Bool.true_or, if_true]
    · have e2 : hasPrefix i "./".toList = false := by
        cases h : hasPrefix i "./".toList with
        | false => rfl
        | true => exact absurd ((hasPrefix_iff _ _).mp h) h2
      by_cases h2' : "../".toList <+: i
      · have e2' : hasPrefix i "../".toList = true := (hasPrefix_iff _ _).mpr h2'
        rw [if_pos (Or.inr (Or.inr (Or.inl h2')))]
        simp only [e1, e2, e2', Bool.not_true, Bool.false_eq_true, if_false, Bool.or_true,
          if_true]
      · have e2' : hasPrefix i "../".toList = false := by
          cases h : hasPrefix i "../".toList with
          | false => rfl
          | true => exact absurd ((hasPrefix_iff _ _).mp h) h2'
        simp only [e1, e2, e2', Bool.not_true, Bool.false_eq_true, if_false, Bool.or_false]
        by_cases h3 : '.' ∈ firstSegment i
        · have e4 : strContains (firstSegment i) ['.'] = true := (strContains_single _ _).mpr h3
          have hd : ¬('/' ∉ i ∨ "./".toList <+: i ∨ "../".toList <+: i ∨ '.' ∉ firstSegment i) := by
            rintro (h | h | h | h)
            · exact h h1
            · exact h2 h
            · exact h2' h
            · exact h h3
          rw [if_neg hd]
          simp only [e4, Bool.not_true, Bool.false_eq_true, if_false]
          by_cases hp : pkg = []
          · subst hp
            have : ¬(strSplit '/' ([] : Str)).length > 3 := by simp [strSplit]
            simp [this]
          · by_cases hpre : pkg <+: i
            · have e5 : hasPrefix i pkg = true := (hasPrefix_iff _ _).mpr hpre
              simp [hp, hpre, e5]
            · have e5 : hasPrefix i pkg = false := by
                cases h : hasPrefix i pkg with
                | false => rfl
                | true => exact absurd ((hasPrefix_iff _ _).mp h) hpre
              by_cases hlen : (strSplit '/' pkg).length > 3
              · by_cases hr : strJoin '/' ((strSplit '/' pkg).take 3) <+: i
                · have e6 := (hasPrefix_iff _ _).mpr hr
                  simp [hp, hpre, e5, hlen, hr, e6]
                · have e6 : hasPrefix i (strJoin '/' ((strSplit '/' pkg).take 3)) = false := by
                    cases h : hasPrefix i (strJoin '/' ((strSplit '/' pkg).take 3)) with
                    | false => rfl
                    | true => exact absurd ((hasPrefix_iff _ _).mp h) hr
                  simp [hp, hpre, e5, hlen, hr, e6]
              · simp [hp, hpre, e5, hlen]
        · have e4 : strContains (firstSegment i) ['.'] = false := by
            cases h : strContains (firstSegment i) ['.'] with
            | false => rfl
            | true => exact absurd ((strContains_single _ _).mp h) h3
          rw [if_pos (Or.inr (Or.inr (Or.inr h3)))]
          simp only [e4, Bool.not_false, if_true]
  · have e1 : strContains i ['/'] = false := by
      cases h : strContains i ['/'] with
      | false => rfl
      | true => exact absurd ((strContains_single _ _).mp h) h1
    rw [if_pos (Or.inl h1)]
    simp only [e1, Bool.not_false, if_true]
theorem GoMap.keys_set_of_not_contains {V : Type} (m : GoMap V) (k : Str) (v : V)
    (h : m.contains k = false) : (m.set k v).keys = m.keys ++ [k] := by
  induction m with
  | nil => rfl
  | cons kv rest ih =>
    obtain ⟨k', v'⟩ := kv
    have hne : k' ≠ k := by
      intro he
      subst he
      simp [GoMap.contains, GoMap.get?] at h
    have hrest : GoMap.contains rest k = false := by
      simpa [GoMap.contains, GoMap.get?, hne] using h
    have := ih hrest
    simp only [GoMap.keys] at this ⊢
    simp [GoMap.set, hne, this]

theorem GoMap.not_mem_keys_of_not_contains {V : Type} (m : GoMap V) (k : Str)
    (h : m.contains k = false) : k ∉ m.keys := by
  induction m with
  | nil => simp [GoMap.keys]
  | cons kv rest ih =>
    obtain ⟨k', v'⟩ := kv
    have hne : k' ≠ k := by
      intro he
      subst he
      simp [GoMap.contains, GoMap.get?] at h
    have hrest : GoMap.contains rest k = false := by
      simpa [GoMap.contains, GoMap.get?, hne] using h
    have := ih hrest
    simp only [GoMap.keys] at this ⊢
    simp only [List.map_cons, List.mem_cons, not_or]
    exact ⟨fun he => hne he.symm, this⟩

/-- C10. For every current package `pkg` and import value (its quotes removed:
`i`), the tests of `walkImports` classify `i` as the three-way reference rule
does, and the loop body acts on the class: a dropped import changes nothing; a
local one is appended to the locals and leaves the import set alone; an
external one leaves the locals alone and is in the import set afterwards,
exactly once (the keys of the set stay free of duplicates), every other key
being as before. -/
theorem C10_classification_rule (pkg pathValue : Str) (locals : List Str)
    (importsMap : GoMap Unit) :
    classifyImport pkg (removeChar '"' pathValue) = classifyRef pkg (removeChar '"' pathValue) ∧
    (classifyRef pkg (removeChar '"' pathValue) = .dropped →
      walkImport pkg (locals, importsMap) pathValue = (locals, importsMap)) ∧
    (classifyRef pkg (removeChar '"' pathValue) = .local →
      walkImport pkg (locals, importsMap) pathValue =
        (locals ++ [removeChar '"' pathValue], importsMap)) ∧
    (classifyRef pkg (removeChar '"' pathValue) = .external →
      (walkImport pkg (locals, importsMap) pathValue).1 = locals ∧
      (walkImport pkg (locals, importsMap) pathValue).2.contains (removeChar '"' pathValue)
        = true ∧
      (∀ k, k ≠ removeChar '"' pathValue →
        (walkImport pkg (locals, importsMap) pathValue).2.get? k = importsMap.get? k) ∧
      (importsMap.keys.Nodup →
        (walkImport pkg (locals, importsMap) pathValue).2.keys.Nodup ∧
        removeChar '"' pathValue ∈ (walkImport pkg (locals, importsMap) pathValue).2.keys)) := by
  refine ⟨classifyImport_eq_ref _ _, ?_, ?_, ?_⟩
  · intro h
    rw [← classifyImport_eq_ref] at h
    simp [walkImport, h]
  · intro h
    rw [← classifyImport_eq_ref] at h
    simp [walkImport, h]
  · intro h
    rw [← classifyImport_eq_ref] at h
    cases hc : importsMap.contains (removeChar '"' pathValue) with
    | true =>
      have hw : walkImport pkg (locals, importsMap) pathValue = (locals, importsMap) := by
        simp [walkImport, h, hc]
      rw [hw]
      exact ⟨rfl, hc, fun _ _ => rfl, fun hnd => ⟨hnd, GoMap.mem_keys_of_contains _ _ hc⟩⟩
    | false =>
      have hw : walkImport pkg (locals, importsMap) pathValue =
          (locals, importsMap.set (removeChar '"' pathValue) ()) := by
        simp [walkImport, h, hc]
      rw [hw]
      refine ⟨rfl, GoMap.contains_set_self _ _ _,
        fun k hk => GoMap.get?_set_ne _ _ _ _ (fun he => hk he.symm), fun hnd => ?_⟩
      have hnm := GoMap.not_mem_keys_of_not_contains _ _ hc
      have hnd' : (importsMap.set (removeChar '"' pathValue) ()).keys.Nodup := by
        rw [GoMap.keys_set_of_not_contains _ _ _ hc]
        rw [List.nodup_append]
        refine ⟨hnd, by simp, ?_⟩
        intro a ha hb
        simp only [List.mem_singleton] at hb
        subst hb
        exact hnm ha
      exact ⟨hnd', GoMap.mem_keys_of_contains _ _ (GoMap.contains_set_self _ _ _)⟩

/-- C10 at concrete inputs: seen from `github.com/x/a/cmd/tool`, the import
`fmt` is dropped, `github.com/x/a/util` is local (it starts with the first
three segments of the package), and `github.com/y/b` is external and enters
the import set once, also when it is met a second time. -/
theorem C10_classification_rule_witness :
    classifyRef "github.com/x/a/cmd/tool".toList "fmt".toList = .dropped ∧
    classifyRef "github.com/x/a/cmd/tool".toList "github.com/x/a/util".toList = .local ∧
    classifyRef "github.com/x/a/cmd/tool".toList "github.com/y/b".toList = .external ∧
    walkImport "github.com/x/a/cmd/tool".toList ([], []) "\"github.com/x/a/util\"".toList =
      (["github.com/x/a/util".toList], []) ∧
    (walkImport "github.com/x/a/cmd/tool".toList
      (walkImport "github.com/x/a/cmd/tool".toList ([], []) "\"github.com/y/b\"".toList)
      "\"github.com/y/b\"".toList).2.keys = ["github.com/y/b".toList] :=
  ⟨by decide, by decide, by decide,
    (C10_classification_rule "github.com/x/a/cmd/tool".toList "\"github.com/x/a/util\"".toList
      [] []).2.2.1 (by decide),
    by decide⟩

/-! ## C9: an import under the current package is never external -/

theorem classifyRef_local_under_pkg (pkg i : Str) (hpkg : pkg ≠ []) (hpre : pkg <+: i) :
    classifyRef pkg i ≠ .external := by
  unfold classifyRef
  split
  · simp
  · rw [if_pos (Or.inl ⟨hpkg, hpre⟩)]
    simp

theorem walkImport_contains (pkg : Str) (hpkg : pkg ≠ []) (acc : List Str × GoMap Unit)
    (pv i : Str) (hpre : pkg <+: i)
    (h : (walkImport pkg acc pv).2.contains i = true) : acc.2.contains i = true := by
  unfold walkImport at h
  simp only at h
  cases hc : classifyImport pkg (removeChar '"' pv) with
  | dropped => rw [hc] at h; exact h
  | «local» => rw [hc] at h; exact h
  | external =>
    rw [hc] at h
    simp only at h
    split at h
    · exact h
    · rcases (GoMap.contains_set_iff _ _ _ _).mp h with he | he
      · subst he
        rw [classifyImport_eq_ref] at hc
        exact absurd hc (classifyRef_local_under_pkg pkg _ hpkg hpre)
      · exact he

theorem foldl_walkImport_contains (pkg : Str) (hpkg : pkg ≠ []) (imps : List Str) :
    ∀ (acc : List Str × GoMap Unit) (i : Str), pkg <+: i →
      (imps.foldl (walkImport pkg) acc).2.contains i = true → acc.2.contains i = true := by
  induction imps with
  | nil => intro acc i _ h; exact h
  | cons pv rest ih =>
    intro acc i hpre h
    simp only [List.foldl_cons] at h
    exact walkImport_contains pkg hpkg acc pv i hpre (ih _ i hpre h)

theorem walkImport_locals_mono (pkg : Str) (acc : List Str × GoMap Unit) (pv l : Str)
    (h : l ∈ acc.1) : l ∈ (walkImport pkg acc pv).1 := by
  unfold walkImport
  simp only
  cases classifyImport pkg (removeChar '"' pv) with
  | dropped => exact h
  | «local» => exact List.mem_append_left _ h
  | external =>
    simp only
    split <;> exact h

theorem foldl_walkImport_locals_mono (pkg : Str) (imps : List Str) :
    ∀ (acc : List Str × GoMap Unit) (l : Str), l ∈ acc.1 →
      l ∈ (imps.foldl (walkImport pkg) acc).1 := by
  induction imps with
  | nil => intro acc l h; exact h
  | cons pv rest ih =>
    intro acc l h
    simp only [List.foldl_cons]
    exact ih _ l (walkImport_locals_mono pkg acc pv l h)

theorem foldl_walkImport_local_mem (pkg : Str) (imps : List Str) :
    ∀ (acc : List Str × GoMap Unit) (pv : Str), pv ∈ imps →
      classifyImport pkg (removeChar '"' pv) = .local →
      removeChar '"' pv ∈ (imps.foldl (walkImport pkg) acc).1 := by
  induction imps with
  | nil => intro acc pv h; simp at h
  | cons p rest ih =>
    intro acc pv hmem hc
    simp only [List.foldl_cons]
    rcases List.mem_cons.mp hmem with he | he
    · subst he
      apply foldl_walkImport_locals_mono
      simp [walkImport, hc]
    · exact ih _ pv he hc

/-- The walk of a listing, in either mode: no import that starts with the
current package enters the import set, and each local import of a file the
walk reaches and scans, in the listing or below it, is among the locals
returned. -/
theorem walkEntries_local (m : Manifest) (pkg : Str) (hpkg : pkg ≠ [])
    (scanAll parseMain : Bool) (files : Dir) :
    ∀ (dir : Str) (importsMap : GoMap Unit) (locals : List Str) (im' : GoMap Unit),
      walkEntries m pkg scanAll parseMain dir files importsMap = .ok (locals, im') →
      (∀ i, pkg <+: i → im'.contains i = true → importsMap.contains i = true) ∧
      (∀ path name src imps pv, (path, name, src) ∈ reachedFiles m scanAll dir files →
        fileImports m path name src parseMain = .ok (some imps) →
        pv ∈ imps → classifyImport pkg (removeChar '"' pv) = .local →
        removeChar '"' pv ∈ locals) := by
  induction files with
  | nil =>
    intro dir im locals im' h
    simp only [walkEntries, Except.ok.injEq, Prod.mk.injEq] at h
    obtain ⟨h1, h2⟩ := h
    subst h1 h2
    exact ⟨fun _ _ h => h, fun _ _ _ _ _ hm => by simp [reachedFiles] at hm⟩
  | file name src rest ih =>
    intro dir im locals im' h
    simp only [walkEntries] at h
    cases hf : fileImports m (pathJoin dir name) name src parseMain with
    | error e => rw [hf] at h; simp at h
    | ok o =>
      rw [hf] at h
      cases o with
      | none =>
        simp only at h
        obtain ⟨a, b⟩ := ih dir im locals im' h
        refine ⟨a, ?_⟩
        intro p n s imps pv hm hfi hpv hc
        simp only [reachedFiles, List.mem_cons, Prod.mk.injEq] at hm
        rcases hm with ⟨hp, hn, hs⟩ | hm
        · subst hp hn hs
          rw [hf] at hfi
          simp at hfi
        · exact b p n s imps pv hm hfi hpv hc
      | some imps0 =>
        simp only at h
        cases hr : walkEntries m pkg scanAll parseMain dir rest
            (List.foldl (walkImport pkg) ([], im) imps0).2 with
        | error e => rw [hr] at h; simp at h
        | ok res =>
          obtain ⟨ls, im2⟩ := res
          rw [hr] at h
          simp only [Except.ok.injEq, Prod.mk.injEq] at h
          obtain ⟨h1, h2⟩ := h
          subst h1 h2
          obtain ⟨a, b⟩ := ih dir _ ls im2 hr
          refine ⟨?_, ?_⟩
          · intro i hpre hc
            exact foldl_walkImport_contains pkg hpkg imps0 _ i hpre (a i hpre hc)
          · intro p n s imps pv hm hfi hpv hc
            simp only [reachedFiles, List.mem_cons, Prod.mk.injEq] at hm
            rcases hm with ⟨hp, hn, hs⟩ | hm
            · subst hp hn hs
              rw [hf] at hfi
              simp only [Except.ok.injEq, Option.some.injEq] at hfi
              subst hfi
              exact List.mem_append_left _ (foldl_walkImport_local_mem pkg _ _ pv hpv hc)
            · exact List.mem_append_right _ (b p n s imps pv hm hfi hpv hc)
  | sub name content rest ihc ihr =>
    intro dir im locals im' h
    simp only [walkEntries] at h
    split at h
    · rename_i hex
      obtain ⟨a, b⟩ := ihr dir im locals im' h
      refine ⟨a, fun p n s imps pv hm => b p n s imps pv ?_⟩
      simpa [reachedFiles, hex] using hm
    · rename_i hex
      split at h
      · rename_i hall
        cases hc1 : walkEntries m pkg scanAll parseMain (pathJoin dir name) content im with
        | error e => rw [hc1] at h; simp at h
        | ok res1 =>
          obtain ⟨l1, im1⟩ := res1
          rw [hc1] at h
          simp only at h
          cases hc2 : walkEntries m pkg scanAll parseMain dir rest im1 with
          | error e => rw [hc2] at h; simp at h
          | ok res2 =>
            obtain ⟨l2, im2⟩ := res2
            rw [hc2] at h
            simp only [Except.ok.injEq, Prod.mk.injEq] at h
            obtain ⟨h1, h2⟩ := h
            subst h1 h2
            obtain ⟨a1, b1⟩ := ihc _ im l1 im1 hc1
            obtain ⟨a2, b2⟩ := ihr dir im1 l2 im2 hc2
            refine ⟨fun i hpre hc => a1 i hpre (a2 i hpre hc), ?_⟩
            intro p n s imps pv hm hfi hpv hc
            simp only [reachedFiles, List.mem_append] at hm
            rcases hm with hm | hm
            · split at hm
              · exact List.mem_append_left _ (b1 p n s imps pv hm hfi hpv hc)
              · simp at hm
            · exact List.mem_append_right _ (b2 p n s imps pv hm hfi hpv hc)
      · rename_i hall
        obtain ⟨a, b⟩ := ihr dir im locals im' h
        refine ⟨a, fun p n s imps pv hm => b p n s imps pv ?_⟩
        simpa [reachedFiles, hall] using hm

/-- C9. For every non-empty current package path `pkg`, in scan-all and in
scan-listed mode alike, a walk by `walkImports` that returns adds no import
starting with `pkg` to the external import set; and each such import declared
by a file the walk reaches and scans (a file of the directory and, in scan-all
mode, of the directories below it that are not excluded) is among the locals
returned when it has a slash, is not relative and its first segment (the text
before the first slash) contains a dot, which is the walker's test for a
domain-like first segment. -/
theorem C9_local_never_external (m : Manifest) (fs : Dir) (pkg dir : Str) (scanAll : Bool)
    (importsMap : GoMap Unit) (parseMain : Bool) (locals : List Str) (im' : GoMap Unit)
    (hpkg : pkg ≠ [])
    (h : walkImports m fs pkg dir scanAll importsMap parseMain = .ok (locals, im')) :
    (∀ i, pkg <+: i → im'.contains i = true → importsMap.contains i = true) ∧
    (∀ files path name src imps pv, readDir fs dir = some files →
      (path, name, src) ∈ reachedFiles m scanAll dir files →
      fileImports m path name src parseMain = .ok (some imps) → pv ∈ imps →
      pkg <+: removeChar '"' pv → '/' ∈ removeChar '"' pv →
      ¬"./".toList <+: removeChar '"' pv → ¬"../".toList <+: removeChar '"' pv →
      '.' ∈ firstSegment (removeChar '"' pv) →
      removeChar '"' pv ∈ locals) := by
  unfold walkImports at h
  cases hrd : readDir fs dir with
  | none => rw [hrd] at h; simp at h
  | some files =>
    rw [hrd] at h
    simp only at h
    obtain ⟨a, b⟩ := walkEntries_local m pkg hpkg scanAll parseMain files dir importsMap
      locals im' h
    refine ⟨a, ?_⟩
    intro files' path name src imps pv hf hm hfi hpv hpre h1 h2 h3 h4
    simp only [Option.some.injEq] at hf
    subst hf
    refine b path name src imps pv hm hfi hpv ?_
    rw [classifyImport_eq_ref]
    unfold classifyRef
    have hd : ¬('/' ∉ removeChar '"' pv ∨ "./".toList <+: removeChar '"' pv ∨
        "../".toList <+: removeChar '"' pv ∨ '.' ∉ firstSegment (removeChar '"' pv)) := by
      rintro (h | h | h | h)
      · exact h h1
      · exact h2 h
      · exact h3 h
      · exact h h4
    rw [if_neg hd, if_pos (Or.inl ⟨hpkg, hpre⟩)]

/-- C9 at a concrete input: the directory of `github.com/x/a` has a file
importing `github.com/x/a/util` and `github.com/y/b`, and a directory `in`
with a file importing `github.com/x/a/deep`. The walk of the listed directory
reports `util` among the locals, the walk of everything reports `util` and
`deep`, and either puts only `github.com/y/b` in the import set. -/
theorem C9_local_never_external_witness :
    walkImports {} nestedLocalTree "github.com/x/a".toList "a".toList false [] false =
      .ok (["github.com/x/a/util".toList], [("github.com/y/b".toList, ())]) ∧
    walkImports {} nestedLocalTree "github.com/x/a".toList "a".toList true [] false =
      .ok (["github.com/x/a/util".toList, "github.com/x/a/deep".toList],
        [("github.com/y/b".toList, ())]) ∧
    (∀ i, "github.com/x/a".toList <+: i →
      GoMap.contains [("github.com/y/b".toList, ())] i = true →
      GoMap.contains ([] : GoMap Unit) i = true) ∧
    "github.com/x/a/deep".toList ∈
      ["github.com/x/a/util".toList, "github.com/x/a/deep".toList] :=
  ⟨rfl, rfl,
    (C9_local_never_external {} nestedLocalTree "github.com/x/a".toList "a".toList true []
      false ["github.com/x/a/util".toList, "github.com/x/a/deep".toList]
      [("github.com/y/b".toList, ())] (by decide) rfl).1,
    (C9_local_never_external {} nestedLocalTree "github.com/x/a".toList "a".toList true []
      false ["github.com/x/a/util".toList, "github.com/x/a/deep".toList]
      [("github.com/y/b".toList, ())] (by decide) rfl).2
      ((readDir nestedLocalTree "a".toList).getD .nil) "a/in/i.go".toList "i.go".toList
      (sourceFile ["github.com/x/a/deep".toList])
      ['"' :: "github.com/x/a/deep".toList ++ ['"']]
      ('"' :: "github.com/x/a/deep".toList ++ ['"'])
      (by decide) (by decide) rfl (by decide) (by decide) (by decide) (by decide)
      (by decide) (by decide)⟩

/-! ## C8: build tags -/

/-- `strIndex` finds the first occurrence. -/
theorem strIndex_some (s sub : Str) (i : Nat) (h : strIndex s sub = some i) :
    ∃ pre rest, s = pre ++ sub ++ rest ∧ pre.length = i ∧
      ∀ pre' rest', s = pre' ++ sub ++ rest' → i ≤ pre'.length := by
  induction s generalizing i with
  | nil =>
    unfold strIndex at h
    split at h
    · rename_i hs
      simp only [Option.some.injEq] at h
      subst h hs
      exact ⟨[], [], rfl, rfl, fun _ _ _ => Nat.zero_le _⟩
    · simp at h
  | cons c cs ih =>
    unfold strIndex at h
    split at h
    · rename_i hp
      simp only [Option.some.injEq] at h
      subst h
      obtain ⟨rest, hr⟩ := (hasPrefix_iff _ _).mp hp
      exact ⟨[], rest, by simpa using hr.symm, rfl, fun _ _ _ => Nat.zero_le _⟩
    · rename_i hp
      cases hj : strIndex cs sub with
      | none => rw [hj] at h; simp at h
      | some j =>
        rw [hj] at h
        simp only [Option.map_some', Option.some.injEq] at h
        subst h
        obtain ⟨pre, rest, h1, h2, h3⟩ := ih j hj
        refine ⟨c :: pre, rest, by simp [h1], by simp [h2], ?_⟩
        intro pre' rest' he
        cases pre' with
        | nil =>
          exfalso
          apply hp
          exact (hasPrefix_iff _ _).mpr ⟨rest', by simpa using he.symm⟩
        | cons x xs =>
          simp only [List.cons_append, List.cons.injEq] at he
          have := h3 xs rest' (by simpa using he.2)
          simp only [List.length_cons]
          omega

theorem strIndex_none (s sub : Str) (h : strIndex s sub = none) (pre rest : Str) :
    s ≠ pre ++ sub ++ rest := by
  induction s generalizing pre with
  | nil =>
    unfold strIndex at h
    split at h
    · simp at h
    · rename_i hs
      intro he
      have := congrArg List.length he
      simp only [List.length_nil, List.length_append] at this
      apply hs
      exact List.length_eq_zero.mp (by omega)
  | cons c cs ih =>
    unfold strIndex at h
    split at h
    · simp at h
    · rename_i hp
      cases hj : strIndex cs sub with
      | some j => rw [hj] at h; simp at h
      | none =>
        intro he
        cases pre with
        | nil =>
          apply hp
          exact (hasPrefix_iff _ _).mpr ⟨rest, by simpa using he.symm⟩
        | cons x xs =>
          simp only [List.cons_append, List.cons.injEq] at he
          exact ih hj xs (by simpa using he.2)

theorem hasSuffix_iff (s suf : Str) : hasSuffix s suf = true ↔ suf <:+ s := by
  unfold hasSuffix
  rw [hasPrefix_iff, List.reverse_prefix]

/-- On a line whose first `+build` ends the line or is followed by a blank, the
test of the scan loop is the claim's condition on a line. -/
theorem lineExcludes_iff (m : Manifest) (line : Str)
    (hwf : "//".toList <+: line → ∀ pre rest, line = pre ++ "+build".toList ++ rest →
      (∀ pre' rest', line = pre' ++ "+build".toList ++ rest' → pre.length ≤ pre'.length) →
      rest = [] ∨ ∃ rest', rest = ' ' :: rest') :
    lineExcludes m line = true ↔ ExcludingLine m.ExcludeBuild line := by
  have hB : "+build ".toList = "+build".toList ++ [' '] := by decide
  have hlen : "+build".toList.length = 6 := by decide
  have hlen7 : "+build ".length = 7 := by decide
  have hlenB : "+build ".toList.length = 7 := by decide
  constructor
  · intro h
    unfold lineExcludes at h
    cases hi : strIndex line "+build".toList with
    | none => rw [hi] at h; simp at h
    | some idx =>
      rw [hi] at h
      simp only [hlen7] at h
      split at h
      · simp at h
      · rename_i hc
        simp only [Bool.or_eq_true, Bool.not_eq_true', decide_eq_true_eq, not_or,
          Bool.not_eq_false, not_le] at hc
        obtain ⟨hpre, hlt⟩ := hc
        have hpre' := (hasPrefix_iff _ _).mp hpre
        obtain ⟨pre, rest, h1, h2, h3⟩ := strIndex_some _ _ _ hi
        have hl : line.length = idx + 6 + rest.length := by
          rw [h1]; simp only [List.length_append, h2, hlen]
        rcases hwf hpre' pre rest h1 (by rw [h2]; exact h3) with hr | ⟨rest', hr⟩
        · subst hr
          simp only [List.length_nil] at hl
          omega
        · subst hr
          have h1' : line = pre ++ "+build ".toList ++ rest' := by
            rw [h1, hB]; simp
          have hdrop : line.drop (idx + 7) = rest' := by
            rw [h1']
            have : (pre ++ "+build ".toList).length = idx + 7 := by
              simp only [List.length_append, h2, hlenB]
            rw [← this, List.drop_left]
          refine ⟨hpre', pre, rest', h1', ?_, ?_, ?_⟩
          · intro pre' r' he
            rw [h2]
            apply h3 pre' (' ' :: r')
            rw [he, hB]; simp
          · intro hnil
            subst hnil
            simp only [List.length_cons, List.length_nil] at hl
            omega
          · intro t ht
            rw [hdrop] at h
            exact List.all_eq_true.mp h t ht
  · rintro ⟨hpre, pre, tags, h1, hmin, hne, hall⟩
    unfold lineExcludes
    have h1b : line = pre ++ "+build".toList ++ (' ' :: tags) := by
      rw [h1, hB]; simp
    cases hi : strIndex line "+build".toList with
    | none => exact absurd h1b (strIndex_none _ _ hi _ _)
    | some idx =>
      obtain ⟨p0, r0, g1, g2, g3⟩ := strIndex_some _ _ _ hi
      have hle : idx ≤ pre.length := g3 pre _ h1b
      have hl1 : line.length = pre.length + 7 + tags.length := by
        rw [h1]; simp only [List.length_append, hlenB]
      have hl0 : line.length = idx + 6 + r0.length := by
        rw [g1]; simp only [List.length_append, g2, hlen]
      have htl : 0 < tags.length := List.length_pos.mpr hne
      rcases hwf hpre p0 r0 g1 (by rw [g2]; exact g3) with hr | ⟨r0', hr⟩
      · subst hr
        simp only [List.length_nil] at hl0
        omega
      · subst hr
        have g1' : line = p0 ++ "+build ".toList ++ r0' := by
          rw [g1, hB]; simp
        have hge : pre.length ≤ p0.length := hmin p0 r0' g1'
        have hpl : p0.length = pre.length := by omega
        have hpp : p0 = pre := by
          have e := g1'
          rw [h1] at e
          simp only [List.append_assoc] at e
          exact (List.append_inj_left e hpl.symm).symm
        subst hpp
        have htags : r0' = tags := by
          have e := g1'
          rw [h1] at e
          simp only [List.append_assoc, List.append_cancel_left_eq] at e
          exact e.symm
        subst htags
        have hdrop : line.drop (idx + 7) = r0' := by
          rw [g1']
          have : (p0 ++ "+build ".toList).length = idx + 7 := by
            simp only [List.length_append, g2, hlenB]
          rw [← this, List.drop_left]
        simp only [hlen7]
        have hc : ¬((!hasPrefix line "//".toList || decide (idx + 7 ≥ line.length)) = true) := by
          simp only [Bool.or_eq_true, Bool.not_eq_true', decide_eq_true_eq, not_or,
            Bool.not_eq_false, not_le]
          exact ⟨(hasPrefix_iff _ _).mpr hpre, by omega⟩
        rw [if_neg hc, hdrop]
        exact List.all_eq_true.mpr hall

theorem scanLoop_iff (m : Manifest) (lines : List Str)
    (hwf : WellFormedLines (linesBeforePackage lines)) :
    scanLoop m lines = true ↔
      ∃ line ∈ linesBeforePackage lines, ExcludingLine m.ExcludeBuild line := by
  induction lines with
  | nil => simp [scanLoop, linesBeforePackage]
  | cons line rest ih =>
    unfold scanLoop
    by_cases hp : "package".toList <+: line
    · have e : hasPrefix line "package".toList = true := (hasPrefix_iff _ _).mpr hp
      have hd : (decide (¬("package".toList <+: line))) = false := decide_eq_false (not_not.mpr hp)
      unfold linesBeforePackage
      rw [List.takeWhile_cons, hd]
      simp only [e, if_true]
      simp
    · have e : hasPrefix line "package".toList = false := by
        cases h : hasPrefix line "package".toList with
        | false => rfl
        | true => exact absurd ((hasPrefix_iff _ _).mp h) hp
      have hlb : linesBeforePackage (line :: rest) = line :: linesBeforePackage rest := by
        have hd : (decide (¬("package".toList <+: line))) = true := decide_eq_true hp
        unfold linesBeforePackage
        rw [List.takeWhile_cons, hd]
        rfl
      have hwfl := hwf line (by rw [hlb]; exact List.mem_cons_self _ _)
      have hwfr : WellFormedLines (linesBeforePackage rest) := by
        intro l hl
        exact hwf l (by rw [hlb]; exact List.mem_cons_of_mem _ hl)
      have hline := lineExcludes_iff m line hwfl
      rw [hlb]
      simp only [e, Bool.false_eq_true, if_false, List.mem_cons, exists_eq_or_imp]
      by_cases hx : lineExcludes m line = true
      · simp only [hx, if_true, true_iff]
        exact Or.inl (hline.mp hx)
      · simp only [hx, Bool.false_eq_true, if_false, ih hwfr]
        constructor
        · exact Or.inr
        · rintro (h | h)
          · exact absurd (hline.mpr h) hx
          · exact h

theorem nameHasExcludedTag_iff (m : Manifest) (name : Str) :
    nameHasExcludedTag m name = true ↔
      ∃ t ∈ m.ExcludeBuild.keys, ('_' :: t ++ ".go".toList) <:+ name := by
  unfold nameHasExcludedTag
  simp only [List.any_eq_true, hasSuffix_iff]

/-- When the package clause opens the first line that starts with `package`,
the lines before that line are the lines preceding the clause. -/
theorem takeWhile_eq_take {α : Type} (p : α → Bool) (l : List α) :
    ∀ k, (∀ x ∈ l.take k, p x = true) → (∃ x, l[k]? = some x ∧ p x = false) →
      l.takeWhile p = l.take k := by
  induction l with
  | nil => intro k _ h2; simp at h2
  | cons a t ih =>
    intro k h1 h2
    cases k with
    | zero =>
      obtain ⟨x, hx, hp⟩ := h2
      simp only [List.getElem?_cons_zero, Option.some.injEq] at hx
      subst hx
      simp [List.takeWhile_cons, hp]
    | succ k =>
      have ha : p a = true := h1 a (by simp)
      have h1' : ∀ x ∈ t.take k, p x = true := fun x hx => h1 x (by simp [hx])
      have h2' : ∃ x, t[k]? = some x ∧ p x = false := by
        obtain ⟨x, hx, hp⟩ := h2
        exact ⟨x, by simpa using hx, hp⟩
      simp only [List.takeWhile_cons, ha, if_true, List.take_succ_cons, ih k h1' h2']

theorem linesBeforePackage_of_clause (src : GoFile) (h : ClauseOpensLine src) :
    linesBeforePackage src.lines = linesBeforeClause src := by
  unfold linesBeforePackage linesBeforeClause
  apply takeWhile_eq_take
  · intro x hx
    exact decide_eq_true (h.1 x hx)
  · obtain ⟨line, h1, h2⟩ := h.2
    exact ⟨line, h1, decide_eq_false (not_not.mpr h2)⟩

/-- C8, amended. With a non-empty excluded-tag set, take a source file that is
not passed over for another reason (its name ends in `.go`, it parses, has
imports, is not an unwanted `main` file, can be opened and read), whose
package clause opens the first line that starts with the word `package`, and
whose constraint lines are well formed (in each `//` line preceding the
package clause the first `+build` ends the line or is followed by a blank).
The file is omitted from import scanning if and only if one of the lines
preceding its package clause is a `//` line carrying `+build ` followed by
tags all of which are excluded, or its name ends in `_<excluded tag>.go`;
otherwise it contributes its imports. -/
theorem C8_build_tag_exclusion (m : Manifest) (path name : Str) (src : GoFile)
    (parseMain : Bool)
    (hne : m.ExcludeBuild.length ≠ 0) (hgo : ".go".toList <:+ name)
    (hparse : src.parses = true) (himp : src.imports.length ≠ 0)
    (hmain : parseMain = true ∨ src.pkgName ≠ "main".toList)
    (hopen : src.openFails = false) (hscan : src.scanFails = false)
    (hclause : ClauseOpensLine src)
    (hwf : BuildLinesWellFormed src) :
    (fileImports m path name src parseMain = .ok none ↔ BuildExcluded m name src) ∧
    (¬BuildExcluded m name src →
      fileImports m path name src parseMain = .ok (some src.imports)) := by
  have hgo' : hasSuffix name ".go".toList = true := (hasSuffix_iff _ _).mpr hgo
  have hmain' : (!parseMain && decide (src.pkgName = "main".toList)) = false := by
    rcases hmain with h | h
    · simp [h]
    · rw [decide_eq_false h, Bool.and_false]
  have hfi : fileImports m path name src parseMain =
      if nameHasExcludedTag m name = true then .ok none
      else if scanLoop m src.lines = true then .ok none
      else .ok (some src.imports) := by
    unfold fileImports
    simp only [hgo', hparse, hmain', hopen, hscan, Bool.not_true, Bool.false_eq_true, if_false,
      himp, hne, ne_eq, not_false_eq_true, if_true, Bool.false_and]
  have hlb := linesBeforePackage_of_clause src hclause
  have hiff : (nameHasExcludedTag m name = true ∨ scanLoop m src.lines = true) ↔
      BuildExcluded m name src := by
    unfold BuildExcluded
    rw [nameHasExcludedTag_iff, scanLoop_iff m src.lines (by rw [hlb]; exact hwf), hlb]
    exact Or.comm
  rw [hfi]
  constructor
  · rw [← hiff]
    by_cases h1 : nameHasExcludedTag m name = true
    · simp [h1]
    · by_cases h2 : scanLoop m src.lines = true
      · simp [h1, h2]
      · simp [h1, h2]
  · intro hn
    rw [← hiff] at hn
    simp only [not_or] at hn
    rw [if_neg hn.1, if_neg hn.2]

theorem buildLinesWellFormed_of_check (src : GoFile)
    (h : (linesBeforeClause src).all wellFormedLine = true) :
    BuildLinesWellFormed src := by
  intro line hl hpre pre rest e hmin
  have hlen : "+build".toList.length = 6 := by decide
  have hlen6 : "+build".length = 6 := by decide
  have hw := List.all_eq_true.mp h line hl
  unfold wellFormedLine at hw
  have hp : hasPrefix line "//".toList = true := (hasPrefix_iff _ _).mpr hpre
  rw [hp] at hw
  simp only [Bool.not_true, Bool.false_or] at hw
  cases hi : strIndex line "+build".toList with
  | none => exact absurd e (strIndex_none _ _ hi pre rest)
  | some i =>
    obtain ⟨pre0, rest0, e0, hl0, hmin0⟩ := strIndex_some _ _ _ hi
    have h1 : pre.length ≤ i := hl0 ▸ hmin pre0 rest0 e0
    have h2 : i ≤ pre.length := hmin0 pre rest e
    have hi' : i = pre.length := Nat.le_antisymm h2 h1
    have hd : line.drop (i + "+build".length) = rest := by
      rw [e, hi', hlen6, List.append_assoc, ← List.drop_drop, List.drop_left,
        ← hlen, List.drop_left]
    rw [hi] at hw
    simp only [hd] at hw
    cases rest with
    | nil => exact Or.inl rfl
    | cons c cs =>
      simp only [beq_iff_eq] at hw
      exact Or.inr ⟨cs, by rw [hw]⟩

/-- C8, counterexamples. With `windows` excluded: a file whose only line
before the package clause is `// +build<TAB>windows` and which imports one
package is omitted from import scanning, although no line of it carries
`+build ` and its name does not end in `_windows.go`; and a file in which a
block comment with a line starting with the word `package` comes before the
line `// +build windows` contributes its imports, although that line precedes
its package clause and all its tags are excluded. -/
theorem C8_counterexample_tab :
    ({ ExcludeBuild := [("windows".toList, ())] } : Manifest).ExcludeBuild.length ≠ 0 ∧
    tabConstraintFile.imports.length ≠ 0 ∧
    fileImports { ExcludeBuild := [("windows".toList, ())] } "a/a.go".toList "a.go".toList
      tabConstraintFile true = .ok none ∧
    ¬BuildExcluded { ExcludeBuild := [("windows".toList, ())] } "a.go".toList
      tabConstraintFile ∧
    fileImports { ExcludeBuild := [("windows".toList, ())] } "a/a.go".toList "a.go".toList
      commentedConstraintFile true = .ok (some commentedConstraintFile.imports) ∧
    BuildExcluded { ExcludeBuild := [("windows".toList, ())] } "a.go".toList
      commentedConstraintFile := by
  refine ⟨by decide, by decide, rfl, ?_, rfl, ?_⟩
  · rintro (⟨line, hl, _, pre, tags, e, _⟩ | ⟨t, ht, hs⟩)
    · have hlb : linesBeforeClause tabConstraintFile =
          ["// +build".toList ++ Char.ofNat 9 :: "windows".toList] := by decide
      rw [hlb, List.mem_singleton] at hl
      subst hl
      have hin : "+build ".toList <:+:
          ("// +build".toList ++ Char.ofNat 9 :: "windows".toList) := ⟨pre, tags, e.symm⟩
      exact absurd hin (by decide)
    · have hk : GoMap.keys ([("windows".toList, ())] : GoMap Unit) = ["windows".toList] := rfl
      change t ∈ GoMap.keys ([("windows".toList, ())] : GoMap Unit) at ht
      rw [hk, List.mem_singleton] at ht
      subst ht
      exact absurd hs (by decide)
  · refine Or.inl ⟨"// +build windows".toList, by decide, by decide, "// ".toList,
      "windows".toList, by decide, ?_, by decide, by decide⟩
    intro pre' rest' e
    have hi : strIndex "// +build windows".toList "+build ".toList = some 3 := by decide
    obtain ⟨_, _, _, _, hmin⟩ := strIndex_some _ _ _ hi
    exact hmin pre' rest' e

/-- C8, witness: the two files of the test. With `go1.2`, `windows`, `386` and
`integration` excluded, the file with the lines `// +build linux` and
`// +build 386 amd64` is not excluded and contributes its imports, and so does
the file with `// +build linux` and `// +build 3867 darwin`: the walk of the
directory holding both puts `govalidator`, `wrong` and `some` in the import
set. -/
theorem C8_build_tag_exclusion_witness :
    ¬BuildExcluded testManifest "custom_build_multiple.go".toList customBuildMultiple ∧
    fileImports testManifest "testdata/custom_build_multiple.go".toList
      "custom_build_multiple.go".toList customBuildMultiple true =
        .ok (some customBuildMultiple.imports) ∧
    fileImports testManifest "testdata/custom_build_multiple_negative.go".toList
      "custom_build_multiple_negative.go".toList customBuildMultipleNegative true =
        .ok (some customBuildMultipleNegative.imports) ∧
    (walkImports testManifest customBuildDir "github.com/pkg/path".toList "testdata".toList
      true [] true).map (fun r => r.2.keys) =
      .ok ["github.com/asaskevich/govalidator".toList, "github.com/asaskevich/wrong".toList,
        "github.com/asaskevich/some".toList] := by
  have h := C8_build_tag_exclusion testManifest "testdata/custom_build_multiple.go".toList
    "custom_build_multiple.go".toList customBuildMultiple true (by decide) (by decide) rfl
    (by decide) (Or.inl rfl) rfl rfl
    ⟨by decide, "package some".toList, by decide, by decide⟩
    (buildLinesWellFormed_of_check _ (by decide))
  have hf : fileImports testManifest "testdata/custom_build_multiple.go".toList
      "custom_build_multiple.go".toList customBuildMultiple true =
        .ok (some customBuildMultiple.imports) := rfl
  have hn : ¬BuildExcluded testManifest "custom_build_multiple.go".toList
      customBuildMultiple := by
    intro hb
    have := h.1.mpr hb
    rw [hf] at this
    cases this
  exact ⟨hn, h.2 hn, rfl, rfl⟩

/-! ## C11: the list of external imports -/

theorem getPkgImports_eq (m : Manifest) (fs : Dir) (fuel : Nat) (pkg : Str)
    (subpkgs : List Str) (dir : Str) (isNewPkg fetchAll parseMain : Bool) :
    getPkgImports m fs fuel pkg subpkgs dir isNewPkg fetchAll parseMain =
      match collectImports m fs fuel pkg subpkgs dir isNewPkg fetchAll parseMain with
      | none => none
      | some (.error e) => some (.error e)
      | some (.ok (localPkgs, importsMap)) =>
        some (.ok (sortStrings importsMap.keys, localPkgs,
          (sortStrings importsMap.keys).foldl (groupImport m) [])) := rfl

theorem GoMap.mem_keys_iff_contains {V : Type} (m : GoMap V) (k : Str) :
    k ∈ m.keys ↔ m.contains k = true := by
  constructor
  · intro h
    cases hc : m.contains k with
    | true => rfl
    | false => exact absurd h (GoMap.not_mem_keys_of_not_contains m k hc)
  · exact GoMap.mem_keys_of_contains m k

theorem walkImport_nodup (pkg : Str) (acc : List Str × GoMap Unit) (pv : Str)
    (h : acc.2.keys.Nodup) : (walkImport pkg acc pv).2.keys.Nodup := by
  unfold walkImport
  simp only
  cases classifyImport pkg (removeChar '"' pv) with
  | dropped => exact h
  | «local» => exact h
  | external =>
    simp only
    cases hc : GoMap.contains acc.2 (removeChar '"' pv) with
    | true => simpa using h
    | false =>
      simp only [Bool.false_eq_true, if_false]
      rw [GoMap.keys_set_of_not_contains _ _ _ hc]
      refine List.Nodup.append h (List.nodup_singleton _) ?_
      intro x hx hx'
      rw [List.mem_singleton] at hx'
      subst hx'
      exact GoMap.not_mem_keys_of_not_contains _ _ hc hx

theorem foldl_walkImport_nodup (pkg : Str) (imps : List Str) :
    ∀ acc : List Str × GoMap Unit, acc.2.keys.Nodup →
      (imps.foldl (walkImport pkg) acc).2.keys.Nodup := by
  induction imps with
  | nil => intro acc h; exact h
  | cons pv rest ih =>
    intro acc h
    simp only [List.foldl_cons]
    exact ih _ (walkImport_nodup pkg acc pv h)

theorem walkEntries_nodup (m : Manifest) (pkg : Str) (scanAll parseMain : Bool) (files : Dir) :
    ∀ (dir : Str) (importsMap : GoMap Unit) (r : List Str × GoMap Unit),
      walkEntries m pkg scanAll parseMain dir files importsMap = .ok r →
      importsMap.keys.Nodup → r.2.keys.Nodup := by
  induction files with
  | nil =>
    intro dir im r h hn
    simp only [walkEntries, Except.ok.injEq] at h
    subst h
    exact hn
  | file name src rest ih =>
    intro dir im r h hn
    simp only [walkEntries] at h
    cases hf : fileImports m (pathJoin dir name) name src parseMain with
    | error e => rw [hf] at h; simp at h
    | ok o =>
      rw [hf] at h
      cases o with
      | none => exact ih dir im r h hn
      | some imps0 =>
        simp only at h
        cases hr : walkEntries m pkg scanAll parseMain dir rest
            (List.foldl (walkImport pkg) ([], im) imps0).2 with
        | error e => rw [hr] at h; simp at h
        | ok res =>
          rw [hr] at h
          simp only [Except.ok.injEq] at h
          subst h
          exact ih dir _ res hr (foldl_walkImport_nodup pkg imps0 _ hn)
  | sub name content rest ihc ihr =>
    intro dir im r h hn
    simp only [walkEntries] at h
    split at h
    · exact ihr dir im r h hn
    · split at h
      · cases hc1 : walkEntries m pkg scanAll parseMain (pathJoin dir name) content im with
        | error e => rw [hc1] at h; simp at h
        | ok res1 =>
          rw [hc1] at h
          simp only at h
          cases hc2 : walkEntries m pkg scanAll parseMain dir rest res1.2 with
          | error e => rw [hc2] at h; simp at h
          | ok res2 =>
            rw [hc2] at h
            simp only [Except.ok.injEq] at h
            subst h
            exact ihr dir _ res2 hc2 (ihc _ im res1 hc1 hn)
      · exact ihr dir im r h hn

theorem walkImports_nodup (m : Manifest) (fs : Dir) (pkg dir : Str) (scanAll parseMain : Bool)
    (importsMap : GoMap Unit) (r : List Str × GoMap Unit)
    (h : walkImports m fs pkg dir scanAll importsMap parseMain = .ok r)
    (hn : importsMap.keys.Nodup) : r.2.keys.Nodup := by
  unfold walkImports at h
  cases hrd : readDir fs dir with
  | none => rw [hrd] at h; simp at h
  | some files =>
    rw [hrd] at h
    exact walkEntries_nodup m pkg scanAll parseMain files dir importsMap r h hn

theorem walkListed_nodup (m : Manifest) (fs : Dir) (pkg : Str) (parseMain : Bool)
    (dirs : List Str) :
    ∀ (acc r : GoMap Unit × GoMap Unit × List Str),
      walkListed m fs pkg parseMain dirs acc = .ok r → acc.2.1.keys.Nodup →
      r.2.1.keys.Nodup := by
  induction dirs with
  | nil =>
    intro acc r h hn
    simp only [walkListed, Except.ok.injEq] at h
    subst h
    exact hn
  | cons d rest ih =>
    intro acc r h hn
    obtain ⟨wm, im, nd⟩ := acc
    simp only [walkListed] at h
    cases hw : walkImports m fs pkg (m.VendorPath ++ '/' :: d) false im parseMain with
    | error e => rw [hw] at h; simp at h
    | ok res =>
      rw [hw] at h
      simp only at h
      exact ih _ r h (walkImports_nodup m fs pkg _ false parseMain im res hw hn)

theorem walkRounds_nodup (m : Manifest) (fs : Dir) (pkg : Str) (parseMain : Bool) (fuel : Nat) :
    ∀ (dirs : List Str) (acc r : GoMap Unit × GoMap Unit),
      walkRounds m fs pkg parseMain fuel dirs acc = some (.ok r) → acc.2.keys.Nodup →
      r.2.keys.Nodup := by
  induction fuel with
  | zero =>
    intro dirs acc r h hn
    cases dirs with
    | nil =>
      simp only [walkRounds, Option.some.injEq, Except.ok.injEq] at h
      subst h
      exact hn
    | cons d ds => simp [walkRounds] at h
  | succ n ih =>
    intro dirs acc r h hn
    cases dirs with
    | nil =>
      simp only [walkRounds, Option.some.injEq, Except.ok.injEq] at h
      subst h
      exact hn
    | cons d ds =>
      obtain ⟨wm, im⟩ := acc
      simp only [walkRounds] at h
      cases hl : walkListed m fs pkg parseMain (d :: ds) (wm, im, []) with
      | error e => rw [hl] at h; simp at h
      | ok res =>
        obtain ⟨wm1, im1, nd⟩ := res
        rw [hl] at h
        simp only at h
        exact ih nd (wm1, im1) r h (walkListed_nodup m fs pkg parseMain _ _ _ hl hn)

theorem collectImports_nodup (m : Manifest) (fs : Dir) (fuel : Nat) (pkg : Str)
    (subpkgs : List Str) (dir : Str) (isNewPkg fetchAll parseMain : Bool)
    (r : List Str × GoMap Unit)
    (h : collectImports m fs fuel pkg subpkgs dir isNewPkg fetchAll parseMain = some (.ok r)) :
    r.2.keys.Nodup := by
  unfold collectImports at h
  cases fetchAll with
  | true =>
    simp only [if_true, Option.some.injEq] at h
    exact walkImports_nodup m fs pkg dir true parseMain [] r h List.nodup_nil
  | false =>
    simp only [Bool.false_eq_true, if_false] at h
    split at h
    · simp at h
    · simp at h
    · rename_i wm im hr
      simp only [Option.some.injEq, Except.ok.injEq] at h
      subst h
      exact walkRounds_nodup m fs pkg parseMain fuel _ _ _ hr List.nodup_nil

/-- C11. Whenever the walk of `getPkgImports` ends with an external import set
`importsMap`, the function returns, and the import list it returns is in
strictly ascending lexicographic order (ascending, no duplicates) and has
exactly the members of `importsMap`. -/
theorem C11_sorted_imports (m : Manifest) (fs : Dir) (fuel : Nat) (pkg : Str)
    (subpkgs : List Str) (dir : Str) (isNewPkg fetchAll parseMain : Bool)
    (localPkgs : List Str) (importsMap : GoMap Unit)
    (h : collectImports m fs fuel pkg subpkgs dir isNewPkg fetchAll parseMain =
      some (.ok (localPkgs, importsMap))) :
    ∃ imports depsMap,
      getPkgImports m fs fuel pkg subpkgs dir isNewPkg fetchAll parseMain =
        some (.ok (imports, localPkgs, depsMap)) ∧
      imports.Sorted (· ≤ ·) ∧ imports.Nodup ∧ imports.Sorted (· < ·) ∧
      ∀ i, i ∈ imports ↔ importsMap.contains i = true := by
  have hnd := collectImports_nodup m fs fuel pkg subpkgs dir isNewPkg fetchAll parseMain _ h
  have hperm : (sortStrings importsMap.keys).Perm importsMap.keys :=
    List.perm_insertionSort _ _
  have hs : (sortStrings importsMap.keys).Sorted (· ≤ ·) := List.sorted_insertionSort _ _
  have hn : (sortStrings importsMap.keys).Nodup := hperm.nodup_iff.mpr hnd
  refine ⟨sortStrings importsMap.keys, (sortStrings importsMap.keys).foldl (groupImport m) [],
    ?_, hs, hn, hs.lt_of_le hn, ?_⟩
  · rw [getPkgImports_eq, h]
  · intro i
    rw [hperm.mem_iff]
    exact GoMap.mem_keys_iff_contains _ _

/-- C11, witness: the two fixture files of the test. The walk of `testdata`
collects `govalidator`, `wrong`, `some` in this order, and `getPkgImports`
returns them as `govalidator`, `some`, `wrong`. -/
theorem C11_sorted_imports_witness :
    collectImports testManifest customBuildDir 0 "github.com/pkg/path".toList []
      "testdata".toList true true false =
      some (.ok ([], [("github.com/asaskevich/govalidator".toList, ()),
        ("github.com/asaskevich/wrong".toList, ()),
        ("github.com/asaskevich/some".toList, ())])) ∧
    ∃ depsMap,
      getPkgImports testManifest customBuildDir 0 "github.com/pkg/path".toList []
        "testdata".toList true true false =
        some (.ok (["github.com/asaskevich/govalidator".toList,
          "github.com/asaskevich/some".toList, "github.com/asaskevich/wrong".toList],
          [], depsMap)) := by
  have hc : collectImports testManifest customBuildDir 0 "github.com/pkg/path".toList []
      "testdata".toList true true false =
      some (.ok ([], [("github.com/asaskevich/govalidator".toList, ()),
        ("github.com/asaskevich/wrong".toList, ()),
        ("github.com/asaskevich/some".toList, ())])) := rfl
  obtain ⟨imports, depsMap, hg, -, -, -, -⟩ :=
    C11_sorted_imports testManifest customBuildDir 0 "github.com/pkg/path".toList []
      "testdata".toList true true false [] _ hc
  refine ⟨hc, depsMap, ?_⟩
  rw [hg]
  have hd : getPkgImports testManifest customBuildDir 0 "github.com/pkg/path".toList []
      "testdata".toList true true false =
      some (.ok (["github.com/asaskevich/govalidator".toList,
        "github.com/asaskevich/some".toList, "github.com/asaskevich/wrong".toList], [],
        (["github.com/asaskevich/govalidator".toList,
          "github.com/asaskevich/some".toList, "github.com/asaskevich/wrong".toList].foldl
          (groupImport testManifest) []))) := rfl
  rw [hg] at hd
  simp only [Option.some.injEq, Except.ok.injEq, Prod.mk.injEq] at hd
  rw [hd.1]

/-! ## C12: excluded directories -/

theorem getLast?_cons_of_ne_nil {α : Type} (a : α) {l : List α} (h : l ≠ []) :
    (a :: l).getLast? = l.getLast? := by
  cases l with
  | nil => exact absurd rfl h
  | cons b bs => exact List.getLast?_cons_cons

theorem lastIndexChar_none (c : Char) (s : Str) (h : lastIndexChar c s = none) :
    strSplit c s = [s] := by
  induction s with
  | nil => rfl
  | cons x xs ih =>
    unfold lastIndexChar at h
    cases hl : lastIndexChar c xs with
    | some i => rw [hl] at h; simp at h
    | none =>
      rw [hl] at h
      simp only at h
      have hx : ¬x = c := by
        intro hx
        rw [if_pos hx] at h
        simp at h
      simp only [strSplit, hx, if_false, ih hl]

theorem lastIndexChar_of_strSplit_single (c : Char) (s : Str) (h : strSplit c s = [s]) :
    lastIndexChar c s = none := by
  induction s with
  | nil => rfl
  | cons x xs ih =>
    by_cases hx : x = c
    · simp [strSplit, hx] at h
    · simp only [strSplit, hx, if_false] at h
      cases hsp : strSplit c xs with
      | nil => exact absurd hsp (strSplit_ne_nil _ _)
      | cons a b =>
        rw [hsp] at h
        simp only [List.cons.injEq] at h
        obtain ⟨⟨-, ha⟩, hb⟩ := h
        subst ha hb
        simp only [lastIndexChar, ih hsp, hx, if_false]

theorem lastSegment_cons (x : Char) (xs : Str) (j : Nat) (hl : lastIndexChar '/' xs = some j) :
    lastSegment (x :: xs) = lastSegment xs := by
  unfold lastSegment
  by_cases hx : x = '/'
  · simp only [strSplit, hx, if_true]
    rw [getLast?_cons_of_ne_nil _ (strSplit_ne_nil _ _)]
  · simp only [strSplit, hx, if_false]
    cases hsp : strSplit '/' xs with
    | nil => exact absurd hsp (strSplit_ne_nil _ _)
    | cons seg rest =>
      cases rest with
      | nil =>
        exfalso
        have hj := strJoin_strSplit '/' xs
        rw [hsp] at hj
        simp only [strJoin] at hj
        subst hj
        rw [lastIndexChar_of_strSplit_single _ _ hsp] at hl
        simp at hl
      | cons r rs => simp

/-- The directory name `dirIsExcluded` computes is the last segment, and a
path holding a `/` ends in `/` and that name. -/
theorem lastIndexChar_some (s : Str) (i : Nat) (h : lastIndexChar '/' s = some i) :
    s.drop (i + 1) = lastSegment s ∧ ('/' :: lastSegment s) <:+ s := by
  induction s generalizing i with
  | nil => simp [lastIndexChar] at h
  | cons x xs ih =>
    unfold lastIndexChar at h
    cases hl : lastIndexChar '/' xs with
    | some j =>
      rw [hl] at h
      simp only [Option.some.injEq] at h
      subst h
      obtain ⟨h1, h2⟩ := ih j hl
      rw [lastSegment_cons x xs j hl]
      refine ⟨?_, ?_⟩
      · simpa using h1
      · exact h2.trans (List.suffix_cons _ _)
    | none =>
      rw [hl] at h
      simp only at h
      by_cases hx : x = '/'
      · rw [if_pos hx] at h
        simp only [Option.some.injEq] at h
        subst h hx
        have hls : lastSegment ('/' :: xs) = xs := by
          unfold lastSegment
          simp [strSplit, lastIndexChar_none _ _ hl]
        rw [hls]
        exact ⟨rfl, List.suffix_refl _⟩
      · rw [if_neg hx] at h
        simp at h

theorem lastIndexChar_isSome (s : Str) (h : '/' ∈ s) : ∃ i, lastIndexChar '/' s = some i := by
  cases hl : lastIndexChar '/' s with
  | some i => exact ⟨i, rfl⟩
  | none =>
    exfalso
    have hsp := lastIndexChar_none _ _ hl
    have : ∀ (u : Str), lastIndexChar '/' u = none → '/' ∉ u := by
      intro u
      induction u with
      | nil => intro _ hm; simp at hm
      | cons y ys ihu =>
        intro hu hm
        unfold lastIndexChar at hu
        cases hys : lastIndexChar '/' ys with
        | some k => rw [hys] at hu; simp at hu
        | none =>
          rw [hys] at hu
          simp only at hu
          by_cases hy : y = '/'
          · rw [if_pos hy] at hu; simp at hu
          · rcases List.mem_cons.mp hm with he | he
            · exact hy he.symm
            · exact ihu hys he
    exact this s hl h

theorem dirIsExcluded_of_parent (m : Manifest) (path : Str) (hs : '/' ∈ path)
    (h : ExcludedName m (lastSegment path)) : dirIsExcluded m path = true := by
  obtain ⟨i, hi⟩ := lastIndexChar_isSome path hs
  obtain ⟨h1, h2⟩ := lastIndexChar_some path i hi
  unfold dirIsExcluded
  simp only [hi, h1]
  split
  · rfl
  · have hany : ∀ excl ∈ ["testdata".toList, "_testdata".toList] ++ m.ExcludeDir.keys,
        excl = lastSegment path →
        (["testdata".toList, "_testdata".toList] ++ m.ExcludeDir.keys).any (fun excl =>
          hasSuffix path ('/' :: excl) ||
            strContains ('/' :: path) ('/' :: excl ++ ['/'])) = true := by
      intro excl hmem he
      refine List.any_eq_true.mpr ⟨excl, hmem, ?_⟩
      rw [Bool.or_eq_true]
      left
      rw [he]
      exact (hasSuffix_iff _ _).mpr h2
    rename_i hcond
    rcases h with h | h | h | h | h
    · exact absurd (Or.inr (Or.inl ((hasPrefix_iff _ _).mpr h))) hcond
    · exact absurd (Or.inl h) hcond
    · exact hany _ (by simp) h.symm
    · exact hany _ (by simp) h.symm
    · exact hany _ (List.mem_append_right _ (GoMap.mem_keys_of_contains _ _ h)) rfl

theorem dirIsExcluded_bare (m : Manifest) (name : Str) (hs : '/' ∉ name)
    (h : ['.'] <+: name ∨ name = "vendor".toList ∨ name = "_testdata".toList) :
    dirIsExcluded m name = true := by
  have hl : lastIndexChar '/' name = none := by
    cases hl : lastIndexChar '/' name with
    | none => rfl
    | some i =>
      exfalso
      obtain ⟨-, t, ht⟩ := lastIndexChar_some name i hl
      exact hs (by rw [← ht]; simp)
  unfold dirIsExcluded
  simp only [hl]
  rcases h with h | h | h
  · rw [if_pos (Or.inr (Or.inl ((hasPrefix_iff _ _).mpr h)))]
  · rw [if_pos (Or.inl h)]
  · subst h
    rfl

/-- C12. The failing case: the bare name `testdata`, and the bare name of a
configured directory, are not excluded, so that the scan of a project from
`./` (where the joined path of a top-level directory is its bare name) walks
into the project's `testdata` and collects the imports of its fixtures. For
the rest the claim holds: a path with a parent segment is excluded whenever
its last segment is an excluded name, and a bare name is excluded when it
starts with `.`, is `vendor` or is `_testdata`. -/
theorem C12_bare_name_not_excluded :
    dirIsExcluded {} "testdata".toList = false ∧
    dirIsExcluded { ExcludeDir := [("test".toList, ())] } "test".toList = false ∧
    pathJoin "./".toList "testdata".toList = "testdata".toList ∧
    (walkImports {} projectWithFixtures "github.com/me/proj".toList "./".toList true []
      true).map (fun r => r.2.keys) =
      .ok ["github.com/y/b".toList, "github.com/z/fixture".toList] ∧
    (∀ (m : Manifest) (path : Str), '/' ∈ path → ExcludedName m (lastSegment path) →
      dirIsExcluded m path = true) ∧
    (∀ (m : Manifest) (name : Str), '/' ∉ name →
      ['.'] <+: name ∨ name = "vendor".toList ∨ name = "_testdata".toList →
      dirIsExcluded m name = true) :=
  ⟨by decide, by decide, by decide, rfl, dirIsExcluded_of_parent, dirIsExcluded_bare⟩

/-! ## C13: the root of a package path -/

theorem strSplit_of_not_mem (sep : Char) (s : Str) (h : sep ∉ s) : strSplit sep s = [s] := by
  induction s with
  | nil => rfl
  | cons c cs ih =>
    have hc : ¬c = sep := fun he => h (by rw [he]; exact List.mem_cons_self _ _)
    have hcs : sep ∉ cs := fun hm => h (List.mem_cons_of_mem _ hm)
    simp only [strSplit, hc, if_false, ih hcs]

/-- C13. For every import path: with at least three `/`-separated segments and
one of the four known hosts as first segment, `getPkgRoot` returns the first
three segments joined by `/`; for every other path it returns the path
unchanged. In terms of the text: `host/a/b` and `host/a/b/rest` both have the
root `host/a/b` for a known host, whatever `rest` is. -/
theorem C13_package_root (pkg : Str) :
    (3 ≤ (strSplit '/' pkg).length → (∃ host ∈ knownHosts, (strSplit '/' pkg).head? = some host) →
      getPkgRoot pkg = strJoin '/' ((strSplit '/' pkg).take 3)) ∧
    (¬(3 ≤ (strSplit '/' pkg).length ∧
        ∃ host ∈ knownHosts, (strSplit '/' pkg).head? = some host) →
      getPkgRoot pkg = pkg) ∧
    (∀ host a b rest : Str, host ∈ knownHosts → '/' ∉ a → '/' ∉ b →
      (pkg = host ++ '/' :: a ++ '/' :: b ∨ pkg = host ++ '/' :: a ++ '/' :: b ++ '/' :: rest) →
      getPkgRoot pkg = host ++ '/' :: a ++ '/' :: b) := by
  have hhost : (∃ host ∈ knownHosts, (strSplit '/' pkg).head? = some host) ↔
      ((strSplit '/' pkg).head? = some "github.com".toList ∨
        (strSplit '/' pkg).head? = some "gopkg.in".toList ∨
        (strSplit '/' pkg).head? = some "golang.org".toList ∨
        (strSplit '/' pkg).head? = some "gitlab.com".toList) := by
    unfold knownHosts
    constructor
    · rintro ⟨host, hm, hh⟩
      simp only [List.mem_cons, List.mem_singleton, List.not_mem_nil, or_false] at hm
      rcases hm with h | h | h | h <;> subst h
      · exact Or.inl hh
      · exact Or.inr (Or.inl hh)
      · exact Or.inr (Or.inr (Or.inl hh))
      · exact Or.inr (Or.inr (Or.inr hh))
    · rintro (h | h | h | h)
      · exact ⟨_, by simp, h⟩
      · exact ⟨_, by simp, h⟩
      · exact ⟨_, by simp, h⟩
      · exact ⟨_, by simp, h⟩
  have h1 : 3 ≤ (strSplit '/' pkg).length →
      (∃ host ∈ knownHosts, (strSplit '/' pkg).head? = some host) →
      getPkgRoot pkg = strJoin '/' ((strSplit '/' pkg).take 3) := by
    intro hlen hh
    unfold getPkgRoot
    simp only
    rw [if_neg (by omega), if_pos (hhost.mp hh)]
  refine ⟨h1, ?_, ?_⟩
  · intro hn
    unfold getPkgRoot
    simp only
    by_cases hlen : (strSplit '/' pkg).length < 3
    · rw [if_pos hlen]
    · rw [if_neg hlen, if_neg]
      intro hh
      exact hn ⟨by omega, hhost.mpr hh⟩
  · intro host a b rest hm ha hb hp
    have hhs : '/' ∉ host := by
      unfold knownHosts at hm
      simp only [List.mem_cons, List.mem_singleton, List.not_mem_nil, or_false] at hm
      rcases hm with h | h | h | h <;> subst h <;> decide
    have hsplit : ∃ tail, strSplit '/' pkg = host :: a :: b :: tail := by
      rcases hp with hp | hp
      · refine ⟨[], ?_⟩
        have e : host ++ '/' :: a ++ '/' :: b = host ++ '/' :: (a ++ '/' :: b) := by simp
        rw [hp, e, strSplit_append_sep, strSplit_append_sep, strSplit_of_not_mem _ _ hhs,
          strSplit_of_not_mem _ _ ha, strSplit_of_not_mem _ _ hb]
        rfl
      · refine ⟨strSplit '/' rest, ?_⟩
        have e : host ++ '/' :: a ++ '/' :: b ++ '/' :: rest =
            host ++ '/' :: (a ++ '/' :: (b ++ '/' :: rest)) := by simp
        rw [hp, e, strSplit_append_sep, strSplit_append_sep, strSplit_append_sep,
          strSplit_of_not_mem _ _ hhs, strSplit_of_not_mem _ _ ha, strSplit_of_not_mem _ _ hb]
        rfl
    obtain ⟨tail, ht⟩ := hsplit
    rw [h1 (by rw [ht]; simp) ⟨host, hm, by rw [ht]; rfl⟩, ht]
    simp [strJoin]

/-- C13, witness: `github.com/x/a/sub/deep` has the root `github.com/x/a`;
`example.com/a/b/c` (another host) and `github.com/x` (two segments) are their
own roots. -/
theorem C13_package_root_witness :
    getPkgRoot "github.com/x/a/sub/deep".toList = "github.com/x/a".toList ∧
    getPkgRoot "example.com/a/b/c".toList = "example.com/a/b/c".toList ∧
    getPkgRoot "github.com/x".toList = "github.com/x".toList :=
  ⟨(C13_package_root "github.com/x/a/sub/deep".toList).2.2 "github.com".toList ['x'] ['a']
      "sub/deep".toList (by decide) (by decide) (by decide) (Or.inr (by decide)),
    (C13_package_root "example.com/a/b/c".toList).2.1 (by decide),
    (C13_package_root "github.com/x".toList).2.1 (by decide)⟩

/-! ## C14: an excluded package -/

/-- C14. When the root of `pkg` matches an excluded package prefix `root`,
`importPackage` returns no error for every `ImportOptions`, at recursion depth
one (no recursive call is needed), whatever the world and the file system are
(nothing is fetched or scanned: the result is the same for every world and
every file system); the state it leaves is the state it found, except that
`root` is remembered in the exclusion memo of the run: manifest, file system
and the record of fetches are as before. A second call returns the same
result and leaves the state as the first call left it. -/
theorem C14_excluded_is_noop (w : World) (fuel : Nat) (s : State) (pkg : Str)
    (opts : ImportOptions) (root : Str)
    (h : s.manifest.IsExcludedPkg (getPkgRoot pkg) = some root) :
    ∃ s', importPackage w (fuel + 1) s pkg opts = some ⟨none, s'⟩ ∧
      s' = { s with cachedExcluded :=
        if (s.cachedExcluded.contains root) = true then s.cachedExcluded
        else s.cachedExcluded.set root () } ∧
      s'.manifest = s.manifest ∧ s'.fs = s.fs ∧ s'.trace = s.trace ∧
      s'.cachedPkgs = s.cachedPkgs ∧ s'.newPkgs = s.newPkgs ∧
      (∀ (w' : World) (fs' : Dir),
        importPackage w' 1 { s with fs := fs' } pkg opts = some ⟨none, { s' with fs := fs' }⟩) ∧
      importPackage w (fuel + 1) s' pkg opts = some ⟨none, s'⟩ := by
  have hstep : ∀ (w0 : World) (n : Nat) (s0 : State),
      s0.manifest.IsExcludedPkg (getPkgRoot pkg) = some root →
      importPackage w0 (n + 1) s0 pkg opts = some ⟨none,
        { s0 with cachedExcluded :=
            if (s0.cachedExcluded.contains root) = true then s0.cachedExcluded
            else s0.cachedExcluded.set root () }⟩ := by
    intro w0 n s0 h0
    simp only [importPackage, importStep, h0]
    by_cases hc : s0.cachedExcluded.contains root = true
    · simp only [hc, if_true]
    · simp only [hc, Bool.false_eq_true, if_false]
  refine ⟨_, hstep w fuel s h, rfl, rfl, rfl, rfl, rfl, rfl, ?_, ?_⟩
  · intro w' fs'
    exact hstep w' 0 { s with fs := fs' } h
  · rw [hstep w fuel
      { s with cachedExcluded :=
          if (s.cachedExcluded.contains root) = true then s.cachedExcluded
          else s.cachedExcluded.set root () } h]
    by_cases hc : s.cachedExcluded.contains root = true
    · simp only [hc, if_true]
    · simp only [hc, Bool.false_eq_true, if_false, GoMap.contains_set_self, if_true]

/-- C14, witness: with `github.com/x` excluded, a request to update
`github.com/x/a/sub` to `v9` returns no error and touches nothing but the
memo. -/
theorem C14_excluded_is_noop_witness :
    importPackage (exampleWorld []) 1
      { manifest := { ExcludePackages := [("github.com/x".toList, ())] } }
      "github.com/x/a/sub".toList { Version := "v9".toList, Update := true, UpdateDeps := true } =
      some ⟨none, { manifest := { ExcludePackages := [("github.com/x".toList, ())] },
                    cachedExcluded := [("github.com/x".toList, ())] }⟩ := by
  obtain ⟨s', h1, h2, -⟩ := C14_excluded_is_noop (exampleWorld []) 0
    { manifest := { ExcludePackages := [("github.com/x".toList, ())] } }
    "github.com/x/a/sub".toList { Version := "v9".toList, Update := true, UpdateDeps := true }
    "github.com/x".toList (by decide)
  rw [h1, h2]
  rfl

/-! ## C15: the list of new packages `Get` returns -/

theorem Get_newPkgs_nil (w : World) (fuel : Nat) (u ud c : Bool) (args : List Str) :
    ∀ (s : State) (l : List Str) (r : Result),
      Get w fuel u ud c s args = some (l, r) → l = [] := by
  induction args with
  | nil =>
    intro s l r h
    simp only [Get, Option.some.injEq, Prod.mk.injEq] at h
    exact h.1.symm
  | cons arg rest ih =>
    intro s l r h
    simp only [Get] at h
    split at h
    · simp only [Option.some.injEq, Prod.mk.injEq] at h
      exact h.1.symm
    · split at h
      · simp at h
      · rename_i r1 hr1
        split at h
        · simp only [Option.some.injEq, Prod.mk.injEq] at h
          exact h.1.symm
        · exact ih _ l r h

/-- C15. The failing run: `get github.com/x/a` without flags, where the
package is new, is fetched, and its dependency `github.com/y/b` cannot be
cloned. `Get` fails after `importPackage` has fetched the new root and noted
it in the package-level list `newPkgs`, but the list `Get` returns is empty,
and after the command has returned the directory of `github.com/x/a` is still
in the vendor tree. In general the list `Get` returns is empty on every
run. -/
theorem C15_new_packages_not_returned :
    (Get brokenDepWorld 3 false false false {} ["github.com/x/a".toList]).map
      (fun r => (r.1, r.2.err, r.2.state.newPkgs, r.2.state.trace,
        (readDir r.2.state.fs "./vendor/github.com/x/a".toList).isSome)) =
      some ([], some (.cloneRepo "github.com/y/b".toList), ["github.com/x/a".toList],
        [.fetch "github.com/x/a".toList [] false false,
          .fetch "github.com/y/b".toList [] false false], true) ∧
    (cmdGet brokenDepWorld 3 false false false {} ["github.com/x/a".toList]).map
      (fun r => (r.1, (readDir r.2.fs "./vendor/github.com/x/a".toList).isSome)) =
      some (some (.get (.cloneRepo "github.com/y/b".toList)), true) ∧
    ∀ (w : World) (fuel : Nat) (u ud c : Bool) (s : State) (args l : List Str) (r : Result),
      Get w fuel u ud c s args = some (l, r) → l = [] :=
  ⟨rfl, rfl, fun w fuel u ud c s args l r => Get_newPkgs_nil w fuel u ud c args s l r⟩

/-! ## C16: the backup of the vendor tree -/

/-- C16, the failing run. The manifest records a package under the name
`../vendor.orig`, the vendor tree is there and there is no backup yet:
`get -u ../vendor.orig` copies the vendor tree to `vendor.orig`; `Get` finds
the record, deletes `./vendor/../vendor.orig`, which is the backup, and fails
on the fetch; the command then deletes the vendor tree and cannot rename the
backup: it returns the rename error, and neither the vendor tree nor the
backup is left. For the package `github.com/x/a` of the same manifest the
same failure of the fetch is rolled back: the vendor tree is what it was and
no backup is left. -/
theorem C16_backup_deleted_through_parent :
    (readDir traversalState.fs "./vendor".toList).isSome = true ∧
    pathExists traversalState.fs "./vendor.orig".toList = false ∧
    (copyDir traversalState.fs "./vendor".toList "./vendor.orig".toList).map
      (fun fs => (resolvePath fs "./vendor/../vendor.orig".toList,
        readDir fs "./vendor.orig".toList)) =
      some (some ["vendor.orig".toList], readDir traversalState.fs "./vendor".toList) ∧
    (cmdGet offlineWorld 2 true false false traversalState ["../vendor.orig".toList]).map
      (fun r => (r.1, r.2.trace, readDir r.2.fs "./vendor".toList,
        pathExists r.2.fs "./vendor.orig".toList)) =
      some (some .renameBackup,
        [.remove "../vendor.orig".toList, .fetch "../vendor.orig".toList [] false false],
        none, false) ∧
    (cmdGet offlineWorld 2 true false false traversalState ["github.com/x/a".toList]).map
      (fun r => (r.1, r.2.trace, readDir r.2.fs "./vendor".toList,
        pathExists r.2.fs "./vendor.orig".toList)) =
      some (some (.get (.repoRoot "github.com/x/a".toList)),
        [.remove "github.com/x/a".toList, .fetch "github.com/x/a".toList [] false false],
        readDir traversalState.fs "./vendor".toList, false) := by
  refine ⟨by decide, by decide, by decide, by decide, by decide⟩

/-! ## C17: the options of the recursive calls -/

/-- The loop over the dependencies consults `importOne` only for the roots of
`depsMap`, each with the options built from `updateDeps` and its group. -/
theorem importDeps_congr (f g : State → Str → ImportOptions → Option Result) (u : Bool)
    (deps : GoMap (List Str)) :
    (∀ s root subs, (root, subs) ∈ deps →
      f s root { Update := u, UpdateDeps := u, Subpackages := subs } =
        g s root { Update := u, UpdateDeps := u, Subpackages := subs }) →
    ∀ s, importDeps f u s deps = importDeps g u s deps := by
  induction deps with
  | nil => intro _ s; rfl
  | cons d rest ih =>
    obtain ⟨p, subs⟩ := d
    intro h s
    simp only [importDeps]
    rw [h s p subs (List.mem_cons_self _ _)]
    cases g s p { Update := u, UpdateDeps := u, Subpackages := subs } with
    | none => rfl
    | some r =>
      simp only
      cases r.err with
      | some e => rfl
      | none => exact ih (fun s' root subs' hm => h s' root subs' (List.mem_cons_of_mem _ hm)) _

theorem recordPackage_scan (fuel : Nat) (s : State) (pkg rootPkg : Str) (info : Package)
    (shared : Option (Str × Package)) (ns : List Str) (isNew isLocal fa : Bool)
    (s1 : State) (deps : GoMap (List Str))
    (h : recordPackage fuel s pkg rootPkg info shared ns isNew isLocal fa =
      some (.recurse s1 deps)) :
    ∃ imports locals,
      getPkgImports s.manifest s.fs fuel rootPkg ns (vendorDir s.manifest rootPkg) isNew fa
        false = some (.ok (imports, locals, deps)) := by
  unfold recordPackage at h
  simp only at h
  split at h
  · simp at h
  · simp only [ctxCancelled_manifest, ctxCancelled_fs] at h
    split at h
    · simp at h
    · simp at h
    · rename_i imports locals depsMap hg
      simp only [Option.some.injEq, Step.recurse.injEq] at h
      obtain ⟨-, hd⟩ := h
      subst hd
      exact ⟨imports, locals, hg⟩

theorem reconcileUpdate_scan (fuel : Nat) (s : State) (pkg rootPkg : Str)
    (r : DoImportResult) (info : Package) (opts : ImportOptions) (ns : List Str)
    (isLocal : Bool) (s1 : State) (deps : GoMap (List Str))
    (h : reconcileUpdate fuel s pkg rootPkg r info opts ns isLocal = some (.recurse s1 deps)) :
    ∃ (m : Manifest) (fs : Dir) (root : Str) (isNew : Bool) (imports locals : List Str),
      getPkgImports m fs fuel root ns (vendorDir m root) isNew opts.FetchAll false =
        some (.ok (imports, locals, deps)) := by
  unfold reconcileUpdate at h
  split at h
  · simp at h
  · simp only at h
    split at h
    · simp at h
    · obtain ⟨imports, locals, hg⟩ := recordPackage_scan _ _ _ _ _ _ _ _ _ _ _ _ h
      exact ⟨_, _, _, _, imports, locals, hg⟩

theorem fetchAndRecord_scan (w : World) (fuel : Nat) (s : State) (pkg rootPkg version : Str)
    (opts : ImportOptions) (existing : Option Package) (ns : List Str)
    (performImport isLocal vr : Bool) (s1 : State) (deps : GoMap (List Str))
    (h : fetchAndRecord w fuel s pkg rootPkg version opts existing ns performImport isLocal vr
      = some (.recurse s1 deps)) :
    ∃ (m : Manifest) (fs : Dir) (root : Str) (isNew : Bool) (imports locals : List Str),
      getPkgImports m fs fuel root ns (vendorDir m root) isNew opts.FetchAll false =
        some (.ok (imports, locals, deps)) := by
  unfold fetchAndRecord at h
  simp only at h
  cases performImport with
  | false =>
    simp only [Bool.false_eq_true, if_false] at h
    cases existing with
    | none =>
      obtain ⟨imports, locals, hg⟩ := recordPackage_scan _ _ _ _ _ _ _ _ _ _ _ _ h
      exact ⟨_, _, _, _, imports, locals, hg⟩
    | some info =>
      obtain ⟨imports, locals, hg⟩ := recordPackage_scan _ _ _ _ _ _ _ _ _ _ _ _ h
      exact ⟨_, _, _, _, imports, locals, hg⟩
  | true =>
    simp only [if_true] at h
    cases hd : (doImport w s rootPkg version isLocal true vr).1.pkgErr with
    | some e => rw [hd] at h; simp at h
    | none =>
      rw [hd] at h
      simp only at h
      cases existing with
      | none =>
        obtain ⟨imports, locals, hg⟩ := recordPackage_scan _ _ _ _ _ _ _ _ _ _ _ _ h
        exact ⟨_, _, _, _, imports, locals, hg⟩
      | some info => exact reconcileUpdate_scan _ _ _ _ _ _ _ _ _ _ _ h

/-- A step that goes on to the dependencies has scanned the package: the map
it hands to the loop is the grouping `getPkgImports` returned. -/
theorem importStep_scan (w : World) (fuel : Nat) (s : State) (pkg : Str)
    (opts : ImportOptions) (s1 : State) (deps : GoMap (List Str))
    (h : importStep w fuel s pkg opts = some (.recurse s1 deps)) :
    ∃ (m : Manifest) (fs : Dir) (root : Str) (ns : List Str) (isNew : Bool)
      (imports locals : List Str),
      getPkgImports m fs fuel root ns (vendorDir m root) isNew opts.FetchAll false =
        some (.ok (imports, locals, deps)) := by
  unfold importStep at h
  simp only at h
  split at h
  · split at h <;> simp at h
  · split at h
    · simp at h
    · split at h
      · obtain ⟨m, fs, root, isNew, imports, locals, hg⟩ :=
          fetchAndRecord_scan _ _ _ _ _ _ _ _ _ _ _ _ _ _ h
        exact ⟨m, fs, root, _, isNew, imports, locals, hg⟩
      · split at h
        · simp at h
        · split at h
          · simp at h
          · split at h
            · simp at h
            · obtain ⟨m, fs, root, isNew, imports, locals, hg⟩ :=
                fetchAndRecord_scan _ _ _ _ _ _ _ _ _ _ _ _ _ _ h
              exact ⟨m, fs, root, _, isNew, imports, locals, hg⟩

/-- Without update flags a call of `importPackage` deletes no vendor copy. -/
theorem importPackage_noRemove (w : World) (fuel : Nat) (s : State) (pkg : Str)
    (opts : ImportOptions) (r : Result) (hup : opts.Update = false)
    (hud : opts.UpdateDeps = false) (h : importPackage w fuel s pkg opts = some r) :
    removedRoots r.state.trace = removedRoots s.trace := by
  have key : ∀ (fuel : Nat) (s : State) (pkg : Str) (opts : ImportOptions) (st : Step),
      opts.Update = false → importStep w fuel s pkg opts = some st →
      removedRoots st.state.trace = removedRoots s.trace := by
    intro fuel s pkg opts st hup hs
    rcases importStep_noUpdate w fuel s pkg opts st hup hs with h1 | ⟨v, il, vr, -, h1, -⟩
    · rw [h1]
    · rw [h1, removedRoots_append]
      simp [removedRoots]
  exact importPackage_induct w
    (fun s r => removedRoots r.state.trace = removedRoots s.trace)
    (fun o => o.Update = false ∧ o.UpdateDeps = false)
    (fun _ => rfl) (fun _ _ _ h1 h2 => h2.trans h1)
    (fun o _ hq => ⟨hq.2, hq.2⟩)
    (fun fuel s pkg opts r hq hs => key fuel s pkg opts _ hq.1 hs)
    (fun fuel s pkg opts s1 deps hq hs => key fuel s pkg opts _ hq.1 hs)
    fuel s pkg opts r ⟨hup, hud⟩ h

theorem GoMap.mem_set {V : Type} (m : GoMap V) (k : Str) (v : V) (x : Str × V)
    (h : x ∈ m.set k v) : x = (k, v) ∨ x ∈ m := by
  induction m with
  | nil =>
    simp only [GoMap.set, List.mem_singleton] at h
    exact Or.inl h
  | cons kv rest ih =>
    obtain ⟨k', v'⟩ := kv
    by_cases hk : k' = k
    · simp only [GoMap.set, hk, if_true, List.mem_cons] at h
      rcases h with h | h
      · exact Or.inl h
      · exact Or.inr (List.mem_cons_of_mem _ h)
    · simp only [GoMap.set, hk, if_false, List.mem_cons] at h
      rcases h with h | h
      · exact Or.inr (h ▸ List.mem_cons_self _ _)
      · rcases ih h with h | h
        · exact Or.inl h
        · exact Or.inr (List.mem_cons_of_mem _ h)

theorem GoMap.mem_set_self {V : Type} (m : GoMap V) (k : Str) (v : V) :
    (k, v) ∈ m.set k v := by
  induction m with
  | nil => simp [GoMap.set]
  | cons kv rest ih =>
    obtain ⟨k', v'⟩ := kv
    by_cases hk : k' = k
    · simp [GoMap.set, hk]
    · simp only [GoMap.set, hk, if_false]
      exact List.mem_cons_of_mem _ ih

theorem GoMap.mem_set_of_ne {V : Type} (m : GoMap V) (k : Str) (v : V) (x : Str × V)
    (h : x ∈ m) (hne : x.1 ≠ k) : x ∈ m.set k v := by
  induction m with
  | nil => simp at h
  | cons kv rest ih =>
    obtain ⟨k', v'⟩ := kv
    by_cases hk : k' = k
    · simp only [GoMap.set, hk, if_true]
      rcases List.mem_cons.mp h with h | h
      · subst h
        exact absurd hk hne
      · exact List.mem_cons_of_mem _ h
    · simp only [GoMap.set, hk, if_false]
      rcases List.mem_cons.mp h with h | h
      · exact h ▸ List.mem_cons_self _ _
      · exact List.mem_cons_of_mem _ (ih h)

theorem GoMap.keys_set_of_contains {V : Type} (m : GoMap V) (k : Str) (v : V)
    (h : m.contains k = true) : (m.set k v).keys = m.keys := by
  induction m with
  | nil => simp [GoMap.contains, GoMap.get?] at h
  | cons kv rest ih =>
    obtain ⟨k', v'⟩ := kv
    by_cases hk : k' = k
    · simp [GoMap.set, GoMap.keys, hk]
    · have hrest : GoMap.contains rest k = true := by
        simpa [GoMap.contains, GoMap.get?, hk] using h
      have := ih hrest
      simp only [GoMap.keys] at this ⊢
      simp [GoMap.set, hk, this]

theorem GoMap.keys_set_nodup {V : Type} (m : GoMap V) (k : Str) (v : V)
    (h : m.keys.Nodup) : (m.set k v).keys.Nodup := by
  cases hc : m.contains k with
  | true => rw [GoMap.keys_set_of_contains m k v hc]; exact h
  | false =>
    rw [GoMap.keys_set_of_not_contains m k v hc]
    refine List.Nodup.append h (List.nodup_singleton _) ?_
    intro x hx hx'
    rw [List.mem_singleton] at hx'
    subst hx'
    exact GoMap.not_mem_keys_of_not_contains _ _ hc hx

theorem GoMap.get?_of_mem {V : Type} (m : GoMap V) (k : Str) (v : V) (hn : m.keys.Nodup)
    (h : (k, v) ∈ m) : m.get? k = some v := by
  induction m with
  | nil => simp at h
  | cons kv rest ih =>
    obtain ⟨k', v'⟩ := kv
    simp only [GoMap.keys, List.map_cons, List.nodup_cons] at hn
    rcases List.mem_cons.mp h with h | h
    · simp only [Prod.mk.injEq] at h
      obtain ⟨h1, h2⟩ := h
      subst h1 h2
      simp [GoMap.get?]
    · have hne : k' ≠ k := by
        intro he
        subst he
        exact hn.1 (List.mem_map.mpr ⟨(k', v), h, rfl⟩)
      simp only [GoMap.get?, hne, if_false]
      exact ih hn.2 h

theorem groupImport_groups (m : Manifest) (L : List Str) (dm : GoMap (List Str)) (i : Str)
    (h : GroupsImports m L dm) : GroupsImports m (L ++ [i]) (groupImport m dm i) := by
  obtain ⟨hn, h2, h3⟩ := h
  have heq : groupImport m dm i =
      match m.GetPkgDeps (importRoot m i) dm with
      | some (root, subpkgs) => dm.set root (subpkgs ++ [i])
      | none => dm.set (importRoot m i) [i] := rfl
  rw [heq]
  cases hg : m.GetPkgDeps (importRoot m i) dm with
  | some kv =>
    obtain ⟨root, subpkgs⟩ := kv
    dsimp only
    have hspec := (prefixLookup_spec dm (importRoot m i)).2 root subpkgs hg
    obtain ⟨hget, hseg, -⟩ := hspec
    have hmem := GoMap.mem_of_get? dm root subpkgs hget
    refine ⟨GoMap.keys_set_nodup _ _ _ hn, ?_, ?_⟩
    · intro r ss hrs j hj
      rcases GoMap.mem_set _ _ _ _ hrs with he | he
      · simp only [Prod.mk.injEq] at he
        obtain ⟨h1, h4⟩ := he
        subst h1 h4
        rcases List.mem_append.mp hj with hj | hj
        · obtain ⟨a, b⟩ := h2 _ _ hmem j hj
          exact ⟨List.mem_append_left _ a, b⟩
        · rw [List.mem_singleton] at hj
          subst hj
          exact ⟨by simp, hseg⟩
      · obtain ⟨a, b⟩ := h2 _ _ he j hj
        exact ⟨List.mem_append_left _ a, b⟩
    · intro j hj
      rcases List.mem_append.mp hj with hj | hj
      · obtain ⟨r, ss, hrs, hjs⟩ := h3 j hj
        by_cases hr : r = root
        · subst hr
          have : ss = subpkgs := by
            have := GoMap.get?_of_mem dm r ss hn hrs
            rw [hget] at this
            exact (Option.some.inj this).symm
          subst this
          exact ⟨r, ss ++ [i], GoMap.mem_set_self _ _ _, List.mem_append_left _ hjs⟩
        · exact ⟨r, ss, GoMap.mem_set_of_ne _ _ _ _ hrs hr, hjs⟩
      · rw [List.mem_singleton] at hj
        subst hj
        exact ⟨root, subpkgs ++ [j], GoMap.mem_set_self _ _ _, by simp⟩
  | none =>
    dsimp only
    refine ⟨GoMap.keys_set_nodup _ _ _ hn, ?_, ?_⟩
    · intro r ss hrs j hj
      rcases GoMap.mem_set _ _ _ _ hrs with he | he
      · simp only [Prod.mk.injEq] at he
        obtain ⟨h1, h4⟩ := he
        subst h1 h4
        rw [List.mem_singleton] at hj
        subst hj
        exact ⟨by simp, Or.inl rfl⟩
      · obtain ⟨a, b⟩ := h2 _ _ he j hj
        exact ⟨List.mem_append_left _ a, b⟩
    · intro j hj
      rcases List.mem_append.mp hj with hj | hj
      · obtain ⟨r, ss, hrs, hjs⟩ := h3 j hj
        by_cases hr : r = importRoot m i
        · exfalso
          have hc : dm.contains r = true := by
            simp [GoMap.contains, GoMap.get?_of_mem dm r ss hn hrs]
          have hsome := ((prefixLookup_spec dm (importRoot m i)).1).mpr ⟨r, hc, Or.inl hr⟩
          unfold Manifest.GetPkgDeps at hg
          rw [hg] at hsome
          simp at hsome
        · exact ⟨r, ss, GoMap.mem_set_of_ne _ _ _ _ hrs hr, hjs⟩
      · rw [List.mem_singleton] at hj
        subst hj
        exact ⟨_, _, GoMap.mem_set_self _ _ _, by simp⟩

theorem foldl_groupImport_groups (m : Manifest) (rest : List Str) :
    ∀ (L : List Str) (dm : GoMap (List Str)), GroupsImports m L dm →
      GroupsImports m (L ++ rest) (rest.foldl (groupImport m) dm) := by
  induction rest with
  | nil => intro L dm h; simpa using h
  | cons i rest ih =>
    intro L dm h
    have := ih (L ++ [i]) _ (groupImport_groups m L dm i h)
    simpa using this

/-- The map `getPkgImports` returns groups the imports it returns. -/
theorem getPkgImports_groups (m : Manifest) (fs : Dir) (fuel : Nat) (pkg : Str)
    (subpkgs : List Str) (dir : Str) (isNewPkg fetchAll parseMain : Bool)
    (imports locals : List Str) (depsMap : GoMap (List Str))
    (h : getPkgImports m fs fuel pkg subpkgs dir isNewPkg fetchAll parseMain =
      some (.ok (imports, locals, depsMap))) :
    GroupsImports m imports depsMap := by
  rw [getPkgImports_eq] at h
  split at h
  · simp at h
  · simp at h
  · simp only [Option.some.injEq, Except.ok.injEq, Prod.mk.injEq] at h
    obtain ⟨h1, -, h3⟩ := h
    subst h1 h3
    rename_i lp im _
    have := foldl_groupImport_groups m (sortStrings im.keys) [] []
      ⟨List.nodup_nil, fun _ _ hm => by simp at hm, fun _ hm => by simp at hm⟩
    simpa using this

/-- C17. When a call of `importPackage` goes on to its dependencies, what
follows is the loop over the grouped roots with the parent's `UpdateDeps`. The
loop consults `importPackage` only at a root of the grouping and with the
options the claim names (`Update` and `UpdateDeps` both the parent's
`UpdateDeps`, the root's group as `Subpackages`, no version, locality or
fetch-all flag): replacing the recursive call by any function that agrees with
it on those arguments changes nothing. The grouping is the one
`getPkgImports` returned for the scanned package: every import of the package
is in a group, and a group holds imports whose root the group's root is a
segment prefix of. And with the parent's `UpdateDeps` unset, whatever its
`Update`, the calls for the dependencies delete no vendor copy, and a call
with such options for a package the manifest has makes no call of the fetch
provider. -/
theorem C17_dependency_options (w : World) (fuel : Nat) (s : State) (pkg : Str)
    (opts : ImportOptions) (s1 : State) (depsMap : GoMap (List Str))
    (hstep : importStep w fuel s pkg opts = some (.recurse s1 depsMap)) :
    importPackage w (fuel + 1) s pkg opts =
      importDeps (importPackage w fuel) opts.UpdateDeps s1 depsMap ∧
    (∀ f g : State → Str → ImportOptions → Option Result,
      (∀ s' root subs o, (root, subs) ∈ depsMap → DependencyOptions opts subs o →
        f s' root o = g s' root o) →
      importDeps f opts.UpdateDeps s1 depsMap = importDeps g opts.UpdateDeps s1 depsMap) ∧
    (∃ (m : Manifest) (fs : Dir) (root : Str) (ns : List Str) (isNew : Bool)
        (imports locals : List Str),
      getPkgImports m fs fuel root ns (vendorDir m root) isNew opts.FetchAll false =
        some (.ok (imports, locals, depsMap)) ∧ GroupsImports m imports depsMap) ∧
    (opts.UpdateDeps = false → ∀ r, importPackage w (fuel + 1) s pkg opts = some r →
      removedRoots r.state.trace = removedRoots s1.trace) ∧
    (opts.UpdateDeps = false → ∀ (n : Nat) (s' : State) (root : Str) (o : ImportOptions)
      (subs : List Str) (st : Step), DependencyOptions opts subs o →
      s'.manifest.PkgExists (getPkgRoot root) ≠ none →
      importStep w n s' root o = some st → st.state.trace = s'.trace) := by
  have heq : importPackage w (fuel + 1) s pkg opts =
      importDeps (importPackage w fuel) opts.UpdateDeps s1 depsMap := by
    simp only [importPackage, hstep]
  refine ⟨heq, ?_, ?_, ?_, ?_⟩
  · intro f g h
    exact importDeps_congr f g opts.UpdateDeps depsMap
      (fun s' root subs hm => h s' root _ _ hm ⟨rfl, rfl, rfl, rfl, rfl, rfl⟩) s1
  · obtain ⟨m, fs, root, ns, isNew, imports, locals, hg⟩ :=
      importStep_scan w fuel s pkg opts s1 depsMap hstep
    exact ⟨m, fs, root, ns, isNew, imports, locals, hg,
      getPkgImports_groups _ _ _ _ _ _ _ _ _ _ _ _ hg⟩
  · intro hud r hr
    rw [heq, hud] at hr
    exact importDeps_induct (fun s r => removedRoots r.state.trace = removedRoots s.trace)
      (fun _ => rfl) (fun _ _ _ h1 h2 => h2.trans h1) (importPackage w fuel) false
      (fun s' p subs r' hr' => importPackage_noRemove w fuel s' p _ r' rfl rfl hr')
      depsMap s1 r hr
  · intro hud n s' root o subs st ho hpe hst
    rcases importStep_noUpdate w n s' root o st (ho.1.trans hud) hst with h1 | ⟨_, _, _, h1, -⟩
    · exact h1
    · exact absurd h1 hpe

/-- C17, witness: `github.com/x/a` and its dependency `github.com/y/b` are
both in the manifest and the vendor tree; `github.com/x/a` is requested with
`Update` set and `UpdateDeps` unset. The call for the dependency carries no
update flag: the run deletes and fetches `github.com/x/a` only. -/
theorem C17_dependency_options_witness :
    (importStep chainWorld 2 chainState "github.com/x/a".toList
      { Update := true, FetchAll := true }).map
      (fun st => match st with
        | .recurse _ deps => deps
        | .ret _ => []) =
      some [("github.com/y/b".toList, ["github.com/y/b".toList])] ∧
    (importPackage chainWorld 3 chainState "github.com/x/a".toList
      { Update := true, FetchAll := true }).map (fun r => (r.err, r.state.trace)) =
      some (none, [.remove "github.com/x/a".toList,
        .fetch "github.com/x/a".toList [] false false]) ∧
    ∀ r, importPackage chainWorld 3 chainState "github.com/x/a".toList
        { Update := true, FetchAll := true } = some r →
      removedRoots r.state.trace = ["github.com/x/a".toList] := by
  refine ⟨rfl, rfl, ?_⟩
  intro r hr
  have h := (C17_dependency_options chainWorld 2 chainState "github.com/x/a".toList
    { Update := true, FetchAll := true }
    (((importStep chainWorld 2 chainState "github.com/x/a".toList
      { Update := true, FetchAll := true }).map Step.state).getD {})
    [("github.com/y/b".toList, ["github.com/y/b".toList])] rfl).2.2.2.1 rfl r hr
  rw [h]
  rfl

/-! ## C18: a checkout that fails -/

theorem checkoutRepo_missing_ref (repo : Repo) (fs : Dir) (version repoPath : Str)
    (hv : version ≠ []) (hfail : repo.refs.get? version = none) :
    (checkoutRepo repo fs version repoPath true).1 = none ∧
    (checkoutRepo repo fs version repoPath false).1 =
      repo.head.commit.map (fun c => (c, repo.head.tag.getD [])) := by
  unfold checkoutRepo
  simp only [hv, hfail, ne_eq, not_false_eq_true, if_true, Bool.false_eq_true, if_false]
  refine ⟨trivial, ?_⟩
  cases repo.head.commit <;> rfl

theorem checkoutRepo_head (repo : Repo) (fs : Dir) (repoPath : Str) (vr : Bool) :
    (checkoutRepo repo fs [] repoPath vr).1 =
      repo.head.commit.map (fun c => (c, repo.head.tag.getD [])) := by
  unfold checkoutRepo
  simp only [ne_eq, not_true_eq_false, if_false]
  cases repo.head.commit <;> rfl

theorem finishImport_result (w : World) (s : State) (pkg version c cv : Str) (fd : Bool) :
    (finishImport w s pkg version c cv fd).1.pkgErr = none ∧
    (finishImport w s pkg version c cv fd).1.root = pkg ∧
    (finishImport w s pkg version c cv fd).1.info.CommitHash = c ∧
    (finishImport w s pkg version c cv fd).1.info.Version =
      (if version = [] then cv else version) := by
  unfold finishImport
  exact ⟨rfl, rfl, rfl, rfl⟩

theorem doImport_remote (w : World) (s : State) (pkg version : Str) (fd vr : Bool)
    (rr : RepoRoot) (hrr : w.repoRootForImportPath pkg = some rr)
    (hgit : rr.vcsCmd = "git".toList) :
    (doImport w s pkg version false fd vr).1 =
      match (cloneRepo w s.fs version (rr.repo ++ ".git".toList)
          (vendorDir s.manifest rr.root) vr).1 with
      | none => { root := rr.root, pkgErr := some (.cloneRepo rr.root) }
      | some (commit, commitVersion) =>
        (finishImport w
          { s with trace := s.trace ++ [Event.fetch pkg version false vr],
                   fs := (cloneRepo w s.fs version (rr.repo ++ ".git".toList)
                     (vendorDir s.manifest rr.root) vr).2 }
          rr.root version commit commitVersion fd).1 := by
  unfold doImport
  simp only [hrr, hgit, Bool.false_eq_true, if_false, ne_eq, not_true_eq_false]
  split <;> rename_i h <;> simp only [h]

theorem doImport_local (w : World) (s : State) (pkg version : Str) (fd vr : Bool)
    (root : Str) (hstat : w.localStat pkg = true)
    (hvcs : w.vcsFromDir pkg = some ("git".toList, root)) :
    (doImport w s pkg version true fd vr).1 =
      match (cloneLocalPkg w { s with trace := s.trace ++ [Event.fetch pkg version true vr] }
          root version (vendorDir s.manifest root)).1 with
      | none => { root := root, pkgErr := some (.cloneLocal root) }
      | some (commit, commitVersion) =>
        (finishImport w
          (cloneLocalPkg w { s with trace := s.trace ++ [Event.fetch pkg version true vr] }
            root version (vendorDir s.manifest root)).2
          root version commit commitVersion fd).1 := by
  unfold doImport
  simp only [hstat, hvcs, if_true, Bool.not_true, Bool.false_eq_true, if_false, ne_eq,
    not_true_eq_false]
  split <;> rename_i h <;> simp only [h]

theorem ctxCancelled_fst_congr (s' s : State) (h : s'.ctx = s.ctx) :
    (ctxCancelled s').1 = (ctxCancelled s).1 := by
  unfold ctxCancelled
  rw [h]
  cases s.ctx <;> rfl

theorem cloneLocalPkg_missing_ref (w : World) (s : State) (pkg version dest : Str)
    (repo : Repo) (hrepo : w.localRepo pkg = some repo) (hv : version ≠ [])
    (hfail : repo.refs.get? version = none) :
    (cloneLocalPkg w s pkg version dest).1 = none := by
  unfold cloneLocalPkg
  simp only [hrepo]
  split
  · rfl
  · split
    · rfl
    · exact (checkoutRepo_missing_ref repo _ version dest hv hfail).1

theorem cloneLocalPkg_head (w : World) (s : State) (pkg dest : Str) (repo : Repo)
    (hrepo : w.localRepo pkg = some repo) (hctx : (ctxCancelled s).1 = false)
    (hfree : (readDir s.fs dest).isSome = false) :
    (cloneLocalPkg w s pkg [] dest).1 =
      repo.head.commit.map (fun c => (c, repo.head.tag.getD [])) := by
  unfold cloneLocalPkg
  simp only [hrepo, hctx, Bool.false_eq_true, if_false, ctxCancelled_fs, hfree]
  exact checkoutRepo_head repo _ dest true

/-- C18, counterexample. A local-source fetch of `github.com/x/a` at the
reference `v9`, which the repository does not have, with no constraint in the
manifest: the reference is not mandatory (`resolveVersion` says so), yet the
fetch fails, and so does `importPackage`; without a reference the same fetch
succeeds. -/
theorem C18_counterexample_local :
    resolveVersion {} "github.com/x/a".toList "v9".toList = .ok ("v9".toList, false) ∧
    (doImport localWorld {} "github.com/x/a".toList "v9".toList true true false).1.pkgErr =
      some (.cloneLocal "github.com/x/a".toList) ∧
    (doImport localWorld {} "github.com/x/a".toList [] true true false).1.pkgErr = none ∧
    (importPackage localWorld 2 {} "github.com/x/a".toList
      { Version := "v9".toList, «Local» := true }).map (fun r => r.err) =
      some (some (.cloneLocal "github.com/x/a".toList)) :=
  ⟨rfl, by decide, by decide, by decide⟩

/-- C18, amended. Let a reference be requested that the repository does not
have, so that the checkout fails. The step `checkoutRepo` fails when the
reference is mandatory and otherwise returns the commit of the current
checkout with its nearest tag, the empty string when there is none (an error
only when the commit cannot be read). A remote fetch, once the clone has
succeeded, fails when the reference is mandatory and otherwise succeeds with
the current commit; the reference is mandatory exactly when a non-empty
manifest constraint matches the root. A local-source fetch fails whether the
reference is mandatory or not, though it succeeds without a reference. -/
theorem C18_soft_checkout (w : World) (s : State) (pkg version : Str) (fd : Bool)
    (repo : Repo) (hv : version ≠ []) (hfail : repo.refs.get? version = none) :
    (∀ fs repoPath,
      (checkoutRepo repo fs version repoPath true).1 = none ∧
      (checkoutRepo repo fs version repoPath false).1 =
        repo.head.commit.map (fun c => (c, repo.head.tag.getD []))) ∧
    (∀ rr, w.repoRootForImportPath pkg = some rr → rr.vcsCmd = "git".toList →
      w.gitClone (rr.repo ++ ".git".toList) = some repo →
      ((readDir s.fs (vendorDir s.manifest rr.root)).map Dir.isEmpty).getD true = true →
      (doImport w s pkg version false fd true).1.pkgErr = some (.cloneRepo rr.root) ∧
      ∀ c, repo.head.commit = some c →
        (doImport w s pkg version false fd false).1.pkgErr = none ∧
        (doImport w s pkg version false fd false).1.root = rr.root ∧
        (doImport w s pkg version false fd false).1.info.CommitHash = c) ∧
    (∀ root reqVersion v vr, resolveVersion s root reqVersion = .ok (v, vr) →
      (vr = true ↔ ∃ key c, s.manifest.GetPkgConstraint root = some (key, c) ∧ c ≠ [])) ∧
    (∀ root vr, w.localStat pkg = true → w.vcsFromDir pkg = some ("git".toList, root) →
      w.localRepo root = some repo →
      (doImport w s pkg version true fd vr).1.pkgErr = some (.cloneLocal root) ∧
      ∀ c, repo.head.commit = some c → (ctxCancelled s).1 = false →
        (readDir s.fs (vendorDir s.manifest root)).isSome = false →
        (doImport w s pkg [] true fd vr).1.pkgErr = none) := by
  refine ⟨fun fs repoPath => checkoutRepo_missing_ref repo fs version repoPath hv hfail,
    ?_, ?_, ?_⟩
  · intro rr hrr hgit hclone hfree
    have hc : ∀ vr, (cloneRepo w s.fs version (rr.repo ++ ".git".toList)
        (vendorDir s.manifest rr.root) vr).1 =
        (checkoutRepo repo (putDir s.fs (vendorDir s.manifest rr.root) repo.head.tree)
          version (vendorDir s.manifest rr.root) vr).1 := by
      intro vr
      unfold cloneRepo
      simp only [hclone, hfree, if_true]
    refine ⟨?_, ?_⟩
    · rw [doImport_remote w s pkg version fd true rr hrr hgit, hc,
        (checkoutRepo_missing_ref repo _ version _ hv hfail).1]
    · intro c hcommit
      rw [doImport_remote w s pkg version fd false rr hrr hgit, hc,
        (checkoutRepo_missing_ref repo _ version _ hv hfail).2, hcommit]
      simp only [Option.map_some']
      have := finishImport_result w
        { s with trace := s.trace ++ [Event.fetch pkg version false false],
                 fs := (cloneRepo w s.fs version (rr.repo ++ ".git".toList)
                   (vendorDir s.manifest rr.root) false).2 }
        rr.root version c (repo.head.tag.getD []) fd
      exact ⟨this.1, this.2.1, this.2.2.1⟩
  · intro root reqVersion v vr hres
    unfold resolveVersion at hres
    cases hg : s.manifest.GetPkgConstraint root with
    | none =>
      rw [hg] at hres
      simp only at hres
      split at hres <;>
        (simp only [Except.ok.injEq, Prod.mk.injEq] at hres
         obtain ⟨-, h2⟩ := hres
         subst h2
         simp)
    | some kv =>
      obtain ⟨key, c⟩ := kv
      rw [hg] at hres
      simp only at hres
      by_cases hc : c = []
      · simp only [hc, ne_eq, not_true_eq_false, if_false] at hres
        split at hres <;>
          (simp only [Except.ok.injEq, Prod.mk.injEq] at hres
           obtain ⟨-, h2⟩ := hres
           subst h2
           simp [hc])
      · simp only [hc, ne_eq, not_false_eq_true, if_true] at hres
        split at hres
        · simp only [Except.ok.injEq, Prod.mk.injEq] at hres
          obtain ⟨-, h2⟩ := hres
          subst h2
          exact ⟨fun _ => ⟨key, c, rfl, hc⟩, fun _ => rfl⟩
        · split at hres
          · simp at hres
          · simp only [Except.ok.injEq, Prod.mk.injEq] at hres
            obtain ⟨-, h2⟩ := hres
            subst h2
            exact ⟨fun _ => ⟨key, c, rfl, hc⟩, fun _ => rfl⟩
  · intro root vr hstat hvcs hrepo
    refine ⟨?_, ?_⟩
    · rw [doImport_local w s pkg version fd vr root hstat hvcs,
        cloneLocalPkg_missing_ref w _ root version _ repo hrepo hv hfail]
    · intro c hcommit hctx hfree
      have hctx' : (ctxCancelled
          { s with trace := s.trace ++ [Event.fetch pkg [] true vr] }).1 = false :=
        (ctxCancelled_fst_congr
          { s with trace := s.trace ++ [Event.fetch pkg [] true vr] } s rfl).trans hctx
      have hcl := cloneLocalPkg_head w
        { s with trace := s.trace ++ [Event.fetch pkg [] true vr] } root
        (vendorDir s.manifest root) repo hrepo hctx' hfree
      rw [hcommit] at hcl
      rw [doImport_local w s pkg [] fd vr root hstat hvcs, hcl]
      simp only [Option.map_some']
      exact (finishImport_result w _ root [] c _ fd).1

/-- C18, witness: a remote fetch of `github.com/x/a` at the reference `v9`,
which the repository does not have. With the reference mandatory the fetch
fails; otherwise it succeeds and returns the commit `c0` the clone stands
at. -/
theorem C18_soft_checkout_witness :
    (doImport chainWorld {} "github.com/x/a".toList "v9".toList false true true).1.pkgErr =
      some (.cloneRepo "github.com/x/a".toList) ∧
    (doImport chainWorld {} "github.com/x/a".toList "v9".toList false true false).1.pkgErr =
      none ∧
    (doImport chainWorld {} "github.com/x/a".toList "v9".toList false true false).1.info.CommitHash
      = "c0".toList := by
  have h := (C18_soft_checkout chainWorld {} "github.com/x/a".toList "v9".toList true
    (repoOf (.file "a.go".toList (sourceFile ["github.com/y/b".toList]) .nil))
    (by decide) rfl).2.1
    { repo := "https://github.com/x/a".toList, root := "github.com/x/a".toList }
    rfl rfl rfl rfl
  exact ⟨h.1, (h.2 "c0".toList rfl).1, (h.2 "c0".toList rfl).2.2⟩

/-! ## C19: the arguments of `get` -/

theorem strIndex_append_single (c : Char) (p v : Str) (h : c ∉ p) :
    strIndex (p ++ c :: v) [c] = some p.length := by
  induction p with
  | nil => simp [strIndex, hasPrefix]
  | cons x xs ih =>
    have hx : (x == c) = false := by
      simp only [beq_eq_false_iff_ne, ne_eq]
      intro he
      exact h (he ▸ List.mem_cons_self _ _)
    have hxs : c ∉ xs := fun hm => h (List.mem_cons_of_mem _ hm)
    simp only [List.cons_append, strIndex, hasPrefix, hx, Bool.false_and, Bool.false_eq_true,
      if_false, List.length_cons]
    change Option.map (· + 1) (strIndex (xs ++ c :: v) [c]) = _
    rw [ih hxs]
    rfl

theorem strIndex_single_none (c : Char) (s : Str) (h : c ∉ s) : strIndex s [c] = none := by
  cases hi : strIndex s [c] with
  | none => rfl
  | some k => exact absurd ((strIndex_single c s).mp (by simp [hi])) h

/-- The request built from an argument, given what the test for the prefix
`file://` says and what is left after the prefix is taken off. -/
theorem parseGetArg_of (m : Manifest) (arg q : Str) (b u ud c : Bool)
    (hb : hasPrefix arg "file://".toList = b)
    (hq : (if b = true then trimPrefix arg "file://".toList else arg) = q) :
    (∀ P V, '@' ∉ P → V ≠ [] → q = P ++ '@' :: V →
      parseGetArg m arg u ud c =
        if c = true ∧ m.ConstraintsNil = true then none
        else some (P, getRequest P V b u ud,
          if c = true then { m with Constraints := m.Constraints.set P V } else m)) ∧
    ('@' ∉ q → parseGetArg m arg u ud c = some (q, getRequest q [] b u ud, m)) ∧
    (∀ P, '@' ∉ P → q = P ++ ['@'] →
      parseGetArg m arg u ud c = some (q, getRequest q [] b u ud, m)) := by
  refine ⟨?_, ?_, ?_⟩
  · intro P V hP hV hPV
    have hi : strIndex q ['@'] = some P.length := by
      rw [hPV]; exact strIndex_append_single '@' P V hP
    have hlen : P.length ≠ q.length - 1 := by
      rw [hPV]
      have : 0 < V.length := List.length_pos.mpr hV
      simp only [List.length_append, List.length_cons]
      omega
    have htake : q.take P.length = P := by rw [hPV]; simp
    have hdrop : q.drop (P.length + 1) = V := by
      rw [hPV]
      simp
    unfold parseGetArg getRequest
    simp only [hb, hq, hi, hlen, ne_eq, not_false_eq_true, if_true, htake, hdrop,
      Option.map_some', Option.getD_some, Option.isSome_some, true_and]
  · intro hq0
    have hi : strIndex q ['@'] = none := strIndex_single_none '@' q hq0
    unfold parseGetArg getRequest
    simp only [hb, hq, hi, Option.map_none', Option.getD_none, Option.isSome_none,
      Bool.false_eq_true, false_and, if_false]
  · intro P hP hPq
    have hi : strIndex q ['@'] = some P.length := by
      rw [hPq]; exact strIndex_append_single '@' P [] hP
    have hlen : P.length = q.length - 1 := by
      rw [hPq]
      simp
    unfold parseGetArg getRequest
    simp only [hb, hq, hi, hlen, ne_eq, not_true_eq_false, if_false, Option.map_none',
      Option.getD_none, Option.isSome_none, Bool.false_eq_true, false_and]

/-- The two tests `Get` makes on the prefix `file://`, for an argument that is
`q` or `file://` followed by `q`. -/
theorem getArg_trim (arg q : Str) (b : Bool)
    (harg : (arg = "file://".toList ++ q ∧ b = true) ∨
      (arg = q ∧ ¬"file://".toList <+: q ∧ b = false)) :
    hasPrefix arg "file://".toList = b ∧
      (if b = true then trimPrefix arg "file://".toList else arg) = q := by
  constructor
  · rcases harg with ⟨h1, h2⟩ | ⟨h1, h2, h3⟩
    · rw [h1, h2]
      exact (hasPrefix_iff _ _).mpr (List.prefix_append _ _)
    · rw [h1, h3]
      cases hp : hasPrefix q "file://".toList with
      | false => rfl
      | true => exact absurd ((hasPrefix_iff _ _).mp hp) h2
  · rcases harg with ⟨h1, h2⟩ | ⟨h1, h2, h3⟩
    · have hp : hasPrefix ("file://".toList ++ q) "file://".toList = true :=
        (hasPrefix_iff _ _).mpr (List.prefix_append _ _)
      rw [h2, if_pos rfl, h1]
      unfold trimPrefix
      rw [hp, if_pos rfl, List.drop_left]
    · rw [h3, h1]
      simp

/-- C19, the failing run. `Manifest.yml` has no key `constraints`, so the map
`Constraints` is nil: `get -c github.com/x/a@v1` panics on the assignment of
the constraint; no request is made, nothing is recorded and the command does
not return. On a manifest whose map is not nil the same argument records the
constraint and requests the package at `v1`. In general, for an argument `q`
or `file://` followed by `q` (the locality flag `b` says which): if `q` is
`P@V` with no `@` in `P` and `V` not empty, then with the constraint flag and a
nil map the assignment panics, and otherwise the request is for `P` at `V`,
with `FetchAll` exactly when `P` is its own root, the constraint `P -> V`
being recorded with the flag; if `q` has no `@`, or is `P@` with nothing after
its only `@`, the request carries an empty version and the manifest is left
alone. `Get` calls `importPackage` with the request so built. -/
theorem C19_constraint_on_nil_map :
    Get offlineWorld 1 false false true nilConstraintsState ["github.com/x/a@v1".toList] =
      some ([], ⟨some .nilMapPanic, nilConstraintsState⟩) ∧
    cmdGet offlineWorld 1 false false true nilConstraintsState ["github.com/x/a@v1".toList] =
      some (some .panicked, nilConstraintsState) ∧
    (Get worldWithRef 2 false false true {} ["github.com/x/a@v1".toList]).map
      (fun r => (r.2.err, r.2.state.manifest.Constraints, r.2.state.trace)) =
      some (none, [("github.com/x/a".toList, "v1".toList)],
        [.fetch "github.com/x/a".toList "v1".toList false true]) ∧
    (∀ (m : Manifest) (arg q : Str) (b u ud c : Bool),
      (arg = "file://".toList ++ q ∧ b = true) ∨
        (arg = q ∧ ¬"file://".toList <+: q ∧ b = false) →
      (∀ P V, '@' ∉ P → V ≠ [] → q = P ++ '@' :: V →
        parseGetArg m arg u ud c =
          if c = true ∧ m.ConstraintsNil = true then none
          else some (P, getRequest P V b u ud,
            if c = true then { m with Constraints := m.Constraints.set P V } else m)) ∧
      ('@' ∉ q → parseGetArg m arg u ud c = some (q, getRequest q [] b u ud, m)) ∧
      (∀ P, '@' ∉ P → q = P ++ ['@'] →
        parseGetArg m arg u ud c = some (q, getRequest q [] b u ud, m))) ∧
    (∀ (w : World) (fuel : Nat) (u ud c : Bool) (s : State) (arg : Str) (rest : List Str),
      Get w fuel u ud c s (arg :: rest) =
        match parseGetArg s.manifest arg u ud c with
        | none => some ([], ⟨some .nilMapPanic, s⟩)
        | some req =>
          match importPackage w fuel { s with manifest := req.2.2 } req.1 req.2.1 with
          | none => none
          | some r =>
            match r.err with
            | some e => some ([], ⟨some e, r.state⟩)
            | none => Get w fuel u ud c r.state rest) := by
  refine ⟨by decide, by decide, by decide, ?_, fun _ _ _ _ _ _ _ _ => rfl⟩
  intro m arg q b u ud c harg
  obtain ⟨hb, hq⟩ := getArg_trim arg q b harg
  exact parseGetArg_of m arg q b u ud c hb hq

/-! ## C20: the deletion of a vendor copy -/

/-- An update of a package the manifest has, when the call gets as far as the
deletion of the vendor copy. If the version to fetch is not the recorded one,
the deletion is followed by the call of the fetch provider for the root; if it
is the recorded one (and an imports update is pending, else the call returns
before), the vendor copy is deleted and the fetch provider is not called. -/
theorem importStep_update_existing (w : World) (fuel : Nat) (s : State) (pkg : Str)
    (opts : ImportOptions) (existing : Package) (root version : Str) (vr : Bool) (st : Step)
    (hex : s.manifest.IsExcludedPkg (getPkgRoot pkg) = none)
    (hres : resolveVersion s (getPkgRoot pkg) opts.Version = .ok (version, vr))
    (hpe : s.manifest.PkgExists (getPkgRoot pkg) = some (existing, root))
    (hup : opts.Update = true)
    (hgo : ¬(s.cachedPkgs.contains root = true ∧
      ¬(newSubpackages s.manifest existing root pkg opts.Subpackages).length ≠ 0))
    (h : importStep w fuel s pkg opts = some st) :
    (¬(version ≠ [] ∧ version = existing.Version) →
      st.state.trace = s.trace ++ [Event.remove root,
        Event.fetch root version
          (opts.Local || (s.manifest.IsLocalPkg (getPkgRoot pkg)).isSome) vr]) ∧
    (version ≠ [] → version = existing.Version →
      (newSubpackages s.manifest existing root pkg opts.Subpackages).length ≠ 0 →
      st.state.trace = s.trace ++ [Event.remove root]) := by
  unfold importStep at h
  simp only [hex, hres, hpe, hgo, hup, not_true_eq_false, false_and, if_false] at h
  refine ⟨?_, ?_⟩
  · intro hv
    have hv' : ¬((version ≠ [] ∧ version = existing.Version) ∧
        ¬(newSubpackages s.manifest existing root pkg opts.Subpackages).length ≠ 0) :=
      fun hc => hv hc.1
    rw [if_neg hv'] at h
    have hs := fetchAndRecord_spec _ _ _ _ _ _ _ _ _ _ _ _ _ h
    have hp : (true && !decide (version ≠ [] ∧ version = existing.Version)) = true := by
      simp only [Bool.true_and, Bool.not_eq_true', decide_eq_false_iff_not]
      exact hv
    have := (hs.2.1 hp).1
    rw [this, removeExisting_trace]
    simp
  · intro hv1 hv2 hpend
    have hv' : ¬((version ≠ [] ∧ version = existing.Version) ∧
        ¬(newSubpackages s.manifest existing root pkg opts.Subpackages).length ≠ 0) :=
      fun hc => hc.2 hpend
    rw [if_neg hv'] at h
    have hs := fetchAndRecord_spec _ _ _ _ _ _ _ _ _ _ _ _ _ h
    have hp : (true && !decide (version ≠ [] ∧ version = existing.Version)) = false := by
      simp only [Bool.true_and, Bool.not_eq_false', decide_eq_true_eq]
      exact ⟨hv1, hv2⟩
    have := hs.1 hp
    rw [this, removeExisting_trace]
    simp

/-- C20. The failing run: the manifest has `github.com/x/a` at version `v1`,
the vendor tree holds it with its directory `sub`, and the sub-package
`github.com/x/a/sub` is requested at `v1` with `Update` set (an imports update
is pending, the sub-package being new to the record). The vendor copy of the
root is deleted and the fetch provider is not called; the scan then fails on
the missing directory. The same happens when `v1` comes from a constraint.
Without `Update` the same request scans the directory and succeeds; with
another version the deletion is followed by the fetch. In general, an update
that deletes the vendor copy calls the fetch provider next exactly when the
version to fetch is empty or differs from the recorded one. -/
theorem C20_delete_without_fetch :
    (importPackage subpackageWorld 3 vendoredSubState "github.com/x/a/sub".toList
      { Version := "v1".toList, Update := true }).map
      (fun r => (r.err, r.state.trace, readDir r.state.fs "./vendor/github.com/x/a".toList)) =
      some (some (.getImports "github.com/x/a/sub".toList
          (.dirNotFound "./vendor/github.com/x/a/sub".toList "github.com/x/a".toList)),
        [.remove "github.com/x/a".toList], none) ∧
    (importPackage subpackageWorld 3
      { vendoredSubState with
        manifest := { vendoredSubState.manifest with
          Constraints := [("github.com/x/a".toList, "v1".toList)] } }
      "github.com/x/a/sub".toList { Update := true }).map
      (fun r => (r.err.isSome, r.state.trace)) =
      some (true, [.remove "github.com/x/a".toList]) ∧
    (importPackage subpackageWorld 3 vendoredSubState "github.com/x/a/sub".toList
      { Version := "v1".toList }).map (fun r => (r.err, r.state.trace)) =
      some (none, [.fetch "github.com/y/b".toList [] false false]) ∧
    (importPackage subpackageWorld 3 vendoredSubState "github.com/x/a/sub".toList
      { Version := "v2".toList, Update := true }).map (fun r => (r.err, r.state.trace)) =
      some (none, [.remove "github.com/x/a".toList,
        .fetch "github.com/x/a".toList "v2".toList false false,
        .fetch "github.com/y/b".toList [] false false]) ∧
    ∀ (w : World) (fuel : Nat) (s : State) (pkg : Str) (opts : ImportOptions)
      (existing : Package) (root version : Str) (vr : Bool) (st : Step),
      s.manifest.IsExcludedPkg (getPkgRoot pkg) = none →
      resolveVersion s (getPkgRoot pkg) opts.Version = .ok (version, vr) →
      s.manifest.PkgExists (getPkgRoot pkg) = some (existing, root) →
      opts.Update = true →
      ¬(s.cachedPkgs.contains root = true ∧
        ¬(newSubpackages s.manifest existing root pkg opts.Subpackages).length ≠ 0) →
      importStep w fuel s pkg opts = some st →
      (¬(version ≠ [] ∧ version = existing.Version) →
        st.state.trace = s.trace ++ [Event.remove root,
          Event.fetch root version
            (opts.Local || (s.manifest.IsLocalPkg (getPkgRoot pkg)).isSome) vr]) ∧
      (version ≠ [] → version = existing.Version →
        (newSubpackages s.manifest existing root pkg opts.Subpackages).length ≠ 0 →
        st.state.trace = s.trace ++ [Event.remove root]) :=
  ⟨rfl, rfl, rfl, rfl, fun w fuel s pkg opts existing root version vr st hex hres hpe hup hgo h =>
    importStep_update_existing w fuel s pkg opts existing root version vr st hex hres hpe hup
      hgo h⟩

/-! ## C21: the sub-packages of a fetched tree -/

/-- C21. The failing run, under the default vendor path `./vendor`: the
manifest records `github.com/y/b` with the sub-package `github.com/y/b/sub`,
on which `github.com/x/a` depends, and `github.com/y/b` is updated to a tree
that still has the directory `sub`. The walk reports the directory as
`vendor/github.com/y/b/sub`, from which the prefix `./vendor/` is not removed,
so the recorded sub-package counts as deprecated and the update fails with
the deprecation error; with no package depending on it, the sub-package is
dropped from the record. Under the vendor path `vendor` the same tree is
listed in manifest form and the update succeeds with the sub-package kept. -/
theorem C21_subpackages_keep_vendor_prefix :
    getPkgSubpackages {} keptTree "./vendor/github.com/y/b".toList =
      some ["github.com/y/b".toList, "vendor/github.com/y/b/sub".toList] ∧
    deprecatedPkgs { Subpackages := [("github.com/y/b/sub".toList, ())] }
      ["github.com/y/b".toList, "vendor/github.com/y/b/sub".toList] =
      ["github.com/y/b/sub".toList] ∧
    (importPackage keptWorld 3 { dependentState with fs := keptTree } "github.com/y/b".toList
      { Update := true }).map (fun r => (r.err,
        (readDir r.state.fs "./vendor/github.com/y/b/sub".toList).isSome)) =
      some (some (.deprecated [("github.com/x/a".toList, "github.com/y/b/sub".toList,
        "commit c0".toList)]), true) ∧
    (importPackage keptWorld 3
      { manifest := { Packages := [("github.com/y/b".toList,
          { Version := "v1".toList, CommitHash := "cb".toList,
            Subpackages := [("github.com/y/b/sub".toList, ())] })] },
        fs := keptTree }
      "github.com/y/b".toList { Update := true }).map
      (fun r => (r.err, (r.state.manifest.Packages.get? "github.com/y/b".toList).map
        (fun p => p.Subpackages))) = some (none, some []) ∧
    getPkgSubpackages { VendorPath := "vendor".toList } keptTree
      "vendor/github.com/y/b".toList =
      some ["github.com/y/b".toList, "github.com/y/b/sub".toList] ∧
    (importPackage keptWorld 3
      { manifest := { dependentState.manifest with VendorPath := "vendor".toList },
        fs := keptTree }
      "github.com/y/b".toList { Update := true }).map
      (fun r => (r.err, (r.state.manifest.Packages.get? "github.com/y/b".toList).map
        (fun p => p.Subpackages))) =
      some (none, some [("github.com/y/b/sub".toList, ())]) :=
  ⟨rfl, rfl, rfl, rfl, rfl, rfl⟩

/-! ## C22: the grouping of the imports by root -/

theorem segPrefix_trans {a b c : Str} (h1 : SegPrefix a b) (h2 : SegPrefix b c) :
    SegPrefix a c := by
  rcases h1 with h1 | ⟨r1, h1⟩
  · rw [h1]; exact h2
  · rcases h2 with h2 | ⟨r2, h2⟩
    · rw [← h2]; exact Or.inr ⟨r1, h1⟩
    · refine Or.inr ⟨r1 ++ '/' :: r2, ?_⟩
      rw [h2, h1]
      simp

theorem segPrefix_length_le {a b : Str} (h : SegPrefix a b) : a.length ≤ b.length := by
  rcases h with h | ⟨r, h⟩
  · rw [h]
  · rw [h]; simp

theorem segPrefix_eq_of_length_le {a b : Str} (h : SegPrefix a b) (hl : b.length ≤ a.length) :
    a = b := by
  rcases h with h | ⟨r, h⟩
  · exact h
  · have := congrArg List.length h
    simp only [List.length_append, List.length_cons] at this
    omega

/-- Of the joins of the first `j` and the first `k` segments, `j ≤ k`, the
first is a segment prefix of the second. -/
theorem segPrefix_take_take (parts : List Str) (j k : Nat) (hj : 0 < j) (hjk : j ≤ k) :
    SegPrefix (strJoin '/' (parts.take j)) (strJoin '/' (parts.take k)) := by
  by_cases hd : (parts.take k).drop j = []
  · left
    have : parts.take k = parts.take j := by
      have h1 := List.take_append_drop j (parts.take k)
      rw [hd, List.append_nil, List.take_take, Nat.min_eq_left hjk] at h1
      exact h1.symm
    rw [this]
  · right
    have h1 := List.take_append_drop j (parts.take k)
    rw [List.take_take, Nat.min_eq_left hjk] at h1
    have hne : parts.take j ≠ [] := by
      intro h
      rw [h, List.nil_append] at h1
      have h2 : parts.take k = [] := by
        cases parts with
        | nil => simp
        | cons p ps =>
          cases j with
          | zero => omega
          | succ j => simp at h
      rw [h2] at hd
      simp at hd
    refine ⟨strJoin '/' ((parts.take k).drop j), ?_⟩
    rw [← strJoin_append '/' hne hd, h1]

theorem segPrefix_getPkgRoot (i : Str) : SegPrefix (getPkgRoot i) i := by
  unfold getPkgRoot
  simp only
  split
  · exact Or.inl rfl
  · split
    · exact segPrefix_take i 3 (by omega)
    · exact Or.inl rfl

theorem segPrefix_importRoot (m : Manifest) (i : Str) : SegPrefix (importRoot m i) i := by
  unfold importRoot
  cases hp : m.PkgExists (getPkgRoot i) with
  | none => exact segPrefix_getPkgRoot i
  | some er =>
    obtain ⟨e, root⟩ := er
    simp only
    unfold Manifest.PkgExists at hp
    cases hl : prefixLookup m.Packages (getPkgRoot i) with
    | none => rw [hl] at hp; simp at hp
    | some kv =>
      obtain ⟨k, v⟩ := kv
      rw [hl] at hp
      simp only [Option.map_some', Option.some.injEq, Prod.mk.injEq] at hp
      obtain ⟨-, hk⟩ := hp
      subst hk
      have := ((prefixLookup_spec m.Packages (getPkgRoot i)).2 k v hl).2.1
      exact segPrefix_trans this (segPrefix_getPkgRoot i)

/-- Writing a new value under a key the map has does not change which key a
lookup finds. -/
theorem prefixLoop_set_same {V : Type} (M : GoMap V) (root : Str) (v : V)
    (hc : M.contains root = true) (parts : List Str) (n : Nat) :
    prefixLoop (M.set root v) parts n =
      (prefixLoop M parts n).map (fun kx => (kx.1, if kx.1 = root then v else kx.2)) := by
  induction n with
  | zero => rfl
  | succ n ih =>
    simp only [prefixLoop]
    by_cases hp : strJoin '/' (parts.take (n + 1)) = root
    · rw [hp, GoMap.get?_set_self]
      cases hg : M.get? root with
      | none => simp [GoMap.contains, hg] at hc
      | some x => simp
    · rw [GoMap.get?_set_ne M root _ v (fun h => hp h.symm)]
      cases hg : M.get? (strJoin '/' (parts.take (n + 1))) with
      | none => simpa using ih
      | some x => simp [hp]

/-- Adding a key of which no key of the map is a segment prefix does not
change what a lookup that succeeded finds. -/
theorem prefixLoop_set_new {V : Type} (M : GoMap V) (r : Str) (v : V)
    (hnone : prefixLookup M r = none) (parts : List Str) (n : Nat) (k : Str) (x : V)
    (h : prefixLoop M parts n = some (k, x)) :
    prefixLoop (M.set r v) parts n = some (k, x) := by
  have hnokey : ∀ key, M.contains key = true → ¬SegPrefix key r := by
    intro key hk hs
    have := ((prefixLookup_spec M r).1).mpr ⟨key, hk, hs⟩
    rw [hnone] at this
    simp at this
  induction n with
  | zero => simp [prefixLoop] at h
  | succ n ih =>
    simp only [prefixLoop] at h ⊢
    cases hg : M.get? (strJoin '/' (parts.take (n + 1))) with
    | some y =>
      rw [hg] at h
      have hne : r ≠ strJoin '/' (parts.take (n + 1)) := by
        intro he
        refine hnokey r ?_ (Or.inl rfl)
        rw [he]
        simp [GoMap.contains, hg]
      rw [GoMap.get?_set_ne M r _ v hne, hg]
      exact h
    | none =>
      rw [hg] at h
      simp only at h
      have hne : r ≠ strJoin '/' (parts.take (n + 1)) := by
        intro he
        obtain ⟨k0, hk0, hk0n, hkeq, hget, -⟩ := prefixLoop_some M parts n k x h
        refine hnokey k (by simp [GoMap.contains, hget]) ?_
        rw [he, hkeq]
        exact segPrefix_take_take parts k0 (n + 1) hk0 (by omega)
      rw [GoMap.get?_set_ne M r _ v hne, hg]
      exact ih h

theorem prefixLookup_set_new_self {V : Type} (M : GoMap V) (r : Str) (v : V) :
    prefixLookup (M.set r v) r = some (r, v) := by
  have hspec := prefixLookup_spec (M.set r v) r
  have hsome := hspec.1.mpr ⟨r, GoMap.contains_set_self M r v, Or.inl rfl⟩
  cases hl : prefixLookup (M.set r v) r with
  | none => rw [hl] at hsome; simp at hsome
  | some pv =>
    obtain ⟨p, v'⟩ := pv
    obtain ⟨hget, hseg, hmax⟩ := hspec.2 p v' hl
    have hlen := hmax r (GoMap.contains_set_self M r v) (Or.inl rfl)
    have hpr : p = r := segPrefix_eq_of_length_le hseg hlen
    subst hpr
    rw [GoMap.get?_set_self] at hget
    simp only [Option.some.injEq] at hget
    rw [hget]

theorem GoMap.set_of_not_contains {V : Type} (m : GoMap V) (k : Str) (v : V)
    (h : m.contains k = false) : m.set k v = m ++ [(k, v)] := by
  induction m with
  | nil => rfl
  | cons kv rest ih =>
    obtain ⟨k', v'⟩ := kv
    have hne : k' ≠ k := by
      intro he
      subst he
      simp [GoMap.contains, GoMap.get?] at h
    have hrest : GoMap.contains rest k = false := by
      simpa [GoMap.contains, GoMap.get?, hne] using h
    simp [GoMap.set, hne, ih hrest]

theorem GoMap.flatMap_set_append (m : GoMap (List Str)) (k : Str) (subs : List Str) (j : Str)
    (h : m.get? k = some subs) :
    ((m.set k (subs ++ [j])).flatMap Prod.snd).Perm (m.flatMap Prod.snd ++ [j]) := by
  induction m with
  | nil => simp [GoMap.get?] at h
  | cons kv rest ih =>
    obtain ⟨k', v'⟩ := kv
    by_cases hk : k' = k
    · simp only [GoMap.get?, hk, if_true, Option.some.injEq] at h
      subst h
      simp only [GoMap.set, hk, if_true, List.flatMap_cons, List.append_assoc]
      exact List.Perm.append_left _ List.perm_append_comm
    · simp only [GoMap.get?, hk, if_false] at h
      simp only [GoMap.set, hk, if_false, List.flatMap_cons, List.append_assoc]
      exact List.Perm.append_left _ (ih h)

theorem groupImport_eq (m : Manifest) (dm : GoMap (List Str)) (i : Str) :
    groupImport m dm i =
      match prefixLookup dm (importRoot m i) with
      | some (root, subpkgs) => dm.set root (subpkgs ++ [i])
      | none => dm.set (importRoot m i) [i] := rfl

theorem not_contains_of_lookup_none {V : Type} (M : GoMap V) (r : Str)
    (h : prefixLookup M r = none) : M.contains r = false := by
  cases hc : M.contains r with
  | false => rfl
  | true =>
    have := ((prefixLookup_spec M r).1).mpr ⟨r, hc, Or.inl rfl⟩
    rw [h] at this
    simp at this

/-- One step of the grouping keeps the concatenation of the groups a
permutation of the imports grouped so far. -/
theorem groupImport_perm (m : Manifest) (L : List Str) (dm : GoMap (List Str)) (j : Str)
    (h : (dm.flatMap Prod.snd).Perm L) :
    ((groupImport m dm j).flatMap Prod.snd).Perm (L ++ [j]) := by
  rw [groupImport_eq]
  cases hl : prefixLookup dm (importRoot m j) with
  | some kv =>
    obtain ⟨root, subpkgs⟩ := kv
    dsimp only
    have hget := ((prefixLookup_spec dm (importRoot m j)).2 root subpkgs hl).1
    exact (GoMap.flatMap_set_append dm root subpkgs j hget).trans (h.append_right _)
  | none =>
    dsimp only
    rw [GoMap.set_of_not_contains dm _ _ (not_contains_of_lookup_none dm _ hl)]
    simp only [List.flatMap_append, List.flatMap_cons, List.flatMap_nil, List.append_nil]
    exact h.append_right _

/-- One step of the grouping keeps every import grouped so far in the group
its root is looked up to. -/
theorem groupImport_lookup (m : Manifest) (L : List Str) (dm : GoMap (List Str)) (j : Str)
    (h : ∀ i ∈ L, ∃ k subs, prefixLookup dm (importRoot m i) = some (k, subs) ∧ i ∈ subs) :
    ∀ i ∈ L ++ [j], ∃ k subs,
      prefixLookup (groupImport m dm j) (importRoot m i) = some (k, subs) ∧ i ∈ subs := by
  rw [groupImport_eq]
  cases hl : prefixLookup dm (importRoot m j) with
  | some kv =>
    obtain ⟨root, subpkgs⟩ := kv
    dsimp only
    have hget := ((prefixLookup_spec dm (importRoot m j)).2 root subpkgs hl).1
    have hc : dm.contains root = true := by simp [GoMap.contains, hget]
    have hset : ∀ path, prefixLookup (dm.set root (subpkgs ++ [j])) path =
        (prefixLookup dm path).map
          (fun kx => (kx.1, if kx.1 = root then subpkgs ++ [j] else kx.2)) :=
      fun path => prefixLoop_set_same dm root _ hc _ _
    intro i hi
    rw [hset]
    rcases List.mem_append.mp hi with hi | hi
    · obtain ⟨k, subs, hk, hmem⟩ := h i hi
      rw [hk]
      refine ⟨k, _, rfl, ?_⟩
      dsimp only
      by_cases hkr : k = root
      · rw [if_pos hkr]
        have hgk := ((prefixLookup_spec dm (importRoot m i)).2 k subs hk).1
        rw [hkr, hget] at hgk
        simp only [Option.some.injEq] at hgk
        rw [hgk]
        exact List.mem_append_left _ hmem
      · rw [if_neg hkr]
        exact hmem
    · rw [List.mem_singleton] at hi
      subst hi
      rw [hl]
      refine ⟨root, _, rfl, ?_⟩
      simp
  | none =>
    dsimp only
    intro i hi
    rcases List.mem_append.mp hi with hi | hi
    · obtain ⟨k, subs, hk, hmem⟩ := h i hi
      exact ⟨k, subs, prefixLoop_set_new dm _ _ hl _ _ k subs hk, hmem⟩
    · rw [List.mem_singleton] at hi
      subst hi
      exact ⟨_, _, prefixLookup_set_new_self dm _ _, by simp⟩

theorem foldl_groupImport_perm (m : Manifest) (rest : List Str) :
    ∀ (L : List Str) (dm : GoMap (List Str)), (dm.flatMap Prod.snd).Perm L →
      ((rest.foldl (groupImport m) dm).flatMap Prod.snd).Perm (L ++ rest) := by
  induction rest with
  | nil => intro L dm h; simpa using h
  | cons i rest ih =>
    intro L dm h
    have := ih (L ++ [i]) _ (groupImport_perm m L dm i h)
    simpa using this

theorem foldl_groupImport_lookup (m : Manifest) (rest : List Str) :
    ∀ (L : List Str) (dm : GoMap (List Str)),
      (∀ i ∈ L, ∃ k subs, prefixLookup dm (importRoot m i) = some (k, subs) ∧ i ∈ subs) →
      ∀ i ∈ L ++ rest, ∃ k subs,
        prefixLookup (rest.foldl (groupImport m) dm) (importRoot m i) = some (k, subs) ∧
          i ∈ subs := by
  induction rest with
  | nil => intro L dm h; simpa using h
  | cons j rest ih =>
    intro L dm h
    have := ih (L ++ [j]) _ (groupImport_lookup m L dm j h)
    simpa using this

/-- C22. For every manifest and every list of imports, the map the grouping
loop of `getPkgImports` builds has one group for each key; the concatenation
of its groups is a permutation of the import list; the key of a group is, for
each member, the member itself or a segment prefix of it; two imports with the
same `getPkgRoot` are in one group together; and when the list has no
duplicates (as the sorted list of a set of imports) every import is in exactly
one group and occurs there once. The third result of `getPkgImports` is this
map for its first result. -/
theorem C22_grouping_partition (m : Manifest) (imports : List Str) :
    (imports.foldl (groupImport m) []).keys.Nodup ∧
    ((imports.foldl (groupImport m) []).flatMap Prod.snd).Perm imports ∧
    (∀ key subs, (key, subs) ∈ imports.foldl (groupImport m) [] →
      ∀ i ∈ subs, SegPrefix key i) ∧
    (∀ i ∈ imports, ∀ j ∈ imports, getPkgRoot i = getPkgRoot j →
      ∃ key subs, (key, subs) ∈ imports.foldl (groupImport m) [] ∧ i ∈ subs ∧ j ∈ subs) ∧
    (imports.Nodup →
      (∀ i ∈ imports, ∃ key subs, (key, subs) ∈ imports.foldl (groupImport m) [] ∧ i ∈ subs) ∧
      (∀ e ∈ imports.foldl (groupImport m) [], e.2.Nodup) ∧
      (∀ i, ∀ e1 ∈ imports.foldl (groupImport m) [], ∀ e2 ∈ imports.foldl (groupImport m) [],
        i ∈ e1.2 → i ∈ e2.2 → e1 = e2)) ∧
    (∀ (fs : Dir) (fuel : Nat) (pkg : Str) (subpkgs : List Str) (dir : Str)
      (isNewPkg fetchAll parseMain : Bool) (found locals : List Str)
      (depsMap : GoMap (List Str)),
      getPkgImports m fs fuel pkg subpkgs dir isNewPkg fetchAll parseMain =
        some (.ok (found, locals, depsMap)) →
      depsMap = found.foldl (groupImport m) [] ∧ found.Nodup) := by
  have hgroups : GroupsImports m imports (imports.foldl (groupImport m) []) := by
    have := foldl_groupImport_groups m imports [] []
      ⟨List.nodup_nil, fun _ _ hm => by simp at hm, fun _ hm => by simp at hm⟩
    simpa using this
  have hperm : ((imports.foldl (groupImport m) []).flatMap Prod.snd).Perm imports := by
    have := foldl_groupImport_perm m imports [] [] (by simp)
    simpa using this
  have hlook : ∀ i ∈ imports, ∃ k subs,
      prefixLookup (imports.foldl (groupImport m) []) (importRoot m i) = some (k, subs) ∧
        i ∈ subs := by
    have := foldl_groupImport_lookup m imports [] [] (fun _ hm => by simp at hm)
    simpa using this
  refine ⟨hgroups.1, hperm, ?_, ?_, ?_, ?_⟩
  · intro key subs hmem i hi
    exact segPrefix_trans (hgroups.2.1 key subs hmem i hi).2 (segPrefix_importRoot m i)
  · intro i hi j hj hroot
    have hr : importRoot m i = importRoot m j := by
      unfold importRoot
      rw [hroot]
    obtain ⟨k, subs, hk, hik⟩ := hlook i hi
    obtain ⟨k', subs', hk', hjk⟩ := hlook j hj
    rw [hr, hk'] at hk
    simp only [Option.some.injEq, Prod.mk.injEq] at hk
    obtain ⟨h1, h2⟩ := hk
    subst h1 h2
    have hget := ((prefixLookup_spec _ (importRoot m j)).2 k' subs' hk').1
    exact ⟨k', subs', GoMap.mem_of_get? _ _ _ hget, hik, hjk⟩
  · intro hnd
    have hnd' : ((imports.foldl (groupImport m) []).flatMap Prod.snd).Nodup :=
      hperm.nodup_iff.mpr hnd
    obtain ⟨hn1, hn2⟩ := List.nodup_flatMap.mp hnd'
    refine ⟨hgroups.2.2, hn1, ?_⟩
    intro i e1 he1 e2 he2 h1 h2
    by_contra hne
    have hsym : Symmetric (Function.onFun List.Disjoint (Prod.snd : Str × List Str → List Str)) :=
      fun a b hab => hab.symm
    exact (hn2.forall hsym he1 he2 hne) h1 h2
  · intro fs fuel pkg subpkgs dir isNewPkg fetchAll parseMain found locals depsMap hg
    have hg0 := hg
    rw [getPkgImports_eq] at hg
    split at hg
    · simp at hg
    · simp at hg
    · rename_i lp im hc
      simp only [Option.some.injEq, Except.ok.injEq, Prod.mk.injEq] at hg
      obtain ⟨h1, -, h3⟩ := hg
      subst h1 h3
      refine ⟨rfl, ?_⟩
      have hnd := collectImports_nodup m fs fuel pkg subpkgs dir isNewPkg fetchAll parseMain _ hc
      exact (List.perm_insertionSort _ _).nodup_iff.mpr hnd

/-- C22, witness: with an empty manifest the imports `github.com/x/a`,
`github.com/x/a/sub` and `github.com/y/b/c` fall into the groups of the roots
`github.com/x/a` and `github.com/y/b`; the first two, having the same root,
share a group. -/
theorem C22_grouping_partition_witness :
    ["github.com/x/a".toList, "github.com/x/a/sub".toList, "github.com/y/b/c".toList].foldl
      (groupImport {}) [] =
      [("github.com/x/a".toList, ["github.com/x/a".toList, "github.com/x/a/sub".toList]),
       ("github.com/y/b".toList, ["github.com/y/b/c".toList])] ∧
    ∃ key subs,
      (key, subs) ∈
        ["github.com/x/a".toList, "github.com/x/a/sub".toList,
          "github.com/y/b/c".toList].foldl (groupImport {}) [] ∧
      "github.com/x/a".toList ∈ subs ∧ "github.com/x/a/sub".toList ∈ subs :=
  ⟨by decide,
    (C22_grouping_partition {}
      ["github.com/x/a".toList, "github.com/x/a/sub".toList, "github.com/y/b/c".toList]).2.2.2.1
      "github.com/x/a".toList (by decide) "github.com/x/a/sub".toList (by decide) (by decide)⟩

/-! ## C23: imports that only share a string prefix with the package -/

/-- C23. The failing case: seen from the package `github.com/a/b`, the import
`github.com/a/bc/x` of a sibling repository, which is neither the package nor
under it segment-wise, is classified local. So `get github.com/a/b` fetches
the package alone, never the sibling, and records the sibling's path as a
sub-package of `github.com/a/b`. In general the classification as local
guarantees a shared string prefix only; an import that is the package or lies
under it segment-wise is never classified external. -/
theorem C23_sibling_classified_local :
    classifyImport "github.com/a/b".toList "github.com/a/bc/x".toList = .local ∧
    ¬SegPrefix "github.com/a/b".toList "github.com/a/bc/x".toList ∧
    (importPackage siblingWorld 3 {} "github.com/a/b".toList { FetchAll := true }).map
      (fun r => (r.err, r.state.trace, r.state.manifest.Packages)) =
      some (none, [.fetch "github.com/a/b".toList [] false false],
        [("github.com/a/b".toList,
          { CommitHash := "c0".toList,
            Subpackages := [("github.com/a/bc/x".toList, ())] })]) ∧
    (∀ pkg i : Str, classifyImport pkg i = .local →
      pkg <+: i ∨ strJoin '/' ((strSplit '/' pkg).take 3) <+: i) ∧
    (∀ pkg i : Str, pkg ≠ [] → SegPrefix pkg i → classifyImport pkg i ≠ .external) := by
  refine ⟨by decide, ?_, rfl, ?_, ?_⟩
  · rintro (h | ⟨rest, h⟩)
    · exact absurd h (by decide)
    · have hp : ("github.com/a/b".toList ++ ['/']) <+: "github.com/a/bc/x".toList :=
        ⟨rest, by rw [h]; simp⟩
      exact absurd hp (by decide)
  · intro pkg i h
    rw [classifyImport_eq_ref] at h
    unfold classifyRef at h
    split at h
    · simp at h
    · split at h
      · rename_i hc
        rcases hc with hc | hc
        · exact Or.inl hc.2
        · exact Or.inr hc.2
      · simp at h
  · intro pkg i hpkg hseg
    rw [classifyImport_eq_ref]
    refine classifyRef_local_under_pkg pkg i hpkg ?_
    rcases hseg with h | ⟨rest, h⟩
    · rw [h]
    · rw [h]
      exact List.prefix_append _ _

end Ven
